import Mathlib

/-!
# Control-flow graphs (`cfg.h`, `cfg.cc`)

A shallow embedding of `ControlFlowGraph::parse`, `ControlFlowGraph::visit` and
`ControlFlowGraph::generate_dot` and of the helpers they call.

* A `cfg_basic_block*` is the index of the block in `ControlFlowGraph.heap`, the list of
  blocks allocated with `new` so far, in allocation order.
* `std::map<uint64_t, cfg_basic_block*>` is a list of (key, pointer) pairs in ascending key
  order; an iterator is a position in that list and `end()` is the position one past the
  last pair.
* A `cs_insn*` into the instruction buffer is an index into the list of decoded instructions.
* `uint64_t` and `uint32_t` arithmetic is arithmetic on `Nat` reduced modulo `2^64` and `2^32`.
* A run of the code either returns a value or does not have a defined result (it reads
  through `end()`, through a null pointer, past the end of the instruction buffer, or it
  fails an `assert`); the second case is the `fault` outcome.
* The recursion of `visit_node` is given a bound on its depth; a run that would go deeper
  than the bound is the `starved` outcome.
* The text `generate_dot` writes is the list of the pieces its formatting functions append.
-/

namespace Cfgtool

/-! ## Instruction records (capstone's `cs_insn`, as far as the program reads it) -/

/-- Instruction identifiers. The program compares `insn->id` with `X86_INS_JMP` only. -/
inductive x86_insn where
  | X86_INS_JMP
  | other (id : Nat)
  deriving DecidableEq, Repr

/-- Instruction groups. The program compares group entries with `CS_GRP_JUMP` only. -/
inductive cs_group_type where
  | CS_GRP_JUMP
  | other (id : Nat)
  deriving DecidableEq, Repr

/-- Operand kinds of `cs_x86_op::type`. -/
inductive x86_op_type where
  | X86_OP_INVALID
  | X86_OP_REG
  | X86_OP_IMM
  | X86_OP_MEM
  deriving DecidableEq, Repr

/-- One operand: its kind and the 64 bits of its `imm` field read as unsigned. -/
structure cs_x86_op where
  type : x86_op_type
  imm : Nat
  deriving DecidableEq, Repr

/-- The fields of `cs_insn` that the program reads. `operands` holds the first `op_count`
entries of `detail->x86.operands`, `groups` the first `groups_count` entries of
`detail->groups`. -/
structure cs_insn where
  id : x86_insn
  address : Nat
  size : Nat
  groups : List cs_group_type
  operands : List cs_x86_op
  deriving DecidableEq, Repr

/-! ## Graph data (`cfg.h`) -/

/-- Generic edge description; `to_` is the member `to`, a block pointer. -/
structure cfg_edge where
  is_branch : Bool
  is_taken : Bool
  to_ : Nat
  deriving DecidableEq, Repr

/-- A `cfg_basic_block` together with the `cfg_node` fields it inherits. `insn` is the
index of the block's first instruction in the instruction buffer. -/
structure cfg_basic_block where
  edges : List cfg_edge
  visitor_seq : Nat
  addr : Nat
  size : Nat
  insn : Nat
  insn_count : Nat
  deriving DecidableEq, Repr

/-- The members of `ControlFlowGraph`, and the blocks allocated so far (`heap`). A null
`m_insn_buffer` is the empty list, a null `m_entry` is `none`. -/
structure ControlFlowGraph where
  heap : List cfg_basic_block
  m_insn_buffer : List cs_insn
  m_insn_count : Nat
  m_entry : Option Nat
  m_blocks : List (Nat × Nat)
  m_seq : Nat
  deriving DecidableEq, Repr

/-- The result of a call that returns a block pointer. -/
inductive Lookup where
  | fault
  | null
  | block (p : Nat)
  deriving DecidableEq, Repr

/-- The result of a call that returns `true` leaving a value, returns `false`, or has no
defined result. -/
inductive Outcome (α : Type) where
  | done (a : α)
  | failed
  | fault
  deriving DecidableEq, Repr

/-! ## Machine arithmetic -/

/-- Addition of `uint64_t` values. -/
def add64 (a b : Nat) : Nat := (a + b) % 18446744073709551616

/-- Subtraction of `uint64_t` values. -/
def sub64 (a b : Nat) : Nat :=
  (a % 18446744073709551616 + 18446744073709551616 - b % 18446744073709551616)
    % 18446744073709551616

/-- Addition of `uint32_t` values. -/
def add32 (a b : Nat) : Nat := (a + b) % 4294967296

/-- Subtraction of `uint32_t` values. -/
def sub32 (a b : Nat) : Nat :=
  (a % 4294967296 + 4294967296 - b % 4294967296) % 4294967296

/-! ## `cfg.cc` -/

/-- The function `create_edge`: append an edge to `src->edges`. `parse` calls it with
pointers of allocated blocks only; a pointer that names no block leaves the graph as it
is. -/
def create_edge (g : ControlFlowGraph) (src dst : Nat) (is_branch is_taken : Bool) :
    ControlFlowGraph :=
  match g.heap[src]? with
  | none => g
  | some b =>
    let e : cfg_edge := { is_branch := is_branch, is_taken := is_taken, to_ := dst }
    { g with heap := g.heap.set src { b with edges := b.edges ++ [e] } }

/-- The function `set_branch_target`. -/
def set_branch_target (g : ControlFlowGraph) (src dst : Nat) (brtaken : Bool) :
    ControlFlowGraph :=
  create_edge g src dst true brtaken

/-- The function `set_normal_target`. -/
def set_normal_target (g : ControlFlowGraph) (src dst : Nat) : ControlFlowGraph :=
  create_edge g src dst false false

/-- The function `is_control_flow_insn`: some group of the instruction is `CS_GRP_JUMP`. -/
def is_control_flow_insn (insn : cs_insn) : Bool :=
  insn.groups.any (fun grp => decide (grp = cs_group_type.CS_GRP_JUMP))

/-- The function `is_unconditional_jump`. -/
def is_unconditional_jump (insn : cs_insn) : Bool :=
  decide (insn.id = x86_insn.X86_INS_JMP)

/-- The function `get_jump_target`; `none` is a failed assertion. -/
def get_jump_target (insn : cs_insn) : Option Nat :=
  match insn.operands with
  | [op] =>
    match op.type with
    | x86_op_type.X86_OP_REG => some 0
    | x86_op_type.X86_OP_MEM => some 0
    | x86_op_type.X86_OP_IMM => some (op.imm % 18446744073709551616)
    | x86_op_type.X86_OP_INVALID => none
  | _ => none

/-- The constructor `ControlFlowGraph::ControlFlowGraph()`. -/
def ControlFlowGraph.ctor : ControlFlowGraph :=
  { heap := [], m_insn_buffer := [], m_insn_count := 0, m_entry := none, m_blocks := [],
    m_seq := 0 }

/-- The assignment `m[key] = p` on a `std::map`: replace the pointer stored under `key`, or
insert the pair at its place in key order. -/
def map_assign : List (Nat × Nat) → Nat → Nat → List (Nat × Nat)
  | [], key, p => [(key, p)]
  | (k, q) :: rest, key, p =>
    if key < k then (key, p) :: (k, q) :: rest
    else if key = k then (key, p) :: rest
    else (k, q) :: map_assign rest key p

/-- The position `m.lower_bound(key)`: the first pair whose key is not less than `key`,
the length of the list (`end()`) when there is none. -/
def lower_bound : List (Nat × Nat) → Nat → Nat
  | [], _ => 0
  | (k, _) :: rest, key => if key ≤ k then 0 else lower_bound rest key + 1

/-- The function `ControlFlowGraph::add_basic_block`: allocate a block, store its pointer
under `addr`, return the pointer. -/
def add_basic_block (g : ControlFlowGraph) (addr size insn insn_count : Nat) :
    ControlFlowGraph × Nat :=
  ({ g with
      heap := g.heap ++ [{ edges := [], visitor_seq := 0, addr := addr, size := size,
                           insn := insn, insn_count := insn_count }],
      m_blocks := map_assign g.m_blocks addr g.heap.length },
   g.heap.length)

/-- The function `ControlFlowGraph::find_basic_block`. The first test reads `i->first`
whatever `i` is, so it reads through `end()` when no key is at or above `addr`. -/
def find_basic_block (g : ControlFlowGraph) (addr : Nat) : Lookup :=
  let i := lower_bound g.m_blocks addr
  match g.m_blocks[i]? with
  | none => Lookup.fault
  | some (k, p) =>
    if k = addr then Lookup.block p
    else if i = 0 then Lookup.null
    else
      match g.m_blocks[i - 1]? with
      | none => Lookup.fault
      | some (_, q) => Lookup.block q

/-- The local variables of the first loop of `parse`, with the graph. `jumps` holds the
instructions the recorded pointers point to. -/
structure BuilderState where
  g : ControlFlowGraph
  block_start : Nat
  block_size : Nat
  block_insn_count : Nat
  jumps : List cs_insn
  prev : Option Nat
  deriving DecidableEq, Repr

/-- The statement `if (prev && !is_unconditional_jump(jumps.back())) set_branch_target(prev,
bb, false);` of `parse`; `none` is `jumps.back()` on an empty vector. -/
def link_prev (g : ControlFlowGraph) (prev : Option Nat) (jumps : List cs_insn) (bb : Nat) :
    Option ControlFlowGraph :=
  match prev with
  | none => some g
  | some p =>
    match jumps.getLast? with
    | none => none
    | some j =>
      if is_unconditional_jump j then some g else some (set_branch_target g p bb false)

/-- One iteration of the first loop of `parse`, at instruction `insn` of index `i`. -/
def block_step (s : BuilderState) (i : Nat) (insn : cs_insn) : Option BuilderState :=
  let block_size := add64 s.block_size insn.size
  let block_insn_count := add32 s.block_insn_count 1
  if is_control_flow_insn insn then
    let r := add_basic_block s.g s.block_start block_size (i + 1 - block_insn_count)
      block_insn_count
    match link_prev r.1 s.prev s.jumps r.2 with
    | none => none
    | some g1 =>
      some { g := g1, block_start := add64 s.block_start block_size, block_size := 0,
             block_insn_count := 0, jumps := s.jumps ++ [insn], prev := some r.2 }
  else
    some { s with block_size := block_size, block_insn_count := block_insn_count }

/-- The first loop of `parse` over the instructions from index `i` on. -/
def block_loop : List cs_insn → Nat → BuilderState → Option BuilderState
  | [], _, s => some s
  | insn :: rest, i, s =>
    match block_step s i insn with
    | none => none
    | some s1 => block_loop rest (i + 1) s1

/-- The block builder of `parse`: the first loop and the `if (block_size > 0)` statement
after it. The result is the graph and the recorded jumps. -/
def build_blocks (self : ControlFlowGraph) (insn_buffer : List cs_insn) (baseaddr : Nat) :
    Option (ControlFlowGraph × List cs_insn) :=
  match block_loop insn_buffer 0
      { g := self, block_start := baseaddr, block_size := 0, block_insn_count := 0,
        jumps := [], prev := none } with
  | none => none
  | some s =>
    if 0 < s.block_size then
      let r := add_basic_block s.g s.block_start s.block_size
        (insn_buffer.length - s.block_insn_count) s.block_insn_count
      match link_prev r.1 s.prev s.jumps r.2 with
      | none => none
      | some g1 => some (g1, s.jumps)
    else some (s.g, s.jumps)

/-- The loop `while (target_insn->address < target_addr)` of `parse`, run on the
instructions from `target_insn` on (`rest`); `none` is a read past the end of the
instruction buffer. The result is `target_insn` and `lead_insn_count` after the loop. -/
def scan_target : List cs_insn → Nat → Nat → Nat → Option (Nat × Nat)
  | [], _, _, _ => none
  | x :: rest, target_insn, lead_insn_count, target_addr =>
    if x.address < target_addr then
      scan_target rest (target_insn + 1) (add32 lead_insn_count 1) target_addr
    else some (target_insn, lead_insn_count)

/-- The statements of `parse` that split `target_bb` in two at `target_addr`, from the call
of `add_basic_block` to the end of the loop body; `tb` is the block `target_bb` points to.
The vector `target_bb->edges` is left empty by `std::move`. -/
def split_block (g : ControlFlowGraph) (src_bb : Lookup) (target_bb : Nat)
    (tb : cfg_basic_block) (target_addr target_insn lead_insn_count : Nat) :
    Outcome ControlFlowGraph :=
  let r := add_basic_block g target_addr (sub64 (add64 tb.addr tb.size) target_addr)
    target_insn (sub32 tb.insn_count lead_insn_count)
  let tail_bb := r.2
  let heap1 := r.1.heap.set target_bb
    { tb with size := sub64 target_addr tb.addr, insn_count := lead_insn_count, edges := [] }
  let heap2 :=
    match heap1[tail_bb]? with
    | none => heap1
    | some t => heap1.set tail_bb { t with edges := tb.edges }
  let g2 := { r.1 with heap := heap2 }
  match src_bb with
  | Lookup.block s => Outcome.done (set_normal_target (set_branch_target g2 s tail_bb true)
      target_bb tail_bb)
  | _ => Outcome.fault

/-- One iteration of the second loop of `parse`, at the recorded jump `jump_insn`. -/
def resolve_jump (insn_buffer : List cs_insn) (g : ControlFlowGraph) (jump_insn : cs_insn) :
    Outcome ControlFlowGraph :=
  match get_jump_target jump_insn with
  | none => Outcome.fault
  | some target_addr =>
    if target_addr = 0 then Outcome.done g
    else
      match find_basic_block g jump_insn.address with
      | Lookup.fault => Outcome.fault
      | src_bb =>
        match find_basic_block g target_addr with
        | Lookup.fault => Outcome.fault
        | Lookup.null => Outcome.failed
        | Lookup.block target_bb =>
          match g.heap[target_bb]? with
          | none => Outcome.fault
          | some tb =>
            if tb.addr = target_addr then
              match src_bb with
              | Lookup.block s => Outcome.done (set_branch_target g s target_bb true)
              | _ => Outcome.fault
            else
              match scan_target (insn_buffer.drop (tb.insn + 1)) (tb.insn + 1) 1
                  target_addr with
              | none => Outcome.fault
              | some (target_insn, lead_insn_count) =>
                match insn_buffer[target_insn]? with
                | none => Outcome.fault
                | some ti =>
                  if ti.address ≠ target_addr then Outcome.failed
                  else split_block g src_bb target_bb tb target_addr target_insn
                    lead_insn_count

/-- The second loop of `parse`, over the recorded jumps in order. -/
def resolve_jumps (insn_buffer : List cs_insn) :
    ControlFlowGraph → List cs_insn → Outcome ControlFlowGraph
  | g, [] => Outcome.done g
  | g, j :: rest =>
    match resolve_jump insn_buffer g j with
    | Outcome.done g1 => resolve_jumps insn_buffer g1 rest
    | Outcome.failed => Outcome.failed
    | Outcome.fault => Outcome.fault

/-- The function `ControlFlowGraph::parse`, called on the object `self`. -/
def parse (self : ControlFlowGraph) (insn_buffer : List cs_insn) (baseaddr : Nat) :
    Outcome ControlFlowGraph :=
  match build_blocks self insn_buffer baseaddr with
  | none => Outcome.fault
  | some (g0, jumps) =>
    match resolve_jumps insn_buffer g0 jumps with
    | Outcome.done g1 =>
      match find_basic_block g1 baseaddr with
      | Lookup.fault => Outcome.fault
      | Lookup.null =>
        Outcome.done { g1 with m_insn_buffer := insn_buffer,
                               m_insn_count := insn_buffer.length, m_entry := none }
      | Lookup.block e =>
        Outcome.done { g1 with m_insn_buffer := insn_buffer,
                               m_insn_count := insn_buffer.length, m_entry := some e }
    | Outcome.failed => Outcome.failed
    | Outcome.fault => Outcome.fault

/-! ## Vocabulary of the specification -/

/-- The blocks of the graph: the blocks the pointers stored in `m_blocks` point to, in
key order. -/
def blocks (g : ControlFlowGraph) : List cfg_basic_block :=
  g.m_blocks.filterMap (fun e => g.heap[e.2]?)

/-- The instructions from address `a` on are laid out one after the other: the first is at
`a`, each has positive size, each next one starts where the previous one ends. -/
def contiguous : Nat → List cs_insn → Bool
  | _, [] => true
  | a, x :: rest => decide (x.address = a) && (decide (0 < x.size) && contiguous (a + x.size) rest)

/-- The instruction records fit the C types that hold them: the number of instructions fits
the `uint32_t` instruction counter of a block, every address is a `uint64_t`, every size a
`uint16_t`. -/
def fits_types (insn_buffer : List cs_insn) : Bool :=
  decide (insn_buffer.length < 4294967296) &&
    insn_buffer.all (fun x => decide (x.address < 18446744073709551616) && decide (x.size < 65536))

/-- A well-formed input of `parse`: a non-empty instruction sequence of positive sizes whose
first address is `baseaddr` and in which every next address is the previous address plus
the previous size. -/
def WellFormed (insn_buffer : List cs_insn) (baseaddr : Nat) : Prop :=
  insn_buffer ≠ [] ∧ contiguous baseaddr insn_buffer = true

instance (insn_buffer : List cs_insn) (baseaddr : Nat) :
    Decidable (WellFormed insn_buffer baseaddr) := by
  unfold WellFormed
  infer_instance

/-- The address at which instruction `i` of the buffer starts when the buffer is laid out
from `baseaddr`; for `i` the length of the buffer, the address at which the buffer ends. -/
def addr_at (insn_buffer : List cs_insn) (baseaddr : Nat) (i : Nat) : Nat :=
  baseaddr + ((insn_buffer.take i).map (fun x => x.size)).sum

/-- The body of `find_basic_block` as a function of the map. -/
def floor_lookup (m : List (Nat × Nat)) (addr : Nat) : Lookup :=
  match m[lower_bound m addr]? with
  | none => Lookup.fault
  | some (k, p) =>
    if k = addr then Lookup.block p
    else if lower_bound m addr = 0 then Lookup.null
    else
      match m[lower_bound m addr - 1]? with
      | none => Lookup.fault
      | some (_, q) => Lookup.block q

/-- The pairs of a map, from the one that holds instruction `i` on, point to blocks that
hold the instructions from `i` up to `e` one block after the other, each block keyed by its
address; `A` gives the address of each instruction index. -/
def Tile (A : Nat → Nat) (heap : List cfg_basic_block) (e : Nat) :
    Nat → List (Nat × Nat) → Prop
  | i, [] => i = e
  | i, (k, p) :: rest =>
    ∃ b, heap[p]? = some b ∧ b.addr = k ∧ b.insn = i ∧ 0 < b.insn_count ∧ b.addr = A i ∧
      b.addr + b.size = A (i + b.insn_count) ∧ Tile A heap e (i + b.insn_count) rest

/-- The address function `A` is that of a buffer of `N` instructions that fits the machine:
addresses grow with the index, every instruction address is a `uint64_t`, the buffer is
shorter than `2^64` bytes and `2^32` instructions. -/
def Layout (A : Nat → Nat) (N : Nat) : Prop :=
  (∀ i j, i < j → j ≤ N → A i < A j) ∧ (∀ i, i < N → A i < 18446744073709551616) ∧
    A N < A 0 + 18446744073709551616 ∧ N < 4294967296

/-- The start addresses of the blocks of the graph, in key order. -/
def block_starts (g : ControlFlowGraph) : List Nat :=
  (blocks g).map (fun b => b.addr)

/-- The target of a direct jump: the `uint64_t` value of the immediate operand of an
instruction whose only operand is an immediate. -/
def direct_target (insn : cs_insn) : Option Nat :=
  match insn.operands with
  | [op] => if op.type = x86_op_type.X86_OP_IMM then some (op.imm % 18446744073709551616)
            else none
  | _ => none

/-- The direct jump targets of the input: the targets of its control-flow instructions that
have one, in input order. -/
def direct_targets (insn_buffer : List cs_insn) : List Nat :=
  (insn_buffer.filter is_control_flow_insn).filterMap direct_target

/-- An indirect transfer: the only operand of the instruction is a register or a memory
operand. -/
def is_indirect (insn : cs_insn) : Bool :=
  match insn.operands with
  | [op] => decide (op.type = x86_op_type.X86_OP_REG) || decide (op.type = x86_op_type.X86_OP_MEM)
  | _ => false

/-- Whether the graph has a taken-branch edge from the block that holds instruction `i` to
the block stored under key `t`. -/
def has_branch_taken (g : ControlFlowGraph) (i t : Nat) : Bool :=
  g.m_blocks.any (fun e =>
    match g.heap[e.2]? with
    | none => false
    | some src =>
      decide (src.insn ≤ i) && (decide (i < src.insn + src.insn_count) &&
        src.edges.any (fun ed =>
          ed.is_branch && (ed.is_taken &&
            g.m_blocks.any (fun d => decide (d.1 = t) && decide (d.2 = ed.to_))))))

/-- The graph has a taken-branch edge from a block that holds instruction `i` to the block
stored under key `t`; the blocks are those the map points to. -/
def BranchTakenEdge (g : ControlFlowGraph) (i t : Nat) : Prop :=
  ∃ (k p : Nat) (src : cfg_basic_block), (k, p) ∈ g.m_blocks ∧ g.heap[p]? = some src ∧
    src.insn ≤ i ∧ i < src.insn + src.insn_count ∧
    ∃ ed ∈ src.edges, ed.is_branch = true ∧ ed.is_taken = true ∧ (t, ed.to_) ∈ g.m_blocks

/-! ## Sample inputs -/

/-- A one-byte instruction at `a` that is no jump. -/
def insn_nop (a : Nat) : cs_insn :=
  { id := x86_insn.other 0, address := a, size := 1, groups := [], operands := [] }

/-- A two-byte conditional jump at `a` to the address `t`. -/
def insn_jcc (a t : Nat) : cs_insn :=
  { id := x86_insn.other 1, address := a, size := 2, groups := [cs_group_type.CS_GRP_JUMP],
    operands := [{ type := x86_op_type.X86_OP_IMM, imm := t }] }

/-- A two-byte unconditional jump at `a` to the address `t`. -/
def insn_jmp (a t : Nat) : cs_insn :=
  { id := x86_insn.X86_INS_JMP, address := a, size := 2,
    groups := [cs_group_type.CS_GRP_JUMP],
    operands := [{ type := x86_op_type.X86_OP_IMM, imm := t }] }

/-- A two-byte unconditional jump at `a` through a register. -/
def insn_jmp_reg (a : Nat) : cs_insn :=
  { id := x86_insn.X86_INS_JMP, address := a, size := 2,
    groups := [cs_group_type.CS_GRP_JUMP],
    operands := [{ type := x86_op_type.X86_OP_REG, imm := 0 }] }

/-- A block without edges that was never visited. -/
def plain_block (addr size insn insn_count : Nat) (edges : List cfg_edge) : cfg_basic_block :=
  { edges := edges, visitor_seq := 0, addr := addr, size := size, insn := insn,
    insn_count := insn_count }

/-- Six instructions at 0x1000: the conditional jump at 0x1001 goes to 0x1004, the second
instruction of the block that ends in the register jump at 0x1005 (the bytes
`90 74 01 90 90 FF E0 90` decoded at base 0x1000). -/
def sample_split : List cs_insn :=
  [insn_nop 0x1000, insn_jcc 0x1001 0x1004, insn_nop 0x1003, insn_nop 0x1004,
   insn_jmp_reg 0x1005, insn_nop 0x1007]

/-- The graph the block builder makes of `sample_split`. -/
def sample_split_built : ControlFlowGraph :=
  { heap := [plain_block 0x1000 3 0 2 [{ is_branch := true, is_taken := false, to_ := 1 }],
             plain_block 0x1003 4 2 3 [],
             plain_block 0x1007 1 5 1 []],
    m_insn_buffer := [], m_insn_count := 0, m_entry := none,
    m_blocks := [(0x1000, 0), (0x1003, 1), (0x1007, 2)], m_seq := 0 }

/-- The graph jump resolution makes of `sample_split_built`. -/
def sample_split_resolved : ControlFlowGraph :=
  { heap := [plain_block 0x1000 3 0 2 [{ is_branch := true, is_taken := false, to_ := 1 },
                                       { is_branch := true, is_taken := true, to_ := 3 }],
             plain_block 0x1003 1 2 1 [{ is_branch := false, is_taken := false, to_ := 3 }],
             plain_block 0x1007 1 5 1 [],
             plain_block 0x1004 3 3 2 []],
    m_insn_buffer := [], m_insn_count := 0, m_entry := none,
    m_blocks := [(0x1000, 0), (0x1003, 1), (0x1004, 3), (0x1007, 2)], m_seq := 0 }

/-- The graph `parse` makes of `sample_split` at base 0x1000. -/
def sample_split_graph : ControlFlowGraph :=
  { sample_split_resolved with
    m_insn_buffer := sample_split, m_insn_count := 6, m_entry := some 0 }

/-- Four instructions at 0x1000: the conditional jump at 0x1002 goes back to 0x1001, the
second instruction of its own block (the bytes `90 90 74 FD 90` decoded at base 0x1000). -/
def sample_loop : List cs_insn :=
  [insn_nop 0x1000, insn_nop 0x1001, insn_jcc 0x1002 0x1001, insn_nop 0x1004]

/-- The graph `parse` makes of `sample_loop` at base 0x1000. -/
def sample_loop_graph : ControlFlowGraph :=
  { heap := [plain_block 0x1000 1 0 1 [{ is_branch := true, is_taken := true, to_ := 2 },
                                       { is_branch := false, is_taken := false, to_ := 2 }],
             plain_block 0x1004 1 3 1 [],
             plain_block 0x1001 3 1 2 [{ is_branch := true, is_taken := false, to_ := 1 }]],
    m_insn_buffer := sample_loop, m_insn_count := 4, m_entry := some 0,
    m_blocks := [(0x1000, 0), (0x1001, 2), (0x1004, 1)], m_seq := 0 }

/-- One direct jump at 0x10 whose immediate target is the address 0 (the bytes `EB EE`
decoded at base 0x10). -/
def sample_zero : List cs_insn := [insn_jmp 0x10 0]

/-- The graph the block builder makes of `sample_zero`. -/
def sample_zero_built : ControlFlowGraph :=
  { heap := [plain_block 0x10 2 0 1 []], m_insn_buffer := [], m_insn_count := 0,
    m_entry := none, m_blocks := [(0x10, 0)], m_seq := 0 }

/-- The graph `parse` makes of `sample_zero` at base 0x10. -/
def sample_zero_graph : ControlFlowGraph :=
  { sample_zero_built with m_insn_buffer := sample_zero, m_insn_count := 1, m_entry := some 0 }

/-- Two instructions at 0: the direct jump at 1 goes to the address 0, the start of its own
block (the bytes `90 EB FD` decoded at base 0). -/
def sample_entry_jump : List cs_insn := [insn_nop 0, insn_jmp 1 0]

/-- The graph `parse` makes of `sample_entry_jump` at base 0. -/
def sample_entry_jump_graph : ControlFlowGraph :=
  { heap := [plain_block 0 3 0 2 []], m_insn_buffer := sample_entry_jump, m_insn_count := 2,
    m_entry := some 0, m_blocks := [(0, 0)], m_seq := 0 }

/-- One direct jump at 0x1000 into its own second byte (the bytes `EB FF` decoded at base
0x1000). -/
def sample_inside_last : List cs_insn := [insn_jmp 0x1000 0x1001]

/-- One direct jump at 0x1000 to 0x1002, the address at which the input ends (the bytes
`EB 00` decoded at base 0x1000). -/
def sample_past_end : List cs_insn := [insn_jmp 0x1000 0x1002]

/-- Two direct jumps at 0x1000: the first to 0x1010, beyond the input, the second to 0xfff,
before the base address (the bytes `EB 0E EB FB` decoded at base 0x1000). -/
def sample_before_base : List cs_insn := [insn_jmp 0x1000 0x1010, insn_jmp 0x1002 0xfff]

/-- Three instructions at 0x1000 whose only jump goes through a register (the bytes
`90 FF E0 90` decoded at base 0x1000). -/
def sample_indirect : List cs_insn := [insn_nop 0x1000, insn_jmp_reg 0x1001, insn_nop 0x1003]

/-- The graph `parse` makes of `sample_indirect` at base 0x1000. -/
def sample_indirect_graph : ControlFlowGraph :=
  { heap := [plain_block 0x1000 3 0 2 [], plain_block 0x1003 1 2 1 []],
    m_insn_buffer := sample_indirect, m_insn_count := 3, m_entry := some 0,
    m_blocks := [(0x1000, 0), (0x1003, 1)], m_seq := 0 }

/-- The buffer is laid out as `A` says: instruction `i` is at `A i` and ends at `A (i + 1)`. -/
def Linked (A : Nat → Nat) (insn_buffer : List cs_insn) : Prop :=
  ∀ (i : Nat) (x : cs_insn), insn_buffer[i]? = some x →
    x.address = A i ∧ A i + x.size = A (i + 1)

/-- No instruction of the block before its last one is a control-flow instruction. -/
def InnerOK (insn_buffer : List cs_insn) (b : cfg_basic_block) : Prop :=
  ∀ (k : Nat) (x : cs_insn), b.insn ≤ k → k + 1 < b.insn + b.insn_count →
    insn_buffer[k]? = some x → is_control_flow_insn x = false

/-- A block that ends in an unconditional jump for which `get_jump_target` gives 0 has no
edge. -/
def EdgeOK (insn_buffer : List cs_insn) (b : cfg_basic_block) : Prop :=
  ∀ (j : cs_insn), insn_buffer[b.insn + b.insn_count - 1]? = some j →
    is_control_flow_insn j = true → is_unconditional_jump j = true →
    get_jump_target j = some 0 → b.edges = []

/-- Every allocated block satisfies `InnerOK` and `EdgeOK`. -/
def HeapInv (insn_buffer : List cs_insn) (heap : List cfg_basic_block) : Prop :=
  ∀ (p : Nat) (b : cfg_basic_block), heap[p]? = some b →
    InnerOK insn_buffer b ∧ EdgeOK insn_buffer b

/-- The invariant of the first loop of `parse` before the iteration at index `i`. -/
structure BInv (A : Nat → Nat) (insn_buffer : List cs_insn) (i : Nat) (s : BuilderState) :
    Prop where
  count_le : s.block_insn_count ≤ i
  size_eq : s.block_size + A (i - s.block_insn_count) = A i
  start_eq : s.block_start = A (i - s.block_insn_count) % 18446744073709551616
  tile : Tile A s.g.heap (i - s.block_insn_count) 0 s.g.m_blocks
  jumps_eq : s.jumps = (insn_buffer.take i).filter is_control_flow_insn
  prev_last : ∀ p, s.prev = some p → ∃ (b : cfg_basic_block) (j : cs_insn),
    s.g.heap[p]? = some b ∧ s.jumps.getLast? = some j ∧
      insn_buffer[b.insn + b.insn_count - 1]? = some j
  heap_inv : HeapInv insn_buffer s.g.heap
  pending : ∀ (k : Nat) (x : cs_insn), i - s.block_insn_count ≤ k → k < i →
    insn_buffer[k]? = some x → is_control_flow_insn x = false

/-! ## Traversal (`cfg.h`, `cfg.cc`) -/

/-- The result of a traversal: it returned, leaving the graph `g` and the output `out` of
the callback; or it has no defined result (a read through a pointer that names no block);
or the recursion went deeper than the bound given to the model. -/
inductive Visit (β : Type) where
  | returned (g : ControlFlowGraph) (out : List β)
  | fault
  | starved
  deriving DecidableEq, Repr

/-- The function `ControlFlowGraph::begin`; `none` is the read through a null or dangling
`m_entry`. The sum `m_entry->visitor_seq + 1` is a sum of `uint32_t`. -/
def begin (g : ControlFlowGraph) : Option ControlFlowGraph :=
  match g.m_entry with
  | none => none
  | some e =>
    match g.heap[e]? with
    | none => none
    | some b => some { g with m_seq := add32 b.visitor_seq 1 }

/-- The function `ControlFlowGraph::is_visited`; `none` is the read through a pointer that
names no block. -/
def is_visited (g : ControlFlowGraph) (node : Nat) : Option Bool :=
  match g.heap[node]? with
  | none => none
  | some b => some (decide (b.visitor_seq = g.m_seq))

/-- The function `ControlFlowGraph::mark_visited`: the `uint64_t` value `m_seq` is stored in
the `uint32_t` member `visitor_seq`. -/
def mark_visited (g : ControlFlowGraph) (node : Nat) : Option ControlFlowGraph :=
  match g.heap[node]? with
  | none => none
  | some b =>
    some { g with heap := g.heap.set node { b with visitor_seq := g.m_seq % 4294967296 } }

/-- The loop `for (auto edge : bb->edges)` of `visit_node`; `call` is the recursive call of
`visit_node`. -/
def visit_edges {β : Type} (call : ControlFlowGraph → Nat → List β → Visit β) :
    List cfg_edge → ControlFlowGraph → List β → Visit β
  | [], g, out => Visit.returned g out
  | edge :: rest, g, out =>
    match is_visited g edge.to_ with
    | none => Visit.fault
    | some true => visit_edges call rest g out
    | some false =>
      match call g edge.to_ out with
      | Visit.returned g1 out1 => visit_edges call rest g1 out1
      | Visit.fault => Visit.fault
      | Visit.starved => Visit.starved

/-- The function `ControlFlowGraph::visit_node` called on a pointer that is not null. The
callback `visitor` reads the graph as it is at the call and gives the output it appends,
`none` when it reads through a pointer that names no block. The first argument bounds the
depth of the recursion. -/
def visit_node {β : Type} (visitor : ControlFlowGraph → Nat → Option (List β)) :
    Nat → ControlFlowGraph → Nat → List β → Visit β
  | 0, _, _, _ => Visit.starved
  | fuel + 1, g, node, out =>
    match visitor g node with
    | none => Visit.fault
    | some text =>
      match mark_visited g node with
      | none => Visit.fault
      | some g1 =>
        match g1.heap[node]? with
        | none => Visit.fault
        | some bb => visit_edges (visit_node visitor fuel) bb.edges g1 (out ++ text)

/-- The function `ControlFlowGraph::visit`. `begin` reads through `m_entry` before
`visit_node` tests it, so the test `if (!node) return;` never sees a null pointer. -/
def visit {β : Type} (visitor : ControlFlowGraph → Nat → Option (List β)) (fuel : Nat)
    (g : ControlFlowGraph) : Visit β :=
  match begin g with
  | none => Visit.fault
  | some g1 =>
    match g1.m_entry with
    | none => Visit.returned g1 []
    | some e => visit_node visitor fuel g1 e []

/-- The callback that records the pointer it is called with. -/
def record_node (_ : ControlFlowGraph) (node : Nat) : Option (List Nat) := some [node]

/-- The pointers on which `visit` invokes its callback, in order. -/
def visit_calls (fuel : Nat) (g : ControlFlowGraph) : Visit Nat := visit record_node fuel g

/-- The result of the call of `visit` number `k + 1` on a graph, the calls before it having
returned; no marks are reset between the calls. -/
def visit_again (fuel : Nat) (g : ControlFlowGraph) : Nat → Visit Nat
  | 0 => visit_calls fuel g
  | k + 1 =>
    match visit_again fuel g k with
    | Visit.returned g1 _ => visit_calls fuel g1
    | Visit.fault => Visit.fault
    | Visit.starved => Visit.starved

/-! ## Rendering (`cfg.cc`) -/

/-- The colour attribute of an edge declaration. -/
inductive dot_color where
  | blue
  | red
  | gray
  deriving DecidableEq, Repr

/-- The pieces of the text `generate_dot` writes. A node name, the text `"0x<addr>"`, is
held as the address it prints; a label is held as the instructions it prints.
* `header`: the four lines from `digraph "disassembly"` to `rank1 [style=invis]`;
* `chain names`: the line `rank1->name->...->name [style=invis]`;
* `node name label`: the line `dot_format_node` gives;
* `edge src dst color`: the line `dot_format_edge` gives;
* `close`: the closing brace. -/
inductive dot_stmt where
  | header
  | chain (names : List Nat)
  | node (name : Nat) (label : List cs_insn)
  | edge (src dst : Nat) (color : dot_color)
  | close
  deriving DecidableEq, Repr

/-- The function `dot_node_name`; `none` is the read through a pointer that names no
block. -/
def dot_node_name (g : ControlFlowGraph) (node : Nat) : Option Nat :=
  match g.heap[node]? with
  | none => none
  | some b => some b.addr

/-- The function `dot_format_edge`. -/
def dot_format_edge (g : ControlFlowGraph) (node : Nat) (edge : cfg_edge) : Option dot_stmt :=
  match dot_node_name g node with
  | none => none
  | some src =>
    match dot_node_name g edge.to_ with
    | none => none
    | some dst =>
      some (dot_stmt.edge src dst
        (if edge.is_branch then
          (if edge.is_taken then dot_color.blue else dot_color.red)
         else dot_color.gray))

/-- The loop of `dot_format_node` over `bb->insn[i]` for `count` instructions from index
`i`; `none` is a read past the end of the instruction buffer. -/
def dot_label (insn_buffer : List cs_insn) : Nat → Nat → Option (List cs_insn)
  | _, 0 => some []
  | i, count + 1 =>
    match insn_buffer[i]? with
    | none => none
    | some x =>
      match dot_label insn_buffer (i + 1) count with
      | none => none
      | some rest => some (x :: rest)

/-- The function `dot_format_node`. -/
def dot_format_node (g : ControlFlowGraph) (node : Nat) : Option dot_stmt :=
  match g.heap[node]? with
  | none => none
  | some bb =>
    match dot_label g.m_insn_buffer bb.insn bb.insn_count with
    | none => none
    | some label => some (dot_stmt.node bb.addr label)

/-- The loop `for (auto edge : node->edges) strbuf << dot_format_edge(node, &edge);` of the
callback of `generate_dot`. -/
def dot_format_edges (g : ControlFlowGraph) (node : Nat) :
    List cfg_edge → Option (List dot_stmt)
  | [] => some []
  | edge :: rest =>
    match dot_format_edge g node edge with
    | none => none
    | some x =>
      match dot_format_edges g node rest with
      | none => none
      | some xs => some (x :: xs)

/-- The callback `generate_dot` passes to `visit`. -/
def dot_visitor (g : ControlFlowGraph) (node : Nat) : Option (List dot_stmt) :=
  match dot_format_node g node with
  | none => none
  | some n =>
    match g.heap[node]? with
    | none => none
    | some bb =>
      match dot_format_edges g node bb.edges with
      | none => none
      | some es => some (n :: es)

/-- The loop of `generate_dot` over `m_blocks` that names the blocks in key order. -/
def dot_chain (g : ControlFlowGraph) : List (Nat × Nat) → Option (List Nat)
  | [] => some []
  | e :: rest =>
    match dot_node_name g e.2 with
    | none => none
    | some name =>
      match dot_chain g rest with
      | none => none
      | some names => some (name :: names)

/-- The function `ControlFlowGraph::generate_dot`. -/
def generate_dot (fuel : Nat) (g : ControlFlowGraph) : Visit dot_stmt :=
  match dot_chain g g.m_blocks with
  | none => Visit.fault
  | some names =>
    match visit dot_visitor fuel g with
    | Visit.returned g1 body =>
      Visit.returned g1 ([dot_stmt.header, dot_stmt.chain names] ++ body ++ [dot_stmt.close])
    | Visit.fault => Visit.fault
    | Visit.starved => Visit.starved

/-! ## Vocabulary of the specification: edges, traversal, rendering -/

/-- The classification of an edge. -/
inductive edge_kind where
  | Fallthrough
  | BranchTaken
  | BranchNotTaken
  deriving DecidableEq, Repr

/-- The classification of an edge by its two flags, as `dot_format_edge` reads them. -/
def classify (e : cfg_edge) : edge_kind :=
  if e.is_branch then
    (if e.is_taken then edge_kind.BranchTaken else edge_kind.BranchNotTaken)
  else edge_kind.Fallthrough

/-- The last instruction of a block. -/
def last_insn (insn_buffer : List cs_insn) (b : cfg_basic_block) : Option cs_insn :=
  insn_buffer[b.insn + b.insn_count - 1]?

/-- The blocks the edges of block `p` point to, in edge-list order. -/
def successors (g : ControlFlowGraph) (p : Nat) : List Nat :=
  match g.heap[p]? with
  | none => []
  | some b => b.edges.map (fun e => e.to_)

/-- Block `b` is reachable from block `a` by following edges. -/
def Reachable (g : ControlFlowGraph) (a b : Nat) : Prop :=
  Relation.ReflTransGen (fun x y => y ∈ successors g x) a b

/-- Depth-first exploration of the nodes `n :: rest` in this order, each one unless it was
discovered before; `seen` lists the nodes discovered so far in the order of discovery and
`call` explores from one node. -/
def dfs_edges (call : List Nat → Nat → Option (List Nat)) :
    List Nat → List Nat → Option (List Nat)
  | [], seen => some seen
  | n :: rest, seen =>
    if n ∈ seen then dfs_edges call rest seen
    else
      match call seen n with
      | none => none
      | some seen1 => dfs_edges call rest seen1

/-- Depth-first exploration from the node `n`, which was not discovered before: `n` is
listed, then its successors are explored in the order `succ` gives them. The first argument
bounds the depth. -/
def dfs_node (succ : Nat → List Nat) : Nat → List Nat → Nat → Option (List Nat)
  | 0, _, _ => none
  | fuel + 1, seen, n => dfs_edges (dfs_node succ fuel) (succ n) (seen ++ [n])

/-- The depth-first pre-order of the graph from its entry block, the successors of a block
taken in the order of its edge list. No path without a repeated block is longer than the
number of allocated blocks, which bounds the depth. -/
def dfs_preorder (g : ControlFlowGraph) : Option (List Nat) :=
  match g.m_entry with
  | none => none
  | some e => dfs_node (successors g) g.heap.length [] e

/-- The names of the node declarations of a text, in order. -/
def node_decls : List dot_stmt → List Nat
  | [] => []
  | dot_stmt.node name _ :: rest => name :: node_decls rest
  | _ :: rest => node_decls rest

/-- The edge declarations of a text, in order: source, destination, colour. -/
def edge_decls : List dot_stmt → List (Nat × Nat × dot_color)
  | [] => []
  | dot_stmt.edge src dst color :: rest => (src, dst, color) :: edge_decls rest
  | _ :: rest => edge_decls rest

/-- The number of edges of the blocks of the graph. -/
def edge_count (g : ControlFlowGraph) : Nat :=
  ((blocks g).map (fun b => b.edges.length)).sum

/-- The colour that stands for a classification. -/
def color_of (k : edge_kind) : dot_color :=
  match k with
  | edge_kind.BranchTaken => dot_color.blue
  | edge_kind.BranchNotTaken => dot_color.red
  | edge_kind.Fallthrough => dot_color.gray

/-- The start address of the block `p` points to, 0 when `p` names no block. -/
def block_addr (g : ControlFlowGraph) (p : Nat) : Nat :=
  match g.heap[p]? with
  | none => 0
  | some b => b.addr

/-- One edge declaration for each edge of block `p`, in edge-list order: the addresses of
the block and of the destination, and the colour of the classification. -/
def block_edge_decls (g : ControlFlowGraph) (p : Nat) : List (Nat × Nat × dot_color) :=
  match g.heap[p]? with
  | none => []
  | some b => b.edges.map (fun e => (b.addr, block_addr g e.to_, color_of (classify e)))

/-- The declarations that stand for block `p`: its node declaration, then one edge
declaration for each of its edges in edge-list order. -/
def block_decls (g : ControlFlowGraph) (p : Nat) : List dot_stmt :=
  match g.heap[p]? with
  | none => []
  | some b =>
    dot_stmt.node b.addr ((g.m_insn_buffer.drop b.insn).take b.insn_count) ::
      b.edges.map (fun e =>
        dot_stmt.edge b.addr (block_addr g e.to_) (color_of (classify e)))

/-- The graph without its visitation marks: every `visitor_seq` and `m_seq` set to 0. Two
graphs with the same image differ in their marks only. -/
def unmark (g : ControlFlowGraph) : ControlFlowGraph :=
  { g with heap := g.heap.map (fun b => { b with visitor_seq := 0 }), m_seq := 0 }

/-- What a depth-first exploration from the nodes `roots` has done when it turns the list
`V` of discovered nodes into `V1`: it has appended nodes, each one reachable from a root;
it has kept the list free of repetitions; every successor of an appended node is in the
list, and so is every root. -/
structure DfsPost (succ : Nat → List Nat) (roots : List Nat) (V V1 : List Nat) : Prop where
  ext : ∃ ext : List Nat, V1 = V ++ ext
  reach : ∀ x ∈ V1, x ∈ V ∨ ∃ m ∈ roots, Relation.ReflTransGen (fun a b => b ∈ succ a) m x
  nodup : V.Nodup → V1.Nodup
  closed : ∀ x ∈ V1, x ∉ V → ∀ y ∈ succ x, y ∈ V1
  roots_in : ∀ m ∈ roots, m ∈ V1

/-- The output of a callback that appends `f p` when called on `p`, after calls on the
nodes of a list in order. -/
def emitted {β : Type} (f : Nat → List β) : List Nat → List β
  | [] => []
  | p :: rest => f p ++ emitted f rest

/-- A traversal in progress: `g` is the graph `g0` the traversal started from up to marks,
with the same `m_seq`, and a block reachable from `e` carries the mark `m_seq` exactly when
it is in the list `V` of blocks visited so far. -/
def Marked (g0 : ControlFlowGraph) (e : Nat) (g : ControlFlowGraph) (V : List Nat) : Prop :=
  unmark g = unmark g0 ∧ g.m_seq = g0.m_seq ∧
  ∀ (x : Nat) (b : cfg_basic_block), Reachable g0 e x → g.heap[x]? = some b →
    (b.visitor_seq = g.m_seq ↔ x ∈ V)

/-- A graph on which a traversal can start: the entry points to a block, every edge points
to an allocated block, and every block reachable from the entry carries the mark of the
entry block, a `uint32_t`. -/
def Fresh (g : ControlFlowGraph) : Prop :=
  ∃ (e : Nat) (be : cfg_basic_block), g.m_entry = some e ∧ g.heap[e]? = some be ∧
    be.visitor_seq < 4294967296 ∧
    (∀ (p : Nat) (b : cfg_basic_block), g.heap[p]? = some b →
      ∀ ed ∈ b.edges, ed.to_ < g.heap.length) ∧
    (∀ (x : Nat) (b : cfg_basic_block), Reachable g e x → g.heap[x]? = some b →
      b.visitor_seq = be.visitor_seq)

/-! ## Invariants of the edges -/

/-- Every allocated block is stored in the map under its address and was never visited,
every edge points to an allocated block, and a block that ends in an unconditional jump has
taken-branch edges only. -/
def EdgeInv (insn_buffer : List cs_insn) (g : ControlFlowGraph) : Prop :=
  ∀ (p : Nat) (b : cfg_basic_block), g.heap[p]? = some b →
    (b.addr, p) ∈ g.m_blocks ∧ b.visitor_seq = 0 ∧
    (∀ e ∈ b.edges, e.to_ < g.heap.length) ∧
    (∀ (j : cs_insn), insn_buffer[b.insn + b.insn_count - 1]? = some j →
      is_control_flow_insn j = true → is_unconditional_jump j = true →
      ∀ e ∈ b.edges, e.is_branch = true ∧ e.is_taken = true)

/-- The edges of the graph the block builder makes: a block that ends in a conditional jump
and is followed by an instruction has one edge, a not-taken branch to the block that starts
at that instruction; every other block has no edge. -/
def BuiltEdges (insn_buffer : List cs_insn) (g : ControlFlowGraph) : Prop :=
  ∀ (p : Nat) (b : cfg_basic_block) (j : cs_insn), g.heap[p]? = some b →
    insn_buffer[b.insn + b.insn_count - 1]? = some j →
    ((is_control_flow_insn j = true ∧ is_unconditional_jump j = false ∧
        b.insn + b.insn_count < insn_buffer.length) →
      ∃ (q : Nat) (d : cfg_basic_block),
        b.edges = [{ is_branch := true, is_taken := false, to_ := q }] ∧
        g.heap[q]? = some d ∧ d.insn = b.insn + b.insn_count) ∧
    (¬ (is_control_flow_insn j = true ∧ is_unconditional_jump j = false ∧
        b.insn + b.insn_count < insn_buffer.length) → b.edges = [])

/-- The part of the invariant of the first loop of `parse` that is about edges, before the
iteration at index `i`. -/
structure BInv2 (insn_buffer : List cs_insn) (i : Nat) (s : BuilderState) : Prop where
  stored : ∀ (p : Nat) (b : cfg_basic_block), s.g.heap[p]? = some b →
    (b.addr, p) ∈ s.g.m_blocks ∧ b.visitor_seq = 0
  last_cf : ∀ (p : Nat) (b : cfg_basic_block), s.g.heap[p]? = some b →
    ∃ j : cs_insn, insn_buffer[b.insn + b.insn_count - 1]? = some j ∧
      is_control_flow_insn j = true
  closed : ∀ (p : Nat) (b : cfg_basic_block) (j : cs_insn), s.g.heap[p]? = some b →
    s.prev ≠ some p → insn_buffer[b.insn + b.insn_count - 1]? = some j →
    (is_unconditional_jump j = true → b.edges = []) ∧
    (is_unconditional_jump j = false →
      ∃ (q : Nat) (d : cfg_basic_block),
        b.edges = [{ is_branch := true, is_taken := false, to_ := q }] ∧
        s.g.heap[q]? = some d ∧ d.insn = b.insn + b.insn_count)
  open_prev : ∀ (p : Nat) (b : cfg_basic_block), s.prev = some p → s.g.heap[p]? = some b →
    b.edges = [] ∧ b.insn + b.insn_count = i - s.block_insn_count

/-- Some allocated block ends in instruction `idx`, and every allocated block that does has
the edge list `E`. -/
def EdgesAt (g : ControlFlowGraph) (idx : Nat) (E : List cfg_edge) : Prop :=
  (∃ (p : Nat) (b : cfg_basic_block), g.heap[p]? = some b ∧
    b.insn + b.insn_count - 1 = idx) ∧
  ∀ (p : Nat) (b : cfg_basic_block), g.heap[p]? = some b →
    b.insn + b.insn_count - 1 = idx → b.edges = E

/-! ## More sample inputs -/

/-- Two instructions at 0x10: the conditional jump at 0x10 has the immediate target 0 (the
bytes `74 EE 90` decoded at base 0x10). -/
def sample_cond_zero : List cs_insn := [insn_jcc 0x10 0, insn_nop 0x12]

/-- The graph `parse` makes of `sample_cond_zero` at base 0x10. -/
def sample_cond_zero_graph : ControlFlowGraph :=
  { heap := [plain_block 0x10 2 0 1 [{ is_branch := true, is_taken := false, to_ := 1 }],
             plain_block 0x12 1 1 1 []],
    m_insn_buffer := sample_cond_zero, m_insn_count := 2, m_entry := some 0,
    m_blocks := [(0x10, 0), (0x12, 1)], m_seq := 0 }

/-- One conditional jump at 0x1000 to itself, the last instruction of the input (the bytes
`74 FE` decoded at base 0x1000). -/
def sample_cond_last : List cs_insn := [insn_jcc 0x1000 0x1000]

/-- The graph `parse` makes of `sample_cond_last` at base 0x1000. -/
def sample_cond_last_graph : ControlFlowGraph :=
  { heap := [plain_block 0x1000 2 0 1 [{ is_branch := true, is_taken := true, to_ := 0 }]],
    m_insn_buffer := sample_cond_last, m_insn_count := 1, m_entry := some 0,
    m_blocks := [(0x1000, 0)], m_seq := 0 }

/-- Three instructions at 0x1000: the conditional jump at 0x1001 goes back to 0x1000, the
start of its own block (the bytes `90 74 FD 90` decoded at base 0x1000). -/
def sample_self_loop : List cs_insn :=
  [insn_nop 0x1000, insn_jcc 0x1001 0x1000, insn_nop 0x1003]

/-- The graph `parse` makes of `sample_self_loop` at base 0x1000. -/
def sample_self_loop_graph : ControlFlowGraph :=
  { heap := [plain_block 0x1000 3 0 2 [{ is_branch := true, is_taken := false, to_ := 1 },
                                       { is_branch := true, is_taken := true, to_ := 0 }],
             plain_block 0x1003 1 2 1 []],
    m_insn_buffer := sample_self_loop, m_insn_count := 3, m_entry := some 0,
    m_blocks := [(0x1000, 0), (0x1003, 1)], m_seq := 0 }

/-- Two instructions at 0x1000: the unconditional jump at 0x1000 goes to 0x1002, the
instruction after it (the bytes `EB 00 90` decoded at base 0x1000). -/
def sample_jump_next : List cs_insn := [insn_jmp 0x1000 0x1002, insn_nop 0x1002]

/-- The graph `parse` makes of `sample_jump_next` at base 0x1000. -/
def sample_jump_next_graph : ControlFlowGraph :=
  { heap := [plain_block 0x1000 2 0 1 [{ is_branch := true, is_taken := true, to_ := 1 }],
             plain_block 0x1002 1 1 1 []],
    m_insn_buffer := sample_jump_next, m_insn_count := 2, m_entry := some 0,
    m_blocks := [(0x1000, 0), (0x1002, 1)], m_seq := 0 }

/-- The graph the block builder makes of `sample_inside_last`: one block at 0x1000. -/
def sample_inside_last_built : ControlFlowGraph :=
  { heap := [plain_block 0x1000 2 0 1 []], m_insn_buffer := [], m_insn_count := 0,
    m_entry := none, m_blocks := [(0x1000, 0)], m_seq := 0 }

/-! ## Addresses of a contiguous buffer -/

theorem addr_at_zero (buf : List cs_insn) (base : Nat) : addr_at buf base 0 = base := by
  simp [addr_at]

theorem addr_at_succ (buf : List cs_insn) (base i : Nat) (x : cs_insn)
    (h : buf[i]? = some x) : addr_at buf base (i + 1) = addr_at buf base i + x.size := by
  induction buf generalizing base i with
  | nil => simp at h
  | cons y rest ih =>
    cases i with
    | zero =>
      simp at h
      subst h
      simp [addr_at]
    | succ n =>
      simp at h
      have h1 := ih (base + y.size) n h
      simp [addr_at] at h1 ⊢
      omega

theorem addr_at_cons (y : cs_insn) (rest : List cs_insn) (base i : Nat) :
    addr_at (y :: rest) base (i + 1) = addr_at rest (base + y.size) i := by
  simp [addr_at]
  omega

theorem addr_at_ge_length (buf : List cs_insn) (base i : Nat) (h : buf.length ≤ i) :
    addr_at buf base i = addr_at buf base buf.length := by
  simp [addr_at, List.take_of_length_le h]

theorem contiguous_get (buf : List cs_insn) (base i : Nat) (x : cs_insn)
    (hc : contiguous base buf = true) (h : buf[i]? = some x) :
    x.address = addr_at buf base i ∧ 0 < x.size := by
  induction buf generalizing base i with
  | nil => simp at h
  | cons y rest ih =>
    simp [contiguous] at hc
    cases i with
    | zero =>
      simp at h
      subst h
      simp [addr_at, hc.1, hc.2.1]
    | succ n =>
      simp at h
      rw [addr_at_cons]
      exact ih (base + y.size) n hc.2.2 h

theorem addr_at_lt_succ (buf : List cs_insn) (base i : Nat)
    (hc : contiguous base buf = true) (h : i < buf.length) :
    addr_at buf base i < addr_at buf base (i + 1) := by
  have hx : buf[i]? = some buf[i] := List.getElem?_eq_getElem h
  have h1 := contiguous_get buf base i _ hc hx
  rw [addr_at_succ buf base i _ hx]
  omega

theorem addr_at_strict (buf : List cs_insn) (base : Nat) (hc : contiguous base buf = true)
    (i j : Nat) (hij : i < j) (hj : j ≤ buf.length) :
    addr_at buf base i < addr_at buf base j := by
  induction j with
  | zero => omega
  | succ n ih =>
    have h1 := addr_at_lt_succ buf base n hc (by omega)
    by_cases hin : i = n
    · subst hin; exact h1
    · have := ih (by omega) (by omega)
      omega

theorem sizes_sum_le (buf : List cs_insn)
    (h : ∀ x ∈ buf, x.size < 65536) :
    (buf.map (fun x => x.size)).sum ≤ buf.length * 65536 := by
  induction buf with
  | nil => simp
  | cons y rest ih =>
    have h1 := h y (by simp)
    have h2 := ih (fun x hx => h x (by simp [hx]))
    simp at h2 ⊢
    omega

theorem Layout_of_WellFormed (buf : List cs_insn) (base : Nat) (h : WellFormed buf base)
    (hr : fits_types buf = true) : Layout (addr_at buf base) buf.length := by
  obtain ⟨_, hc⟩ := h
  simp [fits_types] at hr
  refine ⟨fun i j hij hj => addr_at_strict buf base hc i j hij hj, ?_, ?_, hr.1⟩
  · intro i hi
    have hx : buf[i]? = some buf[i] := List.getElem?_eq_getElem hi
    have h1 := contiguous_get buf base i _ hc hx
    have h2 := hr.2 buf[i] (List.getElem_mem hi)
    omega
  · have h1 := sizes_sum_le buf (fun x hx => (hr.2 x hx).2)
    simp [addr_at]
    omega

/-! ## The map: lookup and tiling -/

theorem find_basic_block_eq (g : ControlFlowGraph) (a : Nat) :
    find_basic_block g a = floor_lookup g.m_blocks a := rfl

theorem floor_lookup_nil (a : Nat) : floor_lookup [] a = Lookup.fault := rfl

theorem floor_lookup_cons (k p : Nat) (rest : List (Nat × Nat)) (a : Nat) :
    floor_lookup ((k, p) :: rest) a =
      if a ≤ k then (if k = a then Lookup.block p else Lookup.null)
      else (match floor_lookup rest a with
            | Lookup.null => Lookup.block p
            | r => r) := by
  by_cases h : a ≤ k
  · simp [floor_lookup, lower_bound, h]
  · simp only [floor_lookup, lower_bound, h, if_false, List.getElem?_cons_succ]
    cases hr : rest[lower_bound rest a]? with
    | none => simp
    | some e =>
      obtain ⟨k2, p2⟩ := e
      simp only [Nat.add_sub_cancel]
      by_cases h2 : k2 = a
      · simp [h2]
      · simp only [h2, if_false, Nat.add_one_ne_zero]
        by_cases h3 : lower_bound rest a = 0
        · simp [h3]
        · obtain ⟨n, hn⟩ := Nat.exists_eq_succ_of_ne_zero h3
          simp only [hn, Nat.succ_eq_add_one, List.getElem?_cons_succ, Nat.add_sub_cancel,
            Nat.add_one_ne_zero, if_false]
          cases rest[n]? with
          | none => simp
          | some e2 => simp

theorem floor_lookup_null (m : List (Nat × Nat)) (a : Nat)
    (h : floor_lookup m a = Lookup.null) :
    ∃ k p r, m = (k, p) :: r ∧ a < k := by
  cases m with
  | nil => simp [floor_lookup_nil] at h
  | cons e r =>
    obtain ⟨k, p⟩ := e
    rw [floor_lookup_cons] at h
    by_cases h1 : a ≤ k
    · by_cases h2 : k = a
      · simp [h1, h2] at h
      · exact ⟨k, p, r, rfl, by omega⟩
    · simp only [h1, if_false] at h
      cases h3 : floor_lookup r a <;> simp [h3] at h

theorem floor_lookup_mem (m : List (Nat × Nat)) (a t : Nat)
    (h : floor_lookup m a = Lookup.block t) : ∃ k, (k, t) ∈ m ∧ k ≤ a := by
  induction m with
  | nil => simp [floor_lookup_nil] at h
  | cons e r ih =>
    obtain ⟨k, p⟩ := e
    rw [floor_lookup_cons] at h
    by_cases h1 : a ≤ k
    · by_cases h2 : k = a
      · simp [h1, h2] at h
        exact ⟨k, by simp [h], by omega⟩
      · simp [h1, h2] at h
    · simp only [h1, if_false] at h
      cases h3 : floor_lookup r a with
      | fault => simp [h3] at h
      | null =>
        simp [h3] at h
        exact ⟨k, by simp [h], by omega⟩
      | block q =>
        simp [h3] at h
        subst h
        obtain ⟨k2, hk2, hle⟩ := ih h3
        exact ⟨k2, by simp [hk2], hle⟩

theorem Tile_le (A : Nat → Nat) (heap : List cfg_basic_block) (e i : Nat)
    (m : List (Nat × Nat)) (h : Tile A heap e i m) : i ≤ e := by
  induction m generalizing i with
  | nil => simp [Tile] at h; omega
  | cons x r ih =>
    obtain ⟨k, p⟩ := x
    obtain ⟨b, -, -, -, -, -, -, hr⟩ := h
    have := ih _ hr
    omega

theorem Tile_mem (A : Nat → Nat) (heap : List cfg_basic_block) (e i : Nat)
    (m : List (Nat × Nat)) (h : Tile A heap e i m) (k p : Nat) (hm : (k, p) ∈ m) :
    ∃ b, heap[p]? = some b ∧ b.addr = k ∧ i ≤ b.insn ∧ 0 < b.insn_count ∧
      b.insn + b.insn_count ≤ e ∧ b.addr = A b.insn ∧
      b.addr + b.size = A (b.insn + b.insn_count) := by
  induction m generalizing i with
  | nil => simp at hm
  | cons x r ih =>
    obtain ⟨k1, p1⟩ := x
    obtain ⟨b, hb, hk, hi, hc, ha, hs, hr⟩ := h
    have hle := Tile_le A heap e _ r hr
    simp at hm
    rcases hm with ⟨rfl, rfl⟩ | hm
    · exact ⟨b, hb, hk, by omega, hc, by omega, by rw [hi]; exact ha, by rw [hi]; exact hs⟩
    · obtain ⟨b2, h1, h2, h3, h4⟩ := ih _ hr hm
      exact ⟨b2, h1, h2, by omega, h4⟩

theorem Tile_congr (A : Nat → Nat) (heap heap1 : List cfg_basic_block) (e i : Nat)
    (m : List (Nat × Nat)) (h : Tile A heap e i m)
    (hh : ∀ (p : Nat) (b : cfg_basic_block), heap[p]? = some b → i ≤ b.insn →
      ∃ b1 : cfg_basic_block, heap1[p]? = some b1 ∧ b1.addr = b.addr ∧ b1.size = b.size ∧ b1.insn = b.insn ∧
        b1.insn_count = b.insn_count) :
    Tile A heap1 e i m := by
  induction m generalizing i with
  | nil => exact h
  | cons x r ih =>
    obtain ⟨k, p⟩ := x
    obtain ⟨b, hb, hk, hi, hc, ha, hs, hr⟩ := h
    obtain ⟨b1, g1, g2, g3, g4, g5⟩ := hh p b hb (by omega)
    refine ⟨b1, g1, by omega, by omega, by omega, by omega, ?_, ?_⟩
    · rw [g2, g3, g5]; exact hs
    · rw [g5]
      exact ih _ hr (fun q c hq hc2 => hh q c hq (by omega))

theorem floor_split_facts (A : Nat → Nat) (heap : List cfg_basic_block) (e i : Nat)
    (m : List (Nat × Nat)) (h : Tile A heap e i m) (T t : Nat) (tb : cfg_basic_block)
    (hf : floor_lookup m T = Lookup.block t) (ht : heap[t]? = some tb) (hne : tb.addr ≠ T) :
    tb.addr < T ∧ T < A (tb.insn + tb.insn_count) ∧ tb.insn + tb.insn_count < e ∧
      i ≤ tb.insn := by
  induction m generalizing i with
  | nil => simp [floor_lookup_nil] at hf
  | cons x r ih =>
    obtain ⟨k, p⟩ := x
    obtain ⟨b, hb, hk, hi, hc, ha, hs, hr⟩ := h
    rw [floor_lookup_cons] at hf
    by_cases h1 : T ≤ k
    · by_cases h2 : k = T
      · simp [h1, h2] at hf
        subst hf
        rw [hb] at ht
        cases ht
        omega
      · simp [h1, h2] at hf
    · simp only [h1, if_false] at hf
      cases h3 : floor_lookup r T with
      | fault => simp [h3] at hf
      | null =>
        simp [h3] at hf
        subst hf
        rw [hb] at ht
        cases ht
        obtain ⟨k2, p2, r2, rfl, hlt⟩ := floor_lookup_null r T h3
        obtain ⟨b2, hb2, hk2, hi2, hc2, ha2, hs2, hr2⟩ := hr
        have := Tile_le A heap e _ r2 hr2
        refine ⟨by omega, ?_, by omega, by omega⟩
        rw [hi, ← ha2, hk2]
        exact hlt
      | block q =>
        simp [h3] at hf
        subst hf
        have := ih _ hr h3
        refine ⟨this.1, this.2.1, this.2.2.1, by omega⟩

/-! ## Tiling under the two ways a block enters the map -/

theorem Tile_append (A : Nat → Nat) (heap heap2 : List cfg_basic_block) (e i : Nat)
    (m : List (Nat × Nat)) (h : Tile A heap e i m)
    (hframe : ∀ (p : Nat) (b : cfg_basic_block), heap[p]? = some b → heap2[p]? = some b)
    (new : Nat) (nb : cfg_basic_block) (hnew : heap2[new]? = some nb) (hi : nb.insn = e)
    (hc : 0 < nb.insn_count) (ha : nb.addr = A e)
    (hs : nb.addr + nb.size = A (e + nb.insn_count))
    (hA : ∀ i j, i < j → j ≤ e → A i < A j) :
    Tile A heap2 (e + nb.insn_count) i (map_assign m nb.addr new) := by
  induction m generalizing i with
  | nil =>
    simp [Tile] at h
    subst h
    exact ⟨nb, hnew, rfl, hi, hc, ha, hs, rfl⟩
  | cons x r ih =>
    obtain ⟨k, p⟩ := x
    obtain ⟨b, hb, hk, hbi, hbc, hba, hbs, hr⟩ := h
    have hle := Tile_le A heap e _ r hr
    have hlt : k < nb.addr := by
      rw [ha, ← hk, hba]
      exact hA i e (by omega) (Nat.le_refl e)
    have h1 : ¬ nb.addr < k := by omega
    have h2 : ¬ nb.addr = k := by omega
    simp only [map_assign, h1, h2, if_false]
    exact ⟨b, hframe p b hb, hk, hbi, hbc, hba, hbs, ih _ hr⟩

theorem Tile_split (A : Nat → Nat) (heap heap2 : List cfg_basic_block) (e i : Nat)
    (m : List (Nat × Nat)) (h : Tile A heap e i m)
    (hA : ∀ i j, i < j → j ≤ e → A i < A j)
    (T t : Nat) (tb : cfg_basic_block)
    (hf : floor_lookup m T = Lookup.block t) (ht : heap[t]? = some tb) (hne : tb.addr ≠ T)
    (lead : Nat) (hl0 : 0 < lead) (hle : tb.insn + lead ≤ e) (hl : A (tb.insn + lead) = T)
    (hframe : ∀ (p : Nat) (b : cfg_basic_block), heap[p]? = some b → p ≠ t →
      ∃ b1 : cfg_basic_block, heap2[p]? = some b1 ∧ b1.addr = b.addr ∧ b1.size = b.size ∧
        b1.insn = b.insn ∧ b1.insn_count = b.insn_count)
    (hd tl : cfg_basic_block) (new : Nat)
    (hhd : heap2[t]? = some hd) (hd1 : hd.addr = tb.addr) (hd2 : hd.insn = tb.insn)
    (hd3 : hd.insn_count = lead) (hd4 : hd.addr + hd.size = T)
    (htl : heap2[new]? = some tl) (tl1 : tl.addr = T) (tl2 : tl.insn = tb.insn + lead)
    (tl3 : tl.insn_count + lead = tb.insn_count)
    (tl4 : tl.addr + tl.size = tb.addr + tb.size) :
    Tile A heap2 e i (map_assign m T new) := by
  induction m generalizing i with
  | nil => simp [floor_lookup_nil] at hf
  | cons x r ih =>
    obtain ⟨k, p⟩ := x
    have hfacts := floor_split_facts A heap e i _ h T t tb hf ht hne
    obtain ⟨b, hb, hk, hbi, hbc, hba, hbs, hr⟩ := h
    rw [floor_lookup_cons] at hf
    by_cases h1 : T ≤ k
    · by_cases h2 : k = T
      · simp [h1, h2] at hf
        subst hf
        rw [hb] at ht
        cases ht
        omega
      · simp [h1, h2] at hf
    · simp only [h1, if_false] at hf
      have g1 : ¬ T < k := by omega
      have g2 : ¬ T = k := by omega
      cases h3 : floor_lookup r T with
      | fault => simp [h3] at hf
      | null =>
        simp [h3] at hf
        subst hf
        rw [hb] at ht
        have hbt := Option.some.inj ht
        subst hbt
        obtain ⟨k2, p2, r2, rfl, hlt⟩ := floor_lookup_null r T h3
        have hlead : lead < b.insn_count := by
          by_contra hcon
          have hcon2 : b.insn_count ≤ lead := by omega
          rcases Nat.lt_or_ge b.insn_count lead with h5 | h5
          · have := hA (b.insn + b.insn_count) (b.insn + lead) (by omega) hle
            omega
          · have h6 : lead = b.insn_count := by omega
            rw [h6] at hl
            omega
        simp only [map_assign, g1, g2, hlt, if_true, if_false]
        refine ⟨hd, hhd, by omega, by omega, by omega, by rw [hd1]; exact hba, ?_, ?_⟩
        · rw [hd4, hd3, ← hbi, hl]
        · rw [hd3]
          refine ⟨tl, htl, tl1, by omega, by omega, ?_, ?_, ?_⟩
          · rw [tl1, ← hbi, hl]
          · rw [tl4, hbs]
            congr 1
            omega
          · have he : i + lead + tl.insn_count = i + b.insn_count := by omega
            rw [he]
            apply Tile_congr A heap heap2 e _ _ hr
            intro q c hq hc
            refine hframe q c hq ?_
            intro hqt
            subst hqt
            rw [hb] at hq
            cases hq
            omega
      | block q =>
        simp [h3] at hf
        subst hf
        have hfr := floor_split_facts A heap e _ _ hr T q tb h3 ht hne
        simp only [map_assign, g1, g2, if_false]
        have hpq : p ≠ q := by
          intro hpq
          subst hpq
          rw [hb] at ht
          cases ht
          omega
        obtain ⟨b1, e1, e2, e3, e4, e5⟩ := hframe p b hb hpq
        refine ⟨b1, e1, by omega, by omega, by omega, by rw [e2]; exact hba, ?_, ?_⟩
        · rw [e2, e3, e5]; exact hbs
        · rw [e5]; exact ih _ hr h3

/-! ## The heap under `create_edge` and `add_basic_block` -/

theorem create_edge_m_blocks (g : ControlFlowGraph) (s d : Nat) (x y : Bool) :
    (create_edge g s d x y).m_blocks = g.m_blocks := by
  unfold create_edge
  cases g.heap[s]? <;> rfl

theorem create_edge_heap (g : ControlFlowGraph) (s d : Nat) (x y : Bool) (p : Nat) :
    (create_edge g s d x y).heap[p]? =
      (g.heap[p]?).map (fun b =>
        if p = s then { b with edges := b.edges ++ [{ is_branch := x, is_taken := y, to_ := d }] }
        else b) := by
  unfold create_edge
  cases hs : g.heap[s]? with
  | none =>
    by_cases hps : p = s
    · subst hps; simp [hs]
    · cases g.heap[p]? <;> simp [hps]
  | some b =>
    by_cases hps : p = s
    · subst hps
      have hlt : p < g.heap.length := by
        rcases Nat.lt_or_ge p g.heap.length with h | h
        · exact h
        · rw [List.getElem?_eq_none h] at hs; cases hs
      simp [hs, List.getElem?_set_self, hlt]
    · have : s ≠ p := fun h => hps h.symm
      simp only [List.getElem?_set_ne this]
      cases g.heap[p]? <;> simp [hps]

theorem create_edge_length (g : ControlFlowGraph) (s d : Nat) (x y : Bool) :
    (create_edge g s d x y).heap.length = g.heap.length := by
  unfold create_edge
  cases g.heap[s]? <;> simp

theorem create_edge_geom (g : ControlFlowGraph) (s d : Nat) (x y : Bool) (p : Nat)
    (b : cfg_basic_block) (h : g.heap[p]? = some b) :
    ∃ b1 : cfg_basic_block, (create_edge g s d x y).heap[p]? = some b1 ∧ b1.addr = b.addr ∧
      b1.size = b.size ∧ b1.insn = b.insn ∧ b1.insn_count = b.insn_count := by
  rw [create_edge_heap, h]
  by_cases hps : p = s <;> simp [hps]

theorem Tile_create_edge (A : Nat → Nat) (g : ControlFlowGraph) (e i : Nat)
    (s d : Nat) (x y : Bool) (h : Tile A g.heap e i g.m_blocks) :
    Tile A (create_edge g s d x y).heap e i (create_edge g s d x y).m_blocks := by
  rw [create_edge_m_blocks]
  exact Tile_congr A _ _ e i _ h (fun p b hp _ => create_edge_geom g s d x y p b hp)

/-! ## The block builder -/

theorem Layout_le (A : Nat → Nat) (N : Nat) (hL : Layout A N) (i j : Nat) (hij : i ≤ j)
    (hj : j ≤ N) : A i ≤ A j := by
  rcases Nat.lt_or_ge i j with h | h
  · exact Nat.le_of_lt (hL.1 i j h hj)
  · have : i = j := by omega
    subst this
    exact Nat.le_refl _

theorem Linked_of_WellFormed (buf : List cs_insn) (base : Nat) (h : WellFormed buf base) :
    Linked (addr_at buf base) buf := by
  intro i x hx
  have h1 := contiguous_get buf base i x h.2 hx
  exact ⟨h1.1, (addr_at_succ buf base i x hx).symm⟩

theorem add_basic_block_heap_old (g : ControlFlowGraph) (a sz i c p : Nat)
    (b : cfg_basic_block) (h : g.heap[p]? = some b) :
    (add_basic_block g a sz i c).1.heap[p]? = some b := by
  have hlt : p < g.heap.length := by
    rcases Nat.lt_or_ge p g.heap.length with h1 | h1
    · exact h1
    · rw [List.getElem?_eq_none h1] at h; cases h
  simp [add_basic_block, List.getElem?_append_left hlt, h]

theorem add_basic_block_heap_new (g : ControlFlowGraph) (a sz i c : Nat) :
    (add_basic_block g a sz i c).1.heap[g.heap.length]? =
      some { edges := [], visitor_seq := 0, addr := a, size := sz, insn := i,
             insn_count := c } := by
  simp [add_basic_block]

theorem HeapInv_create_edge (buf : List cs_insn) (g : ControlFlowGraph) (s d : Nat)
    (x y : Bool) (h : HeapInv buf g.heap)
    (hs : ∀ (b : cfg_basic_block) (j : cs_insn), g.heap[s]? = some b →
      buf[b.insn + b.insn_count - 1]? = some j → is_control_flow_insn j = true →
      is_unconditional_jump j = true → get_jump_target j = some 0 → False) :
    HeapInv buf (create_edge g s d x y).heap := by
  intro p b1 hp
  rw [create_edge_heap] at hp
  cases hb : g.heap[p]? with
  | none => simp [hb] at hp
  | some b =>
    simp only [hb, Option.map_some', Option.some.injEq] at hp
    by_cases hps : p = s
    · subst hps
      simp only [if_true] at hp
      subst hp
      refine ⟨(h p b hb).1, ?_⟩
      intro j h1 h2 h3 h4
      exact (hs b j hb h1 h2 h3 h4).elim
    · simp only [hps, if_false] at hp
      subst hp
      exact h p b hb

theorem take_succ_filter (buf : List cs_insn) (i : Nat) (x : cs_insn) (h : buf[i]? = some x)
    (f : cs_insn → Bool) :
    (buf.take (i + 1)).filter f = (buf.take i).filter f ++ (if f x then [x] else []) := by
  rw [List.take_succ, h]
  simp [List.filter_append, List.filter_cons]

theorem link_prev_spec (A : Nat → Nat) (buf : List cs_insn) (g2 : ControlFlowGraph)
    (prev : Option Nat) (jumps : List cs_insn) (new e : Nat)
    (htile : Tile A g2.heap e 0 g2.m_blocks) (hheap : HeapInv buf g2.heap)
    (hprev : ∀ p, prev = some p → ∃ (b : cfg_basic_block) (j : cs_insn),
      g2.heap[p]? = some b ∧ jumps.getLast? = some j ∧
        buf[b.insn + b.insn_count - 1]? = some j) :
    ∃ g1, link_prev g2 prev jumps new = some g1 ∧ Tile A g1.heap e 0 g1.m_blocks ∧
      HeapInv buf g1.heap ∧ g1.m_blocks = g2.m_blocks ∧
      (∀ (p : Nat) (b : cfg_basic_block), g2.heap[p]? = some b →
        ∃ b1 : cfg_basic_block, g1.heap[p]? = some b1 ∧ b1.addr = b.addr ∧
          b1.size = b.size ∧ b1.insn = b.insn ∧ b1.insn_count = b.insn_count) := by
  cases hp : prev with
  | none =>
    exact ⟨g2, rfl, htile, hheap, rfl, fun p b hb => ⟨b, hb, rfl, rfl, rfl, rfl⟩⟩
  | some p =>
    obtain ⟨b, j, hb, hj, hlast⟩ := hprev p hp
    simp only [link_prev, hj]
    by_cases hu : is_unconditional_jump j = true
    · simp only [hu, if_true]
      exact ⟨g2, rfl, htile, hheap, rfl, fun p b hb => ⟨b, hb, rfl, rfl, rfl, rfl⟩⟩
    · simp only [hu, if_false, set_branch_target]
      refine ⟨_, rfl, Tile_create_edge A _ e 0 _ _ _ _ htile, ?_, create_edge_m_blocks _ _ _ _ _,
        fun q c hc => create_edge_geom g2 p new true false q c hc⟩
      apply HeapInv_create_edge buf _ _ _ _ _ hheap
      intro b2 j2 hb2 hj2 _ hu2 _
      rw [hb] at hb2
      cases hb2
      rw [hlast] at hj2
      cases hj2
      exact hu hu2

theorem HeapInv_add_basic_block (buf : List cs_insn) (g : ControlFlowGraph)
    (a sz i c : Nat) (h : HeapInv buf g.heap)
    (hin : ∀ (k : Nat) (x : cs_insn), i ≤ k → k + 1 < i + c → buf[k]? = some x →
      is_control_flow_insn x = false) :
    HeapInv buf (add_basic_block g a sz i c).1.heap := by
  intro p b hp
  rcases Nat.lt_or_ge p g.heap.length with hlt | hge
  · have : g.heap[p]? = some b := by
      simpa [add_basic_block, List.getElem?_append_left hlt] using hp
    exact h p b this
  · rcases Nat.eq_or_lt_of_le hge with heq | hgt
    · rw [← heq, add_basic_block_heap_new] at hp
      cases hp
      exact ⟨fun k x hk1 hk2 hkx => hin k x hk1 hk2 hkx, fun j _ _ _ _ => rfl⟩
    · have : (add_basic_block g a sz i c).1.heap[p]? = none := by
        apply List.getElem?_eq_none
        simp [add_basic_block]
        omega
      rw [this] at hp
      cases hp

theorem block_step_inv (A : Nat → Nat) (buf : List cs_insn) (hL : Layout A buf.length)
    (hK : Linked A buf) (i : Nat) (insn : cs_insn) (hi : buf[i]? = some insn)
    (s : BuilderState) (h : BInv A buf i s) :
    ∃ s1, block_step s i insn = some s1 ∧ BInv A buf (i + 1) s1 := by
  have hiN : i < buf.length := by
    rcases Nat.lt_or_ge i buf.length with h1 | h1
    · exact h1
    · rw [List.getElem?_eq_none h1] at hi; cases hi
  obtain ⟨ha, hsz⟩ := hK i insn hi
  have hc := h.count_le
  have hse := h.size_eq
  have hm1 := Layout_le A _ hL (i + 1) buf.length (by omega) (Nat.le_refl _)
  have hm0 := Layout_le A _ hL 0 (i - s.block_insn_count) (by omega) (by omega)
  have hA64 := hL.2.1 (i - s.block_insn_count) (by omega)
  have hN := hL.2.2.2
  have hT := hL.2.2.1
  have hbs : add64 s.block_size insn.size = s.block_size + insn.size := by
    unfold add64
    apply Nat.mod_eq_of_lt
    omega
  have hcc : add32 s.block_insn_count 1 = s.block_insn_count + 1 := by
    unfold add32
    apply Nat.mod_eq_of_lt
    omega
  have hst : s.block_start = A (i - s.block_insn_count) := by
    rw [h.start_eq]
    exact Nat.mod_eq_of_lt hA64
  have hidx : i + 1 - (s.block_insn_count + 1) = i - s.block_insn_count := by omega
  have hidx2 : i - s.block_insn_count + (s.block_insn_count + 1) = i + 1 := by omega
  by_cases hcf : is_control_flow_insn insn = true
  · -- a block is closed
    simp only [block_step, hbs, hcc, hcf, if_true, hidx]
    have htile2 := Tile_append A s.g.heap
      (add_basic_block s.g s.block_start (s.block_size + insn.size) (i - s.block_insn_count)
        (s.block_insn_count + 1)).1.heap (i - s.block_insn_count) 0 s.g.m_blocks h.tile
      (fun p b hp => add_basic_block_heap_old s.g _ _ _ _ p b hp) s.g.heap.length _
      (add_basic_block_heap_new s.g _ _ _ _) rfl (by simp) hst
      (by simp only; rw [hst, hidx2]; omega)
      (fun a b hab hb => hL.1 a b hab (by omega))
    simp only [hidx2] at htile2
    have hheap2 := HeapInv_add_basic_block buf s.g s.block_start (s.block_size + insn.size)
      (i - s.block_insn_count) (s.block_insn_count + 1) h.heap_inv
      (fun k x hk1 hk2 hkx => h.pending k x hk1 (by omega) hkx)
    obtain ⟨g1, hg1, ht1, hh1, -, hgeo⟩ := link_prev_spec A buf
      (add_basic_block s.g s.block_start (s.block_size + insn.size) (i - s.block_insn_count)
        (s.block_insn_count + 1)).1 s.prev s.jumps
      (add_basic_block s.g s.block_start (s.block_size + insn.size) (i - s.block_insn_count)
        (s.block_insn_count + 1)).2 (i + 1) htile2 hheap2
      (fun p hp => by
        obtain ⟨b, j, hb, hj, hlast⟩ := h.prev_last p hp
        exact ⟨b, j, add_basic_block_heap_old s.g _ _ _ _ p b hb, hj, hlast⟩)
    simp only [hg1]
    refine ⟨_, rfl, ?_⟩
    refine ⟨by simp, by simp, ?_, ?_, ?_, ?_, hh1, ?_⟩
    · simp only [add64, Nat.sub_zero]
      rw [hst]
      congr 1
      omega
    · simpa using ht1
    · simp only
      rw [take_succ_filter buf i insn hi, h.jumps_eq, hcf]
      simp
    · intro q hq
      simp only [Option.some.injEq] at hq
      subst hq
      obtain ⟨b1, hb1, -, -, g3, g4⟩ := hgeo _ _ (add_basic_block_heap_new s.g _ _ _ _)
      refine ⟨b1, insn, hb1, by simp, ?_⟩
      rw [g3, g4]
      simp only
      have : i - s.block_insn_count + (s.block_insn_count + 1) - 1 = i := by omega
      rw [this]
      exact hi
    · intro k x hk1 hk2
      simp only at hk1
      omega
  · -- the block goes on
    have hcf2 : is_control_flow_insn insn = false := by
      cases hx : is_control_flow_insn insn
      · rfl
      · exact (hcf hx).elim
    simp only [block_step, hbs, hcc, hcf2, Bool.false_eq_true, if_false]
    refine ⟨_, rfl, ?_⟩
    refine ⟨by simp only; omega, ?_, ?_, ?_, ?_, ?_, h.heap_inv, ?_⟩
    · simp only [hidx]
      omega
    · simp only [hidx]
      exact h.start_eq
    · simp only [hidx]
      exact h.tile
    · simp only
      rw [take_succ_filter buf i insn hi, h.jumps_eq, hcf2]
      simp
    · exact h.prev_last
    · intro k x hk1 hk2 hkx
      simp only [hidx] at hk1
      rcases Nat.lt_or_ge k i with h1 | h1
      · exact h.pending k x hk1 h1 hkx
      · have : k = i := by omega
        subst this
        rw [hi] at hkx
        cases hkx
        exact hcf2

theorem block_loop_inv (A : Nat → Nat) (buf : List cs_insn) (hL : Layout A buf.length)
    (hK : Linked A buf) (rest : List cs_insn) (i : Nat) (hrest : buf.drop i = rest)
    (hi : i ≤ buf.length) (s : BuilderState) (h : BInv A buf i s) :
    ∃ s1, block_loop rest i s = some s1 ∧ BInv A buf buf.length s1 := by
  induction rest generalizing i s with
  | nil =>
    have hlen : buf.length ≤ i := by
      have := congrArg List.length hrest
      simp at this
      omega
    have : i = buf.length := by omega
    subst this
    exact ⟨s, rfl, h⟩
  | cons x r ih =>
    have hx : buf[i]? = some x := by
      have := List.getElem?_drop buf i 0
      rw [hrest] at this
      simpa using this.symm
    have hr : buf.drop (i + 1) = r := by
      have h1 : buf.drop (i + 1) = (buf.drop i).drop 1 := by
        rw [List.drop_drop]
      rw [h1, hrest]
      rfl
    have hlt : i < buf.length := by
      rcases Nat.lt_or_ge i buf.length with h1 | h1
      · exact h1
      · rw [List.getElem?_eq_none h1] at hx; cases hx
    obtain ⟨s1, hs1, hinv⟩ := block_step_inv A buf hL hK i x hx s h
    obtain ⟨s2, hs2, hinv2⟩ := ih (i + 1) hr (by omega) s1 hinv
    exact ⟨s2, by simp only [block_loop, hs1, hs2], hinv2⟩

theorem build_blocks_spec (A : Nat → Nat) (buf : List cs_insn) (base : Nat)
    (hL : Layout A buf.length) (hK : Linked A buf) (hA0 : A 0 = base) (hne : buf ≠ []) :
    ∃ g0 jumps, build_blocks ControlFlowGraph.ctor buf base = some (g0, jumps) ∧
      Tile A g0.heap buf.length 0 g0.m_blocks ∧ HeapInv buf g0.heap ∧
      jumps = buf.filter is_control_flow_insn := by
  have hpos : 0 < buf.length := List.length_pos.mpr hne
  have h0 : BInv A buf 0
      { g := ControlFlowGraph.ctor, block_start := base, block_size := 0,
        block_insn_count := 0, jumps := [], prev := none } := by
    refine ⟨by simp, by simp, ?_, ?_, by simp, ?_, ?_, ?_⟩
    · simp only [Nat.sub_zero, hA0]
      rw [← hA0]
      exact (Nat.mod_eq_of_lt (hL.2.1 0 hpos)).symm
    · simp [Tile, ControlFlowGraph.ctor]
    · intro p hp
      cases hp
    · intro p b hp
      simp [ControlFlowGraph.ctor] at hp
    · intro k x _ hk
      omega
  obtain ⟨s, hs, hinv⟩ := block_loop_inv A buf hL hK buf 0 (by simp) (by omega) _ h0
  have hc := hinv.count_le
  have hse := hinv.size_eq
  have hjumps : s.jumps = buf.filter is_control_flow_insn := by
    rw [hinv.jumps_eq, List.take_length]
  simp only [build_blocks, hs]
  by_cases hbs : 0 < s.block_size
  · simp only [hbs, if_true]
    have hcpos : 0 < s.block_insn_count := by
      rcases Nat.eq_zero_or_pos s.block_insn_count with h1 | h1
      · rw [h1] at hse
        simp at hse
        omega
      · exact h1
    have hA64 := hL.2.1 (buf.length - s.block_insn_count) (by omega)
    have hst : s.block_start = A (buf.length - s.block_insn_count) := by
      rw [hinv.start_eq]
      exact Nat.mod_eq_of_lt hA64
    have hidx : buf.length - s.block_insn_count + s.block_insn_count = buf.length := by omega
    have htile2 := Tile_append A s.g.heap
      (add_basic_block s.g s.block_start s.block_size (buf.length - s.block_insn_count)
        s.block_insn_count).1.heap (buf.length - s.block_insn_count) 0 s.g.m_blocks hinv.tile
      (fun p b hp => add_basic_block_heap_old s.g _ _ _ _ p b hp) s.g.heap.length _
      (add_basic_block_heap_new s.g _ _ _ _) rfl hcpos hst
      (by simp only; rw [hst, hidx]; omega)
      (fun a b hab hb => hL.1 a b hab (by omega))
    simp only [hidx] at htile2
    have hheap2 := HeapInv_add_basic_block buf s.g s.block_start s.block_size
      (buf.length - s.block_insn_count) s.block_insn_count hinv.heap_inv
      (fun k x hk1 hk2 hkx => hinv.pending k x hk1 (by omega) hkx)
    obtain ⟨g1, hg1, ht1, hh1, -, -⟩ := link_prev_spec A buf
      (add_basic_block s.g s.block_start s.block_size (buf.length - s.block_insn_count)
        s.block_insn_count).1 s.prev s.jumps
      (add_basic_block s.g s.block_start s.block_size (buf.length - s.block_insn_count)
        s.block_insn_count).2 buf.length htile2 hheap2
      (fun p hp => by
        obtain ⟨b, j, hb, hj, hlast⟩ := hinv.prev_last p hp
        exact ⟨b, j, add_basic_block_heap_old s.g _ _ _ _ p b hb, hj, hlast⟩)
    simp only [hg1]
    exact ⟨g1, s.jumps, rfl, ht1, hh1, hjumps⟩
  · simp only [hbs, if_false]
    have hz : s.block_insn_count = 0 := by
      rcases Nat.eq_zero_or_pos s.block_insn_count with h1 | h1
      · exact h1
      · have := hL.1 (buf.length - s.block_insn_count) buf.length (by omega) (Nat.le_refl _)
        omega
    have ht := hinv.tile
    rw [hz] at ht
    exact ⟨s.g, s.jumps, rfl, by simpa using ht, hinv.heap_inv, hjumps⟩

/-! ## One step of jump resolution -/

theorem scan_target_spec (rest : List cs_insn) (s l T j l1 : Nat) (hl : l < 4294967296)
    (h : scan_target rest s l T = some (j, l1)) :
    ∃ n, j = s + n ∧ l1 = (l + n) % 4294967296 := by
  induction rest generalizing s l with
  | nil => simp [scan_target] at h
  | cons x r ih =>
    simp only [scan_target] at h
    by_cases hx : x.address < T
    · simp only [hx, if_true] at h
      have hl2 : add32 l 1 < 4294967296 := by
        simp only [add32]
        omega
      obtain ⟨n, h1, h2⟩ := ih _ _ hl2 h
      refine ⟨n + 1, by omega, ?_⟩
      rw [h2]
      simp only [add32]
      omega
    · simp only [hx, if_false, Option.some.injEq, Prod.mk.injEq] at h
      refine ⟨0, by omega, ?_⟩
      rw [← h.2]
      simp only [Nat.add_zero]
      exact (Nat.mod_eq_of_lt hl).symm

/-- The three ways in which an iteration of the second loop of `parse` goes on to the next
one. -/
theorem resolve_jump_done (buf : List cs_insn) (g g1 : ControlFlowGraph) (J : cs_insn)
    (h : resolve_jump buf g J = Outcome.done g1) :
    (get_jump_target J = some 0 ∧ g1 = g) ∨
    (∃ T s t tb, get_jump_target J = some T ∧ T ≠ 0 ∧
      find_basic_block g J.address = Lookup.block s ∧
      find_basic_block g T = Lookup.block t ∧ g.heap[t]? = some tb ∧ tb.addr = T ∧
      g1 = set_branch_target g s t true) ∨
    (∃ T s t tb j lead ti, get_jump_target J = some T ∧ T ≠ 0 ∧
      find_basic_block g J.address = Lookup.block s ∧
      find_basic_block g T = Lookup.block t ∧ g.heap[t]? = some tb ∧ tb.addr ≠ T ∧
      scan_target (buf.drop (tb.insn + 1)) (tb.insn + 1) 1 T = some (j, lead) ∧
      buf[j]? = some ti ∧ ti.address = T ∧
      split_block g (Lookup.block s) t tb T j lead = Outcome.done g1) := by
  unfold resolve_jump at h
  cases hT : get_jump_target J with
  | none => simp [hT] at h
  | some T =>
    simp only [hT] at h
    by_cases hz : T = 0
    · simp only [hz, if_true, Outcome.done.injEq] at h
      exact Or.inl ⟨by rw [hz], h.symm⟩
    · simp only [hz, if_false] at h
      cases hs : find_basic_block g J.address with
      | fault => simp [hs] at h
      | null =>
        simp only [hs] at h
        cases ht : find_basic_block g T with
        | fault => simp [ht] at h
        | null => simp [ht] at h
        | block t =>
          simp only [ht] at h
          cases htb : g.heap[t]? with
          | none => simp [htb] at h
          | some tb =>
            simp only [htb] at h
            by_cases ha : tb.addr = T
            · simp [ha] at h
            · simp only [ha, if_false] at h
              cases hsc : scan_target (buf.drop (tb.insn + 1)) (tb.insn + 1) 1 T with
              | none => simp [hsc] at h
              | some r =>
                obtain ⟨j, lead⟩ := r
                simp only [hsc] at h
                cases hti : buf[j]? with
                | none => simp [hti] at h
                | some ti =>
                  simp only [hti] at h
                  by_cases hta : ti.address = T
                  · simp [hta, split_block] at h
                  · simp [hta] at h
      | block s =>
        simp only [hs] at h
        cases ht : find_basic_block g T with
        | fault => simp [ht] at h
        | null => simp [ht] at h
        | block t =>
          simp only [ht] at h
          cases htb : g.heap[t]? with
          | none => simp [htb] at h
          | some tb =>
            simp only [htb] at h
            by_cases ha : tb.addr = T
            · simp only [ha, if_true, Outcome.done.injEq] at h
              exact Or.inr (Or.inl ⟨T, s, t, tb, rfl, hz, rfl, ht, htb, ha, h.symm⟩)
            · simp only [ha, if_false] at h
              cases hsc : scan_target (buf.drop (tb.insn + 1)) (tb.insn + 1) 1 T with
              | none => simp [hsc] at h
              | some r =>
                obtain ⟨j, lead⟩ := r
                simp only [hsc] at h
                cases hti : buf[j]? with
                | none => simp [hti] at h
                | some ti =>
                  simp only [hti] at h
                  by_cases hta : ti.address = T
                  · simp only [hta, ne_eq, not_true_eq_false, if_false] at h
                    exact Or.inr (Or.inr ⟨T, s, t, tb, j, lead, ti, rfl, hz, rfl, ht, htb,
                      ha, hsc, hti, hta, h⟩)
                  · simp [hta] at h

theorem getElem?_lt_length {α : Type} (l : List α) (p : Nat) (b : α) (h : l[p]? = some b) :
    p < l.length := by
  rcases Nat.lt_or_ge p l.length with h1 | h1
  · exact h1
  · rw [List.getElem?_eq_none h1] at h; cases h

theorem heap_split_new0 {α : Type} (heap : List α) (t : Nat) (x hd : α)
    (ht : t < heap.length) : ((heap ++ [x]).set t hd)[heap.length]? = some x := by
  have : t ≠ heap.length := by omega
  rw [List.getElem?_set_ne this]
  simp

theorem heap_split_at {α : Type} (heap : List α) (t : Nat) (x hd tl : α)
    (ht : t < heap.length) :
    (((heap ++ [x]).set t hd).set heap.length tl)[t]? = some hd := by
  have h1 : heap.length ≠ t := by omega
  have h2 : t < (heap ++ [x]).length := by simp; omega
  rw [List.getElem?_set_ne h1, List.getElem?_set_self h2]

theorem heap_split_new {α : Type} (heap : List α) (t : Nat) (x hd tl : α) :
    (((heap ++ [x]).set t hd).set heap.length tl)[heap.length]? = some tl := by
  have h2 : heap.length < ((heap ++ [x]).set t hd).length := by simp
  rw [List.getElem?_set_self h2]

theorem heap_split_other {α : Type} (heap : List α) (t : Nat) (x hd tl : α) (p : Nat)
    (hpt : p ≠ t) (hpn : p ≠ heap.length) :
    (((heap ++ [x]).set t hd).set heap.length tl)[p]? = heap[p]? := by
  rw [List.getElem?_set_ne (Ne.symm hpn), List.getElem?_set_ne (Ne.symm hpt)]
  rcases Nat.lt_or_ge p heap.length with hlt | hge
  · rw [List.getElem?_append_left hlt]
  · rw [List.getElem?_eq_none hge]
    apply List.getElem?_eq_none
    simp
    omega

/-- The graph after the statements of `parse` that split a block, block by block. -/
theorem split_block_heap (g g1 : ControlFlowGraph) (s t : Nat) (tb : cfg_basic_block)
    (T j lead : Nat) (ht : g.heap[t]? = some tb) (hs : s < g.heap.length)
    (h : split_block g (Lookup.block s) t tb T j lead = Outcome.done g1) :
    g1.m_blocks = map_assign g.m_blocks T g.heap.length ∧
    g1.heap[t]? = some { tb with
      size := sub64 T tb.addr, insn_count := lead,
      edges := (if s = t then [{ is_branch := true, is_taken := true, to_ := g.heap.length }]
                else []) ++
               [{ is_branch := false, is_taken := false, to_ := g.heap.length }] } ∧
    g1.heap[g.heap.length]? = some
      { edges := tb.edges, visitor_seq := 0, addr := T,
        size := sub64 (add64 tb.addr tb.size) T, insn := j,
        insn_count := sub32 tb.insn_count lead } ∧
    (∀ p, p ≠ t → p ≠ g.heap.length → g1.heap[p]? =
      (g.heap[p]?).map (fun b =>
        if p = s then
          { b with edges := b.edges ++
              [{ is_branch := true, is_taken := true, to_ := g.heap.length }] }
        else b)) := by
  have htl := getElem?_lt_length _ _ _ ht
  have htn : t ≠ g.heap.length := by omega
  have hsn : s ≠ g.heap.length := by omega
  simp only [split_block, Outcome.done.injEq] at h
  subst h
  simp only [add_basic_block, heap_split_new0 g.heap t _ _ htl, set_normal_target,
    set_branch_target, create_edge_m_blocks, create_edge_heap,
    heap_split_at g.heap t _ _ _ htl, heap_split_new]
  refine ⟨trivial, ?_, ?_, ?_⟩
  · by_cases hst : s = t
    · subst hst
      simp
    · have : t ≠ s := fun h => hst h.symm
      simp [this, hst]
  · simp [Ne.symm hsn, Ne.symm htn]
  · intro p hpt hpn
    rw [heap_split_other g.heap t _ _ _ p hpt hpn]
    have hpt2 : ¬ p = t := hpt
    cases hb : g.heap[p]? with
    | none => simp
    | some b => simp [hpt2]

/-! ## What a split relies on -/

theorem Layout_lt_of_lt (A : Nat → Nat) (N : Nat) (hL : Layout A N) (i j : Nat)
    (h : A i < A j) (hi : i ≤ N) : i < j := by
  by_contra hcon
  have := Layout_le A N hL j i (by omega) hi
  omega

theorem find_block_facts (A : Nat → Nat) (g : ControlFlowGraph) (e : Nat)
    (htile : Tile A g.heap e 0 g.m_blocks) (a t : Nat)
    (hf : find_basic_block g a = Lookup.block t) :
    ∃ b : cfg_basic_block, g.heap[t]? = some b ∧ b.addr ≤ a ∧ 0 < b.insn_count ∧
      b.insn + b.insn_count ≤ e ∧ b.addr = A b.insn ∧
      b.addr + b.size = A (b.insn + b.insn_count) ∧
      (b.addr ≠ a → a < A (b.insn + b.insn_count) ∧ b.insn + b.insn_count < e) := by
  rw [find_basic_block_eq] at hf
  obtain ⟨k, hk, hle⟩ := floor_lookup_mem _ _ _ hf
  obtain ⟨b, hb, h1, -, h3, h4, h5, h6⟩ := Tile_mem A g.heap e 0 _ htile k t hk
  refine ⟨b, hb, by omega, h3, h4, h5, h6, ?_⟩
  intro hne
  have := floor_split_facts A g.heap e 0 _ htile a t b hf hb hne
  exact ⟨this.2.1, this.2.2.1⟩

theorem split_facts (A : Nat → Nat) (buf : List cs_insn) (hL : Layout A buf.length)
    (hK : Linked A buf) (g : ControlFlowGraph)
    (htile : Tile A g.heap buf.length 0 g.m_blocks) (T t : Nat) (tb : cfg_basic_block)
    (j lead : Nat) (ti : cs_insn)
    (hf : find_basic_block g T = Lookup.block t) (ht : g.heap[t]? = some tb)
    (hne : tb.addr ≠ T)
    (hsc : scan_target (buf.drop (tb.insn + 1)) (tb.insn + 1) 1 T = some (j, lead))
    (hti : buf[j]? = some ti) (hta : ti.address = T) :
    0 < lead ∧ lead < tb.insn_count ∧ j = tb.insn + lead ∧ A (tb.insn + lead) = T ∧
      tb.addr < T ∧ T < tb.addr + tb.size ∧ tb.addr + tb.size < 18446744073709551616 ∧
      tb.insn_count < 4294967296 ∧ tb.insn + tb.insn_count < buf.length := by
  obtain ⟨b, hb, h1, h2, h3, h4, h5, h6⟩ := find_block_facts A g _ htile T t hf
  rw [ht] at hb
  have hbt := Option.some.inj hb
  subst hbt
  obtain ⟨h7, h8⟩ := h6 hne
  obtain ⟨n, hn1, hn2⟩ := scan_target_spec _ _ _ _ _ _ (by omega) hsc
  have hjN := getElem?_lt_length _ _ _ hti
  have hAj : A j = T := by
    rw [← (hK j ti hti).1]
    exact hta
  have hjlt : j < tb.insn + tb.insn_count :=
    Layout_lt_of_lt A _ hL j _ (by omega) (by omega)
  have hN := hL.2.2.2
  have hlead : lead = 1 + n := by
    rw [hn2]
    apply Nat.mod_eq_of_lt
    omega
  have h64 := hL.2.1 (tb.insn + tb.insn_count) h8
  refine ⟨by omega, by omega, by omega, ?_, by omega, by omega, by omega, by omega, h8⟩
  have : tb.insn + lead = j := by omega
  rw [this]
  exact hAj

theorem find_block_contains (A : Nat → Nat) (N : Nat) (hL : Layout A N)
    (g : ControlFlowGraph) (htile : Tile A g.heap N 0 g.m_blocks) (idx s : Nat)
    (hidx : idx < N) (hf : find_basic_block g (A idx) = Lookup.block s) :
    ∃ b : cfg_basic_block, g.heap[s]? = some b ∧ b.insn ≤ idx ∧
      idx < b.insn + b.insn_count := by
  obtain ⟨b, hb, h1, h2, h3, h4, h5, h6⟩ := find_block_facts A g _ htile _ s hf
  refine ⟨b, hb, ?_, ?_⟩
  · by_contra hcon
    have := hL.1 idx b.insn (by omega) (by omega)
    omega
  · by_cases hne : b.addr = A idx
    · by_contra hcon
      have := hL.1 b.insn idx (by omega) (by omega)
      omega
    · exact Layout_lt_of_lt A N hL idx _ (h6 hne).1 (by omega)

/-! ## The tiling is kept by every iteration -/

theorem resolve_jump_tile (A : Nat → Nat) (buf : List cs_insn) (hL : Layout A buf.length)
    (hK : Linked A buf) (g g1 : ControlFlowGraph) (J : cs_insn)
    (htile : Tile A g.heap buf.length 0 g.m_blocks)
    (h : resolve_jump buf g J = Outcome.done g1) :
    Tile A g1.heap buf.length 0 g1.m_blocks := by
  rcases resolve_jump_done buf g g1 J h with ⟨-, rfl⟩ | ⟨T, s, t, tb, -, -, -, -, -, -, rfl⟩ |
    ⟨T, s, t, tb, j, lead, ti, -, -, hs, hf, ht, hne, hsc, hti, hta, hsp⟩
  · exact htile
  · exact Tile_create_edge A g _ 0 _ _ _ _ htile
  · obtain ⟨f1, f2, f3, f4, f5, f6, f7, f8, f9⟩ :=
      split_facts A buf hL hK g htile T t tb j lead ti hf ht hne hsc hti hta
    obtain ⟨sb, hsb, -⟩ := find_block_facts A g _ htile _ s hs
    have hsl := getElem?_lt_length _ _ _ hsb
    have htl := getElem?_lt_length _ _ _ ht
    obtain ⟨e1, e2, e3, e4⟩ := split_block_heap g g1 s t tb T j lead ht hsl hsp
    rw [e1]
    rw [find_basic_block_eq] at hf
    refine Tile_split A g.heap g1.heap buf.length 0 g.m_blocks htile
      (fun a b hab hb => hL.1 a b hab hb) T t tb hf ht hne lead f1 (by omega) f4 ?_ _ _
      g.heap.length e2 rfl rfl rfl ?_ e3 rfl f3 ?_ ?_
    · intro p b hp hpt
      have hpl := getElem?_lt_length _ _ _ hp
      rw [e4 p hpt (by omega), hp]
      by_cases hps : p = s <;> simp [hps]
    · simp only [sub64]
      omega
    · simp only [sub32]
      omega
    · simp only [sub64, add64]
      omega

theorem resolve_jumps_tile (A : Nat → Nat) (buf : List cs_insn) (hL : Layout A buf.length)
    (hK : Linked A buf) (jumps : List cs_insn) (g g1 : ControlFlowGraph)
    (htile : Tile A g.heap buf.length 0 g.m_blocks)
    (h : resolve_jumps buf g jumps = Outcome.done g1) :
    Tile A g1.heap buf.length 0 g1.m_blocks := by
  induction jumps generalizing g with
  | nil =>
    simp only [resolve_jumps, Outcome.done.injEq] at h
    subst h
    exact htile
  | cons J rest ih =>
    simp only [resolve_jumps] at h
    cases hstep : resolve_jump buf g J with
    | done g2 =>
      simp only [hstep] at h
      exact ih g2 (resolve_jump_tile A buf hL hK g g2 J htile hstep) h
    | failed => simp [hstep] at h
    | fault => simp [hstep] at h

/-! ## From the tiling to the blocks of the graph -/

theorem parse_done (self : ControlFlowGraph) (buf : List cs_insn) (base : Nat)
    (g : ControlFlowGraph) (h : parse self buf base = Outcome.done g) :
    ∃ g0 jumps g1, build_blocks self buf base = some (g0, jumps) ∧
      resolve_jumps buf g0 jumps = Outcome.done g1 ∧ g.heap = g1.heap ∧
      g.m_blocks = g1.m_blocks := by
  unfold parse at h
  cases hb : build_blocks self buf base with
  | none => simp [hb] at h
  | some r =>
    obtain ⟨g0, jumps⟩ := r
    simp only [hb] at h
    cases hr : resolve_jumps buf g0 jumps with
    | failed => simp [hr] at h
    | fault => simp [hr] at h
    | done g1 =>
      simp only [hr] at h
      refine ⟨g0, jumps, g1, rfl, hr, ?_⟩
      cases hf : find_basic_block g1 base with
      | fault => simp [hf] at h
      | null =>
        simp only [hf, Outcome.done.injEq] at h
        subst h
        exact ⟨rfl, rfl⟩
      | block e =>
        simp only [hf, Outcome.done.injEq] at h
        subst h
        exact ⟨rfl, rfl⟩

theorem parse_tile (buf : List cs_insn) (base : Nat) (g : ControlFlowGraph)
    (hwf : WellFormed buf base) (hfit : fits_types buf = true)
    (h : parse ControlFlowGraph.ctor buf base = Outcome.done g) :
    Tile (addr_at buf base) g.heap buf.length 0 g.m_blocks := by
  obtain ⟨g0, jumps, g1, hb, hr, e1, e2⟩ := parse_done _ _ _ _ h
  have hL := Layout_of_WellFormed buf base hwf hfit
  have hK := Linked_of_WellFormed buf base hwf
  obtain ⟨g0', jumps', hb', ht, -, -⟩ := build_blocks_spec (addr_at buf base) buf base hL hK
    (addr_at_zero buf base) hwf.1
  rw [hb] at hb'
  cases hb'
  rw [e1, e2]
  exact resolve_jumps_tile _ buf hL hK jumps g0 g1 ht hr

theorem Tile_blocks (A : Nat → Nat) (N : Nat) (hL : Layout A N)
    (heap : List cfg_basic_block) (i : Nat) (m : List (Nat × Nat))
    (h : Tile A heap N i m) :
    ((m.filterMap (fun e => heap[e.2]?)).map (fun b => b.insn_count)).sum + i = N ∧
    (m.filterMap (fun e => heap[e.2]?)).length = m.length ∧
    (m.filterMap (fun e => heap[e.2]?)).map (fun b => b.addr) = m.map Prod.fst ∧
    (∀ b ∈ m.filterMap (fun e => heap[e.2]?), 0 < b.insn_count ∧ b.addr = A b.insn ∧
      b.addr + b.size = A (b.insn + b.insn_count) ∧ i ≤ b.insn ∧
      b.insn + b.insn_count ≤ N) ∧
    (m.filterMap (fun e => heap[e.2]?)).Pairwise (fun a b => a.addr + a.size ≤ b.addr) ∧
    (∀ x, (∃ b ∈ m.filterMap (fun e => heap[e.2]?), b.addr ≤ x ∧ x < b.addr + b.size) ↔
      (A i ≤ x ∧ x < A N)) := by
  induction m generalizing i with
  | nil =>
    simp only [Tile] at h
    subst h
    simp
  | cons e r ih =>
    obtain ⟨k, p⟩ := e
    obtain ⟨b, hb, hk, hbi, hbc, hba, hbs, hr⟩ := h
    obtain ⟨i1, i2, i3, i4, i5, i6⟩ := ih _ hr
    have hle := Tile_le A heap N _ r hr
    have hfm : List.filterMap (fun e => heap[e.2]?) ((k, p) :: r) =
        b :: List.filterMap (fun e => heap[e.2]?) r := by
      simp [List.filterMap_cons, hb]
    rw [hfm]
    refine ⟨?_, ?_, ?_, ?_, ?_, ?_⟩
    · simp only [List.map_cons, List.sum_cons]
      omega
    · simp [i2]
    · simp [i3, hk]
    · intro c hc
      simp only [List.mem_cons] at hc
      rcases hc with rfl | hc
      · exact ⟨hbc, by rw [hbi]; exact hba, by rw [hbi]; exact hbs, by omega, by omega⟩
      · obtain ⟨c1, c2, c3, c4, c5⟩ := i4 c hc
        exact ⟨c1, c2, c3, by omega, c5⟩
    · rw [List.pairwise_cons]
      refine ⟨?_, i5⟩
      intro c hc
      obtain ⟨c1, c2, c3, c4, c5⟩ := i4 c hc
      rw [hbs, c2]
      exact Layout_le A N hL _ _ c4 (by omega)
    · intro x
      have hmono := Layout_le A N hL i (i + b.insn_count) (by omega) hle
      constructor
      · rintro ⟨c, hc, hx1, hx2⟩
        simp only [List.mem_cons] at hc
        rcases hc with rfl | hc
        · have := Layout_le A N hL (i + c.insn_count) N hle (Nat.le_refl _)
          omega
        · have := (i6 x).mp ⟨c, hc, hx1, hx2⟩
          omega
      · rintro ⟨hx1, hx2⟩
        by_cases hx : x < A (i + b.insn_count)
        · exact ⟨b, by simp, by omega, by omega⟩
        · obtain ⟨c, hc, hc1, hc2⟩ := (i6 x).mpr ⟨by omega, hx2⟩
          exact ⟨c, by simp [hc], hc1, hc2⟩

theorem addr_at_add (buf : List cs_insn) (base i n : Nat) :
    addr_at buf base (i + n) =
      addr_at buf base i + (((buf.drop i).take n).map (fun x => x.size)).sum := by
  simp only [addr_at, List.take_add, List.map_append, List.sum_append]
  omega

theorem addr_at_length (buf : List cs_insn) (base : Nat) :
    addr_at buf base buf.length = base + (buf.map (fun x => x.size)).sum := by
  simp [addr_at]

/-! ## The edge invariant is kept by every iteration -/

theorem source_ends_in_jump (A : Nat → Nat) (buf : List cs_insn) (hL : Layout A buf.length)
    (hK : Linked A buf) (g : ControlFlowGraph)
    (htile : Tile A g.heap buf.length 0 g.m_blocks) (hheap : HeapInv buf g.heap)
    (J : cs_insn) (idx : Nat) (hJ : buf[idx]? = some J)
    (hcf : is_control_flow_insn J = true) (s : Nat) (b : cfg_basic_block)
    (hs : find_basic_block g J.address = Lookup.block s) (hb : g.heap[s]? = some b) :
    buf[b.insn + b.insn_count - 1]? = some J := by
  have hidx := getElem?_lt_length _ _ _ hJ
  rw [(hK idx J hJ).1] at hs
  obtain ⟨b1, hb1, h1, h2⟩ := find_block_contains A _ hL g htile idx s hidx hs
  rw [hb] at hb1
  have hbb := Option.some.inj hb1
  subst hbb
  by_cases hlast : idx + 1 < b.insn + b.insn_count
  · have := (hheap s b hb).1 idx J h1 hlast hJ
    rw [hcf] at this
    cases this
  · have : b.insn + b.insn_count - 1 = idx := by omega
    rw [this]
    exact hJ

theorem resolve_jump_heapinv (A : Nat → Nat) (buf : List cs_insn)
    (hL : Layout A buf.length) (hK : Linked A buf) (g g1 : ControlFlowGraph) (J : cs_insn)
    (htile : Tile A g.heap buf.length 0 g.m_blocks) (hheap : HeapInv buf g.heap)
    (idx : Nat) (hJ : buf[idx]? = some J) (hcf : is_control_flow_insn J = true)
    (h : resolve_jump buf g J = Outcome.done g1) :
    HeapInv buf g1.heap := by
  rcases resolve_jump_done buf g g1 J h with ⟨-, rfl⟩ |
    ⟨T, s, t, tb, hT, hT0, hs, -, -, -, rfl⟩ |
    ⟨T, s, t, tb, j, lead, ti, hT, hT0, hs, hf, ht, hne, hsc, hti, hta, hsp⟩
  · exact hheap
  · apply HeapInv_create_edge buf _ _ _ _ _ hheap
    intro b j hb hj _ _ hj0
    rw [source_ends_in_jump A buf hL hK g htile hheap J idx hJ hcf s b hs hb] at hj
    cases hj
    rw [hT] at hj0
    exact hT0 (Option.some.inj hj0)
  · obtain ⟨f1, f2, f3, f4, f5, f6, f7, f8, f9⟩ :=
      split_facts A buf hL hK g htile T t tb j lead ti hf ht hne hsc hti hta
    obtain ⟨sb, hsb, -⟩ := find_block_facts A g _ htile _ s hs
    have hsl := getElem?_lt_length _ _ _ hsb
    have htl := getElem?_lt_length _ _ _ ht
    obtain ⟨e1, e2, e3, e4⟩ := split_block_heap g g1 s t tb T j lead ht hsl hsp
    obtain ⟨hin, hed⟩ := hheap t tb ht
    have hsub : sub32 tb.insn_count lead = tb.insn_count - lead := by
      simp only [sub32]
      omega
    intro p b1 hp
    by_cases hpt : p = t
    · subst hpt
      rw [e2] at hp
      cases hp
      refine ⟨?_, ?_⟩
      · intro k x hk1 hk2 hkx
        exact hin k x hk1 (by simp only at hk2; omega) hkx
      · intro x hx hxcf _ _
        simp only at hx
        have := hin (tb.insn + lead - 1) x (by omega) (by omega) hx
        rw [hxcf] at this
        cases this
    · by_cases hpn : p = g.heap.length
      · subst hpn
        rw [e3] at hp
        cases hp
        refine ⟨?_, ?_⟩
        · intro k x hk1 hk2 hkx
          simp only [hsub] at hk1 hk2
          exact hin k x (by omega) (by omega) hkx
        · intro x hx hxcf hxu hx0
          simp only [hsub] at hx
          have hidx : j + (tb.insn_count - lead) - 1 = tb.insn + tb.insn_count - 1 := by
            omega
          rw [hidx] at hx
          exact hed x hx hxcf hxu hx0
      · rw [e4 p hpt hpn] at hp
        cases hb : g.heap[p]? with
        | none => simp [hb] at hp
        | some b =>
          simp only [hb, Option.map_some', Option.some.injEq] at hp
          by_cases hps : p = s
          · subst hps
            simp only [if_true] at hp
            subst hp
            refine ⟨(hheap p b hb).1, ?_⟩
            intro x hx _ _ hx0
            simp only at hx
            rw [source_ends_in_jump A buf hL hK g htile hheap J idx hJ hcf p b hs hb] at hx
            cases hx
            rw [hT] at hx0
            exact (hT0 (Option.some.inj hx0)).elim
          · simp only [hps, if_false] at hp
            subst hp
            exact hheap p b hb

theorem resolve_jumps_heapinv (A : Nat → Nat) (buf : List cs_insn)
    (hL : Layout A buf.length) (hK : Linked A buf) (jumps : List cs_insn)
    (hjumps : ∀ J ∈ jumps, is_control_flow_insn J = true ∧ ∃ idx : Nat, buf[idx]? = some J)
    (g g1 : ControlFlowGraph)
    (htile : Tile A g.heap buf.length 0 g.m_blocks) (hheap : HeapInv buf g.heap)
    (h : resolve_jumps buf g jumps = Outcome.done g1) :
    HeapInv buf g1.heap := by
  induction jumps generalizing g with
  | nil =>
    simp only [resolve_jumps, Outcome.done.injEq] at h
    subst h
    exact hheap
  | cons J rest ih =>
    simp only [resolve_jumps] at h
    cases hstep : resolve_jump buf g J with
    | done g2 =>
      simp only [hstep] at h
      obtain ⟨hcf, idx, hidx⟩ := hjumps J (by simp)
      exact ih (fun K hK2 => hjumps K (by simp [hK2])) g2
        (resolve_jump_tile A buf hL hK g g2 J htile hstep)
        (resolve_jump_heapinv A buf hL hK g g2 J htile hheap idx hidx hcf hstep) h
    | failed => simp [hstep] at h
    | fault => simp [hstep] at h

theorem filter_jumps_mem (buf : List cs_insn) (J : cs_insn)
    (h : J ∈ buf.filter is_control_flow_insn) :
    is_control_flow_insn J = true ∧ ∃ idx : Nat, buf[idx]? = some J := by
  rw [List.mem_filter] at h
  refine ⟨h.2, ?_⟩
  obtain ⟨n, hn, hget⟩ := List.getElem_of_mem h.1
  exact ⟨n, by rw [List.getElem?_eq_getElem hn, hget]⟩

theorem parse_heapinv (buf : List cs_insn) (base : Nat) (g : ControlFlowGraph)
    (hwf : WellFormed buf base) (hfit : fits_types buf = true)
    (h : parse ControlFlowGraph.ctor buf base = Outcome.done g) :
    HeapInv buf g.heap := by
  obtain ⟨g0, jumps, g1, hb, hr, e1, e2⟩ := parse_done _ _ _ _ h
  have hL := Layout_of_WellFormed buf base hwf hfit
  have hK := Linked_of_WellFormed buf base hwf
  obtain ⟨g0', jumps', hb', ht, hh, hj⟩ := build_blocks_spec (addr_at buf base) buf base hL hK
    (addr_at_zero buf base) hwf.1
  rw [hb] at hb'
  cases hb'
  rw [e1]
  subst hj
  exact resolve_jumps_heapinv _ buf hL hK _ (fun J hJ => filter_jumps_mem buf J hJ) g0 g1 ht
    hh hr

/-! ## The keys of the map -/

theorem map_assign_keys (m : List (Nat × Nat)) (key p x : Nat) :
    x ∈ (map_assign m key p).map Prod.fst ↔ x = key ∨ x ∈ m.map Prod.fst := by
  induction m with
  | nil => simp [map_assign]
  | cons e r ih =>
    obtain ⟨k, q⟩ := e
    simp only [map_assign]
    by_cases h1 : key < k
    · simp [h1]
    · by_cases h2 : key = k
      · subst h2
        simp
      · simp only [h1, h2, if_false, List.map_cons, List.mem_cons, ih]
        constructor
        · rintro (h | h | h)
          · exact Or.inr (Or.inl h)
          · exact Or.inl h
          · exact Or.inr (Or.inr h)
        · rintro (h | h | h)
          · exact Or.inr (Or.inl h)
          · exact Or.inl h
          · exact Or.inr (Or.inr h)

theorem resolve_jump_keys (A : Nat → Nat) (buf : List cs_insn) (g g1 : ControlFlowGraph)
    (J : cs_insn) (htile : Tile A g.heap buf.length 0 g.m_blocks)
    (h : resolve_jump buf g J = Outcome.done g1) (x : Nat) :
    x ∈ g1.m_blocks.map Prod.fst ↔
      (x ∈ g.m_blocks.map Prod.fst ∨ (get_jump_target J = some x ∧ x ≠ 0)) := by
  rcases resolve_jump_done buf g g1 J h with ⟨hT, rfl⟩ |
    ⟨T, s, t, tb, hT, hT0, hs, hf, ht, hta, rfl⟩ |
    ⟨T, s, t, tb, j, lead, ti, hT, hT0, hs, hf, ht, hne, hsc, hti, hta, hsp⟩
  · constructor
    · exact fun h => Or.inl h
    · rintro (h | ⟨h1, h2⟩)
      · exact h
      · rw [hT] at h1
        exact (h2 (Option.some.inj h1).symm).elim
  · simp only [set_branch_target, create_edge_m_blocks]
    constructor
    · exact fun h => Or.inl h
    · rintro (h | ⟨h1, h2⟩)
      · exact h
      · rw [hT] at h1
        have hx := Option.some.inj h1
        subst hx
        rw [find_basic_block_eq] at hf
        obtain ⟨k, hk, -⟩ := floor_lookup_mem _ _ _ hf
        obtain ⟨b, hb, hbk, -⟩ := Tile_mem A g.heap _ 0 _ htile k t hk
        rw [ht] at hb
        cases hb
        rw [← hta, hbk]
        exact List.mem_map.mpr ⟨(k, t), hk, rfl⟩
  · obtain ⟨sb, hsb, -⟩ := find_block_facts A g _ htile _ s hs
    have hsl := getElem?_lt_length _ _ _ hsb
    obtain ⟨e1, -⟩ := split_block_heap g g1 s t tb T j lead ht hsl hsp
    rw [e1, map_assign_keys, hT]
    constructor
    · rintro (h | h)
      · exact Or.inr ⟨by rw [h], by rw [h]; exact hT0⟩
      · exact Or.inl h
    · rintro (h | ⟨h1, -⟩)
      · exact Or.inr h
      · exact Or.inl (Option.some.inj h1).symm

theorem resolve_jumps_keys (A : Nat → Nat) (buf : List cs_insn) (hL : Layout A buf.length)
    (hK : Linked A buf) (jumps : List cs_insn) (g g1 : ControlFlowGraph)
    (htile : Tile A g.heap buf.length 0 g.m_blocks)
    (h : resolve_jumps buf g jumps = Outcome.done g1) (x : Nat) :
    x ∈ g1.m_blocks.map Prod.fst ↔
      (x ∈ g.m_blocks.map Prod.fst ∨ ∃ J ∈ jumps, get_jump_target J = some x ∧ x ≠ 0) := by
  induction jumps generalizing g with
  | nil =>
    simp only [resolve_jumps, Outcome.done.injEq] at h
    subst h
    simp
  | cons J rest ih =>
    simp only [resolve_jumps] at h
    cases hstep : resolve_jump buf g J with
    | done g2 =>
      simp only [hstep] at h
      rw [ih g2 (resolve_jump_tile A buf hL hK g g2 J htile hstep) h,
        resolve_jump_keys A buf g g2 J htile hstep x]
      simp only [List.mem_cons, exists_eq_or_imp]
      tauto
    | failed => simp [hstep] at h
    | fault => simp [hstep] at h

theorem get_jump_target_direct (J : cs_insn) (x : Nat) (hx : x ≠ 0) :
    get_jump_target J = some x ↔ direct_target J = some x := by
  unfold get_jump_target direct_target
  cases hops : J.operands with
  | nil => simp
  | cons op rest =>
    cases rest with
    | nil =>
      cases ht : op.type <;> simp [ht]
      · exact fun h => hx h.symm
      · exact fun h => hx h.symm
    | cons op2 rest2 => simp

theorem mem_direct_targets (buf : List cs_insn) (x : Nat) (hx : x ≠ 0) :
    x ∈ (direct_targets buf).filter (fun t => decide (t ≠ 0)) ↔
      ∃ J ∈ buf.filter is_control_flow_insn, get_jump_target J = some x ∧ x ≠ 0 := by
  simp only [direct_targets, List.mem_filter, List.mem_filterMap, decide_eq_true_eq]
  constructor
  · rintro ⟨⟨J, ⟨hJ, hcf⟩, hd⟩, _⟩
    exact ⟨J, ⟨hJ, hcf⟩, (get_jump_target_direct J x hx).mpr hd, hx⟩
  · rintro ⟨J, ⟨hJ, hcf⟩, hg, _⟩
    exact ⟨⟨J, ⟨hJ, hcf⟩, (get_jump_target_direct J x hx).mp hg⟩, hx⟩

theorem Tile_keys_nodup (A : Nat → Nat) (N : Nat) (hL : Layout A N)
    (heap : List cfg_basic_block) (m : List (Nat × Nat)) (h : Tile A heap N 0 m) :
    (m.map Prod.fst).Nodup := by
  obtain ⟨-, -, h3, h4, h5, -⟩ := Tile_blocks A N hL heap 0 m h
  rw [← h3]
  unfold List.Nodup
  rw [List.pairwise_map]
  have h6 : List.Pairwise (fun a b : cfg_basic_block => a.addr + a.size ≤ b.addr ∧
      0 < a.insn_count ∧ a.addr = A a.insn ∧ a.addr + a.size = A (a.insn + a.insn_count) ∧
      a.insn + a.insn_count ≤ N)
      (m.filterMap (fun e => heap[e.2]?)) := by
    rw [List.pairwise_iff_forall_sublist] at h5 ⊢
    intro a b hab
    have ha : a ∈ m.filterMap (fun e => heap[e.2]?) := hab.subset (by simp)
    obtain ⟨c1, c2, c3, -, c5⟩ := h4 a ha
    exact ⟨h5 hab, c1, c2, c3, c5⟩
  refine h6.imp ?_
  intro a b ⟨c0, c1, c2, c3, c5⟩
  have := hL.1 a.insn (a.insn + a.insn_count) (by omega) c5
  omega

/-! ## Inputs whose jumps are all skipped -/

theorem is_indirect_target (J : cs_insn) (h : is_indirect J = true) :
    get_jump_target J = some 0 := by
  unfold is_indirect at h
  unfold get_jump_target
  cases hops : J.operands with
  | nil => simp [hops] at h
  | cons op rest =>
    cases rest with
    | nil =>
      simp only [hops] at h
      cases ht : op.type <;> simp [ht] at h ⊢
    | cons op2 rest2 => simp [hops] at h

theorem resolve_jumps_skip (buf : List cs_insn) (g : ControlFlowGraph)
    (jumps : List cs_insn) (h : ∀ J ∈ jumps, get_jump_target J = some 0) :
    resolve_jumps buf g jumps = Outcome.done g := by
  induction jumps with
  | nil => rfl
  | cons J rest ih =>
    have hJ := h J (by simp)
    simp only [resolve_jumps, resolve_jump, hJ, if_true]
    exact ih (fun K hK => h K (by simp [hK]))

theorem find_entry (A : Nat → Nat) (g : ControlFlowGraph) (N : Nat) (hN : 0 < N)
    (htile : Tile A g.heap N 0 g.m_blocks) :
    ∃ p, find_basic_block g (A 0) = Lookup.block p := by
  rw [find_basic_block_eq]
  cases hm : g.m_blocks with
  | nil =>
    rw [hm] at htile
    simp only [Tile] at htile
    omega
  | cons e r =>
    obtain ⟨k, p⟩ := e
    rw [hm] at htile
    obtain ⟨b, -, hk, -, -, ha, -⟩ := htile
    refine ⟨p, ?_⟩
    rw [floor_lookup_cons]
    have : k = A 0 := by rw [← hk, ha]
    simp [this]

theorem parse_of_resolved (buf : List cs_insn) (base : Nat) (g0 g1 : ControlFlowGraph)
    (jumps : List cs_insn) (p : Nat)
    (hb : build_blocks ControlFlowGraph.ctor buf base = some (g0, jumps))
    (hr : resolve_jumps buf g0 jumps = Outcome.done g1)
    (hf : find_basic_block g1 base = Lookup.block p) :
    parse ControlFlowGraph.ctor buf base =
      Outcome.done { g1 with m_insn_buffer := buf, m_insn_count := buf.length,
                             m_entry := some p } := by
  simp only [parse, hb, hr, hf]

/-- The lookup of a target below the first key gives no block, and the iteration returns
`false`, when the lookup of the jump itself has a result. -/
theorem resolve_jump_below_first_key (buf : List cs_insn) (g : ControlFlowGraph)
    (J : cs_insn) (T k p : Nat) (rest : List (Nat × Nat))
    (hT : get_jump_target J = some T) (hT0 : T ≠ 0) (hm : g.m_blocks = (k, p) :: rest)
    (hlt : T < k) (hsrc : find_basic_block g J.address ≠ Lookup.fault) :
    resolve_jump buf g J = Outcome.failed := by
  have hf : find_basic_block g T = Lookup.null := by
    rw [find_basic_block_eq, hm, floor_lookup_cons]
    have h1 : T ≤ k := by omega
    have h2 : ¬ k = T := by omega
    simp [h1, h2]
  unfold resolve_jump
  cases hs : find_basic_block g J.address with
  | fault => exact (hsrc hs).elim
  | null => simp only [hT, hT0, if_false, hf]
  | block s => simp only [hT, hT0, if_false, hf]

/-- A jump before the base address that `parse` does answer with `false`: the bytes
`90 74 FC 90` decoded at base 0x1000, whose jump at 0x1001 goes to 0xfff. -/
theorem before_base_sample_fails :
    parse ControlFlowGraph.ctor [insn_nop 0x1000, insn_jcc 0x1001 0xfff, insn_nop 0x1003]
      0x1000 = Outcome.failed := by
  decide

/-- An inter-opcode jump that `parse` does answer with `false`: the bytes `90 74 FF 90`
decoded at base 0x1000, whose jump at 0x1001 goes to 0x1002, its own second byte, in a block
that is not the last one. -/
theorem inter_opcode_sample_fails :
    parse ControlFlowGraph.ctor [insn_nop 0x1000, insn_jcc 0x1001 0x1002, insn_nop 0x1003]
      0x1000 = Outcome.failed := by
  decide

/-! ## Taken-branch edges -/

theorem has_branch_taken_iff (g : ControlFlowGraph) (i t : Nat) :
    has_branch_taken g i t = true ↔ BranchTakenEdge g i t := by
  unfold has_branch_taken BranchTakenEdge
  simp only [List.any_eq_true, Bool.and_eq_true, decide_eq_true_eq]
  constructor
  · rintro ⟨⟨k, p⟩, hm, h⟩
    cases hp : g.heap[p]? with
    | none => simp [hp] at h
    | some src =>
      simp only [hp, Bool.and_eq_true, decide_eq_true_eq, List.any_eq_true] at h
      obtain ⟨h1, h2, ed, hed, h3, h4, ⟨d1, d2⟩, hd, h5, h6⟩ := h
      simp only at h5 h6
      subst h5
      subst h6
      exact ⟨k, p, src, hm, hp, h1, h2, ed, hed, h3, h4, hd⟩
  · rintro ⟨k, p, src, hm, hp, h1, h2, ed, hed, h3, h4, hd⟩
    refine ⟨(k, p), hm, ?_⟩
    simp only [hp, Bool.and_eq_true, decide_eq_true_eq, List.any_eq_true]
    exact ⟨h1, h2, ed, hed, h3, h4, (t, ed.to_), hd, rfl, rfl⟩

theorem map_assign_mem_self (m : List (Nat × Nat)) (key p : Nat) :
    (key, p) ∈ map_assign m key p := by
  induction m with
  | nil => simp [map_assign]
  | cons e r ih =>
    obtain ⟨k, q⟩ := e
    simp only [map_assign]
    by_cases h1 : key < k
    · simp [h1]
    · by_cases h2 : key = k
      · simp [h2]
      · simp [h1, h2, ih]

theorem map_assign_mem_old (m : List (Nat × Nat)) (key p k q : Nat) (h : (k, q) ∈ m)
    (hne : k ≠ key) : (k, q) ∈ map_assign m key p := by
  induction m with
  | nil => simp at h
  | cons e r ih =>
    obtain ⟨k1, q1⟩ := e
    simp only [map_assign]
    by_cases h1 : key < k1
    · simp only [h1, if_true]
      exact List.mem_cons_of_mem _ h
    · by_cases h2 : key = k1
      · simp only [h1, h2, if_false, if_true, lt_self_iff_false]
        simp only [List.mem_cons, Prod.mk.injEq] at h
        rcases h with ⟨h3, -⟩ | h
        · omega
        · simp [h]
      · simp only [h1, h2, if_false]
        simp only [List.mem_cons, Prod.mk.injEq] at h ⊢
        rcases h with h | h
        · exact Or.inl h
        · exact Or.inr (ih h)

theorem Tile_no_overlap (A : Nat → Nat) (heap : List cfg_basic_block) (e i : Nat)
    (m : List (Nat × Nat)) (h : Tile A heap e i m) (k q k0 t : Nat)
    (b tb : cfg_basic_block) (hk : (k, q) ∈ m) (hb : heap[q]? = some b)
    (hk0 : (k0, t) ∈ m) (ht : heap[t]? = some tb) (hlt : tb.insn < b.insn) :
    tb.insn + tb.insn_count ≤ b.insn := by
  induction m generalizing i with
  | nil => simp at hk
  | cons x r ih =>
    obtain ⟨k1, p1⟩ := x
    obtain ⟨b1, hb1, e1, e2, e3, e4, e5, hr⟩ := h
    simp only [List.mem_cons, Prod.mk.injEq] at hk hk0
    rcases hk0 with ⟨rfl, rfl⟩ | hk0
    · rw [ht] at hb1
      have := Option.some.inj hb1
      subst this
      rcases hk with ⟨rfl, rfl⟩ | hk
      · rw [ht] at hb
        have := Option.some.inj hb
        subst this
        omega
      · obtain ⟨b2, hb2, -, f1, -⟩ := Tile_mem A heap e _ r hr k q hk
        rw [hb] at hb2
        have := Option.some.inj hb2
        subst this
        omega
    · obtain ⟨b3, hb3, -, f3, -⟩ := Tile_mem A heap e _ r hr k0 t hk0
      rw [ht] at hb3
      have := Option.some.inj hb3
      subst this
      rcases hk with ⟨rfl, rfl⟩ | hk
      · rw [hb] at hb1
        have := Option.some.inj hb1
        subst this
        omega
      · exact ih _ hr hk hk0

theorem split_target_not_key (A : Nat → Nat) (heap : List cfg_basic_block) (e : Nat)
    (hA : ∀ i j, i < j → j ≤ e → A i < A j) (i : Nat)
    (m : List (Nat × Nat)) (h : Tile A heap e i m) (T t : Nat) (tb : cfg_basic_block)
    (hf : floor_lookup m T = Lookup.block t) (ht : heap[t]? = some tb) (hne : tb.addr ≠ T)
    (k q : Nat) (hk : (k, q) ∈ m) : k ≠ T := by
  obtain ⟨h1, h2, h3, h4⟩ := floor_split_facts A heap e i m h T t tb hf ht hne
  obtain ⟨k0, hk0, -⟩ := floor_lookup_mem _ _ _ hf
  obtain ⟨b0, hb0, c1, c2, c3, c4, c5, c6⟩ := Tile_mem A heap e i m h k0 t hk0
  rw [ht] at hb0
  have hbb := Option.some.inj hb0
  subst hbb
  obtain ⟨b, hb, d1, d2, d3, d4, d5, d6⟩ := Tile_mem A heap e i m h k q hk
  intro hkT
  have hlt1 : A tb.insn < A b.insn := by omega
  have hlt2 : A b.insn < A (tb.insn + tb.insn_count) := by omega
  have g1 : tb.insn < b.insn := by
    by_contra hcon
    rcases Nat.lt_or_ge b.insn tb.insn with h5 | h5
    · have := hA b.insn tb.insn h5 (by omega)
      omega
    · have : b.insn = tb.insn := by omega
      rw [this] at hlt1
      omega
  have g2 : b.insn < tb.insn + tb.insn_count := by
    by_contra hcon
    rcases Nat.lt_or_ge (tb.insn + tb.insn_count) b.insn with h5 | h5
    · have := hA (tb.insn + tb.insn_count) b.insn h5 (by omega)
      omega
    · have : b.insn = tb.insn + tb.insn_count := by omega
      rw [this] at hlt2
      omega
  have := Tile_no_overlap A heap e i m h k q k0 t b tb hk hb hk0 ht g1
  omega

theorem resolve_jump_edge_kept (A : Nat → Nat) (buf : List cs_insn)
    (hL : Layout A buf.length) (hK : Linked A buf) (g g1 : ControlFlowGraph) (J : cs_insn)
    (htile : Tile A g.heap buf.length 0 g.m_blocks) (hheap : HeapInv buf g.heap)
    (h : resolve_jump buf g J = Outcome.done g1)
    (idx : Nat) (J0 : cs_insn) (hJ0 : buf[idx]? = some J0)
    (hcf0 : is_control_flow_insn J0 = true) (T0 : Nat) (he : BranchTakenEdge g idx T0) :
    BranchTakenEdge g1 idx T0 := by
  obtain ⟨k, p, src, hkp, hp, hlo, hhi, ed, hed, hbr, htk, hdst⟩ := he
  rcases resolve_jump_done buf g g1 J h with ⟨-, rfl⟩ |
    ⟨T, s, t, tb, -, -, -, -, -, -, rfl⟩ |
    ⟨T, s, t, tb, j, lead, ti, hT, hT0, hs, hf, ht, hne, hsc, hti, hta, hsp⟩
  · exact ⟨k, p, src, hkp, hp, hlo, hhi, ed, hed, hbr, htk, hdst⟩
  · simp only [set_branch_target]
    refine ⟨k, p, _, by rw [create_edge_m_blocks]; exact hkp,
      by rw [create_edge_heap, hp]; rfl, ?_, ?_, ed, ?_, hbr, htk,
      by rw [create_edge_m_blocks]; exact hdst⟩
    · by_cases hps : p = s <;> simp [hps, hlo]
    · by_cases hps : p = s <;> simp [hps, hhi]
    · by_cases hps : p = s <;> simp [hps, hed]
  · obtain ⟨f1, f2, f3, f4, f5, f6, f7, f8, f9⟩ :=
      split_facts A buf hL hK g htile T t tb j lead ti hf ht hne hsc hti hta
    obtain ⟨sb, hsb, -⟩ := find_block_facts A g _ htile _ s hs
    have hsl := getElem?_lt_length _ _ _ hsb
    have hpl := getElem?_lt_length _ _ _ hp
    obtain ⟨e1, e2, e3, e4⟩ := split_block_heap g g1 s t tb T j lead ht hsl hsp
    rw [find_basic_block_eq] at hf
    have hnk := split_target_not_key A g.heap buf.length (fun a b hab hb => hL.1 a b hab hb) 0
      g.m_blocks htile T t tb hf ht hne
    have hdst1 : (T0, ed.to_) ∈ g1.m_blocks := by
      rw [e1]
      exact map_assign_mem_old _ _ _ _ _ hdst (hnk _ _ hdst)
    by_cases hpt : p = t
    · subst hpt
      rw [ht] at hp
      have := Option.some.inj hp
      subst this
      -- the instruction is the last one of the block, so it goes to the new block
      have hlast : ¬ idx + 1 < tb.insn + tb.insn_count := by
        intro hcon
        have := (hheap p tb ht).1 idx J0 hlo hcon hJ0
        rw [hcf0] at this
        cases this
      have hsub : sub32 tb.insn_count lead = tb.insn_count - lead := by
        simp only [sub32]
        omega
      refine ⟨T, g.heap.length, _, by rw [e1]; exact map_assign_mem_self _ _ _, e3, ?_, ?_,
        ed, hed, hbr, htk, hdst1⟩
      · simp only
        omega
      · simp only [hsub]
        omega
    · have hpn : p ≠ g.heap.length := by omega
      refine ⟨k, p, _, by rw [e1]; exact map_assign_mem_old _ _ _ _ _ hkp (hnk _ _ hkp),
        by rw [e4 p hpt hpn, hp]; rfl, ?_, ?_, ed, ?_, hbr, htk, hdst1⟩
      · by_cases hps : p = s <;> simp [hps, hlo]
      · by_cases hps : p = s <;> simp [hps, hhi]
      · by_cases hps : p = s <;> simp [hps, hed]

theorem resolve_jump_edge_made (A : Nat → Nat) (buf : List cs_insn)
    (hL : Layout A buf.length) (hK : Linked A buf) (g g1 : ControlFlowGraph) (J : cs_insn)
    (htile : Tile A g.heap buf.length 0 g.m_blocks)
    (h : resolve_jump buf g J = Outcome.done g1)
    (idx : Nat) (hJ : buf[idx]? = some J) (T : Nat)
    (hT : get_jump_target J = some T) (hT0 : T ≠ 0)
    (hns : ¬ (find_basic_block g J.address = find_basic_block g T ∧
      T ∉ g.m_blocks.map Prod.fst)) :
    BranchTakenEdge g1 idx T := by
  have hidx := getElem?_lt_length _ _ _ hJ
  rcases resolve_jump_done buf g g1 J h with ⟨hz, -⟩ |
    ⟨T1, s, t, tb, hT1, -, hs, hf, ht, hta, rfl⟩ |
    ⟨T1, s, t, tb, j, lead, ti, hT1, -, hs, hf, ht, hne, hsc, hti, hta, hsp⟩
  · rw [hT] at hz
    exact (hT0 (Option.some.inj hz)).elim
  · rw [hT] at hT1
    have := Option.some.inj hT1
    subst this
    have hs2 := hs
    rw [(hK idx J hJ).1] at hs2
    obtain ⟨sb, hsb, c1, c2⟩ := find_block_contains A _ hL g htile idx s hidx hs2
    rw [find_basic_block_eq] at hs hf
    obtain ⟨ks, hks, -⟩ := floor_lookup_mem _ _ _ hs
    obtain ⟨kt, hkt, -⟩ := floor_lookup_mem _ _ _ hf
    obtain ⟨b, hb, hbk, -⟩ := Tile_mem A g.heap _ 0 _ htile kt t hkt
    rw [ht] at hb
    have := Option.some.inj hb
    subst this
    simp only [set_branch_target]
    refine ⟨ks, s, _, by rw [create_edge_m_blocks]; exact hks,
      by rw [create_edge_heap, hsb]; rfl, by simpa using c1, by simpa using c2,
      { is_branch := true, is_taken := true, to_ := t }, by simp, rfl, rfl, ?_⟩
    rw [create_edge_m_blocks, ← hta, hbk]
    exact hkt
  · rw [hT] at hT1
    have := Option.some.inj hT1
    subst this
    have hs2 := hs
    rw [(hK idx J hJ).1] at hs2
    obtain ⟨sb, hsb, c1, c2⟩ := find_block_contains A _ hL g htile idx s hidx hs2
    have hsl := getElem?_lt_length _ _ _ hsb
    obtain ⟨e1, e2, e3, e4⟩ := split_block_heap g g1 s t tb T j lead ht hsl hsp
    have hf2 := hf
    rw [find_basic_block_eq] at hf2
    have hnk := split_target_not_key A g.heap buf.length (fun a b hab hb => hL.1 a b hab hb) 0
      g.m_blocks htile T t tb hf2 ht hne
    have hst : s ≠ t := by
      intro hst
      subst hst
      apply hns
      refine ⟨by rw [hs, hf], ?_⟩
      intro hmem
      obtain ⟨⟨k, q⟩, hkq, hk⟩ := List.mem_map.mp hmem
      exact hnk k q hkq hk
    have hs3 := hs
    rw [find_basic_block_eq] at hs3
    obtain ⟨ks, hks, -⟩ := floor_lookup_mem _ _ _ hs3
    refine ⟨ks, s, _, by rw [e1]; exact map_assign_mem_old _ _ _ _ _ hks (hnk _ _ hks),
      by rw [e4 s hst (by omega), hsb]; rfl, by simpa using c1, by simpa using c2,
      { is_branch := true, is_taken := true, to_ := g.heap.length }, by simp, rfl, rfl, ?_⟩
    rw [e1]
    exact map_assign_mem_self _ _ _

theorem resolve_jumps_edge_kept (A : Nat → Nat) (buf : List cs_insn)
    (hL : Layout A buf.length) (hK : Linked A buf) (jumps : List cs_insn)
    (hjumps : ∀ J ∈ jumps, is_control_flow_insn J = true ∧ ∃ idx : Nat, buf[idx]? = some J)
    (g g1 : ControlFlowGraph)
    (htile : Tile A g.heap buf.length 0 g.m_blocks) (hheap : HeapInv buf g.heap)
    (h : resolve_jumps buf g jumps = Outcome.done g1)
    (idx : Nat) (J0 : cs_insn) (hJ0 : buf[idx]? = some J0)
    (hcf0 : is_control_flow_insn J0 = true) (T0 : Nat) (he : BranchTakenEdge g idx T0) :
    BranchTakenEdge g1 idx T0 := by
  induction jumps generalizing g with
  | nil =>
    simp only [resolve_jumps, Outcome.done.injEq] at h
    subst h
    exact he
  | cons J rest ih =>
    simp only [resolve_jumps] at h
    cases hstep : resolve_jump buf g J with
    | done g2 =>
      simp only [hstep] at h
      obtain ⟨hcf, i2, hi2⟩ := hjumps J (by simp)
      exact ih (fun K hK2 => hjumps K (by simp [hK2])) g2
        (resolve_jump_tile A buf hL hK g g2 J htile hstep)
        (resolve_jump_heapinv A buf hL hK g g2 J htile hheap i2 hi2 hcf hstep) h
        (resolve_jump_edge_kept A buf hL hK g g2 J htile hheap hstep idx J0 hJ0 hcf0 T0 he)
    | failed => simp [hstep] at h
    | fault => simp [hstep] at h

theorem resolve_jumps_append (buf : List cs_insn) (pre post : List cs_insn) (J : cs_insn)
    (g g2 : ControlFlowGraph)
    (h : resolve_jumps buf g (pre ++ J :: post) = Outcome.done g2) :
    ∃ ga gb, resolve_jumps buf g pre = Outcome.done ga ∧
      resolve_jump buf ga J = Outcome.done gb ∧
      resolve_jumps buf gb post = Outcome.done g2 := by
  induction pre generalizing g with
  | nil =>
    simp only [List.nil_append, resolve_jumps] at h
    cases hstep : resolve_jump buf g J with
    | done gb =>
      simp only [hstep] at h
      exact ⟨g, gb, rfl, hstep, h⟩
    | failed => simp [hstep] at h
    | fault => simp [hstep] at h
  | cons K rest ih =>
    simp only [List.cons_append, resolve_jumps] at h
    cases hstep : resolve_jump buf g K with
    | done g3 =>
      simp only [hstep] at h
      obtain ⟨ga, gb, h1, h2, h3⟩ := ih g3 h
      exact ⟨ga, gb, by simp only [resolve_jumps, hstep, h1], h2, h3⟩
    | failed => simp [hstep] at h
    | fault => simp [hstep] at h

/-! ## The edges the block builder makes -/

theorem link_prev_cases (g2 : ControlFlowGraph) (prev : Option Nat) (jumps : List cs_insn)
    (new : Nat) (g1 : ControlFlowGraph) (h : link_prev g2 prev jumps new = some g1) :
    (g1 = g2 ∧ (prev = none ∨
      ∃ (p : Nat) (j : cs_insn), prev = some p ∧ jumps.getLast? = some j ∧
        is_unconditional_jump j = true)) ∨
    (∃ (p : Nat) (j : cs_insn), prev = some p ∧ jumps.getLast? = some j ∧
      is_unconditional_jump j = false ∧ g1 = create_edge g2 p new true false) := by
  cases hp : prev with
  | none =>
    simp only [link_prev, hp, Option.some.injEq] at h
    exact Or.inl ⟨h.symm, Or.inl rfl⟩
  | some p =>
    cases hj : jumps.getLast? with
    | none => simp [link_prev, hp, hj] at h
    | some j =>
      cases hu : is_unconditional_jump j with
      | true =>
        simp only [link_prev, hp, hj, hu, if_true, Option.some.injEq] at h
        exact Or.inl ⟨h.symm, Or.inr ⟨p, j, rfl, rfl, hu⟩⟩
      | false =>
        simp only [link_prev, hp, hj, hu, Bool.false_eq_true, if_false,
          Option.some.injEq, set_branch_target] at h
        exact Or.inr ⟨p, j, rfl, rfl, hu, h.symm⟩

theorem create_edge_inv (g : ControlFlowGraph) (s d : Nat) (x y : Bool) (q : Nat)
    (b1 : cfg_basic_block) (h : (create_edge g s d x y).heap[q]? = some b1) :
    ∃ b0 : cfg_basic_block, g.heap[q]? = some b0 ∧
      b1 = (if q = s then
              { b0 with edges := b0.edges ++ [{ is_branch := x, is_taken := y, to_ := d }] }
            else b0) := by
  rw [create_edge_heap] at h
  cases hb : g.heap[q]? with
  | none => simp [hb] at h
  | some b0 =>
    simp only [hb, Option.map_some', Option.some.injEq] at h
    exact ⟨b0, rfl, h.symm⟩

theorem add_basic_block_inv (g : ControlFlowGraph) (a sz i c q : Nat) (b1 : cfg_basic_block)
    (h : (add_basic_block g a sz i c).1.heap[q]? = some b1) :
    (q < g.heap.length ∧ g.heap[q]? = some b1) ∨
    (q = g.heap.length ∧
      b1 = { edges := [], visitor_seq := 0, addr := a, size := sz, insn := i,
             insn_count := c }) := by
  rcases Nat.lt_or_ge q g.heap.length with hlt | hge
  · left
    refine ⟨hlt, ?_⟩
    simpa [add_basic_block, List.getElem?_append_left hlt] using h
  · rcases Nat.eq_or_lt_of_le hge with heq | hgt
    · right
      subst heq
      rw [add_basic_block_heap_new] at h
      exact ⟨rfl, (Option.some.inj h).symm⟩
    · have : (add_basic_block g a sz i c).1.heap[q]? = none := by
        apply List.getElem?_eq_none
        simp [add_basic_block]
        omega
      rw [this] at h
      cases h

theorem add_basic_block_m_blocks (g : ControlFlowGraph) (a sz i c : Nat) :
    (add_basic_block g a sz i c).1.m_blocks = map_assign g.m_blocks a g.heap.length := rfl

theorem add_basic_block_length (g : ControlFlowGraph) (a sz i c : Nat) :
    (add_basic_block g a sz i c).1.heap.length = g.heap.length + 1 := by
  simp [add_basic_block]

theorem Tile_key_lt (A : Nat → Nat) (heap : List cfg_basic_block) (e : Nat)
    (hA : ∀ i j, i < j → j ≤ e → A i < A j)
    (m : List (Nat × Nat)) (h : Tile A heap e 0 m) (k p : Nat) (hm : (k, p) ∈ m) :
    k < A e := by
  obtain ⟨b, -, hk, -, hc, he, ha, -⟩ := Tile_mem A heap e 0 m h k p hm
  rw [← hk, ha]
  exact hA _ _ (by omega) (Nat.le_refl _)

theorem block_step_cf (s : BuilderState) (i : Nat) (insn : cs_insn) (s1 : BuilderState)
    (hcf : is_control_flow_insn insn = true) (hs : block_step s i insn = some s1) :
    ∃ g1, link_prev (add_basic_block s.g s.block_start (add64 s.block_size insn.size)
        (i + 1 - add32 s.block_insn_count 1) (add32 s.block_insn_count 1)).1 s.prev s.jumps
        s.g.heap.length = some g1 ∧
      s1 = { g := g1, block_start := add64 s.block_start (add64 s.block_size insn.size),
             block_size := 0, block_insn_count := 0, jumps := s.jumps ++ [insn],
             prev := some s.g.heap.length } := by
  simp only [block_step, hcf, if_true] at hs
  split at hs
  · cases hs
  · rename_i g1 heq
    exact ⟨g1, heq, (Option.some.inj hs).symm⟩

/-- What closing a block does to the edges: `g1` is the graph after `add_basic_block` and
the statement that links the previous block. -/
theorem close_block_inv2 (A : Nat → Nat) (buf : List cs_insn) (hL : Layout A buf.length)
    (i : Nat) (hiN : i ≤ buf.length) (s : BuilderState) (h : BInv A buf i s)
    (h2 : BInv2 buf i s) (hst : s.block_start = A (i - s.block_insn_count))
    (sz c : Nat) (g1 : ControlFlowGraph)
    (hl : link_prev (add_basic_block s.g s.block_start sz (i - s.block_insn_count) c).1
      s.prev s.jumps s.g.heap.length = some g1) :
    (∀ (q : Nat) (b1 : cfg_basic_block), g1.heap[q]? = some b1 →
      (b1.addr, q) ∈ g1.m_blocks ∧ b1.visitor_seq = 0) ∧
    (∀ (q : Nat) (b1 : cfg_basic_block), g1.heap[q]? = some b1 → q ≠ s.g.heap.length →
      ∃ j : cs_insn, buf[b1.insn + b1.insn_count - 1]? = some j ∧
        is_control_flow_insn j = true ∧
        (is_unconditional_jump j = true → b1.edges = []) ∧
        (is_unconditional_jump j = false →
          ∃ (q1 : Nat) (d : cfg_basic_block),
            b1.edges = [{ is_branch := true, is_taken := false, to_ := q1 }] ∧
            g1.heap[q1]? = some d ∧ d.insn = b1.insn + b1.insn_count)) ∧
    (∃ nb : cfg_basic_block, g1.heap[s.g.heap.length]? = some nb ∧ nb.edges = [] ∧
      nb.insn = i - s.block_insn_count ∧ nb.insn_count = c) ∧
    (∀ (q : Nat) (b1 : cfg_basic_block), g1.heap[q]? = some b1 → q ≤ s.g.heap.length) := by
  have hold : ∀ (q : Nat) (b0 : cfg_basic_block), s.g.heap[q]? = some b0 →
      q < s.g.heap.length := fun q b0 hq => getElem?_lt_length _ _ _ hq
  have hkey : ∀ k p, (k, p) ∈ s.g.m_blocks → k ≠ s.block_start := by
    intro k p hm
    have := Tile_key_lt A s.g.heap (i - s.block_insn_count)
      (fun a b hab hb => hL.1 a b hab (by omega)) s.g.m_blocks h.tile k p hm
    omega
  have hm1 : g1.m_blocks = map_assign s.g.m_blocks s.block_start s.g.heap.length := by
    rcases link_prev_cases _ _ _ _ _ hl with ⟨rfl, -⟩ | ⟨p, j, -, -, -, rfl⟩
    · rfl
    · rw [create_edge_m_blocks]
      rfl
  have hinv : ∀ (q : Nat) (b1 : cfg_basic_block), g1.heap[q]? = some b1 →
      (q = s.g.heap.length ∧
        b1 = { edges := [], visitor_seq := 0, addr := s.block_start,
               size := sz, insn := i - s.block_insn_count, insn_count := c }) ∨
      (∃ b0 : cfg_basic_block, s.g.heap[q]? = some b0 ∧ b1.addr = b0.addr ∧
        b1.visitor_seq = b0.visitor_seq ∧ b1.insn = b0.insn ∧
        b1.insn_count = b0.insn_count ∧
        ((b1.edges = b0.edges ∧ (s.prev = some q →
            ∃ j : cs_insn, s.jumps.getLast? = some j ∧ is_unconditional_jump j = true)) ∨
         (s.prev = some q ∧ ∃ j : cs_insn, s.jumps.getLast? = some j ∧
            is_unconditional_jump j = false ∧
            b1.edges = b0.edges ++
              [{ is_branch := true, is_taken := false, to_ := s.g.heap.length }]))) := by
    intro q b1 hq
    rcases link_prev_cases _ _ _ _ _ hl with ⟨rfl, hpv⟩ | ⟨p, j, hp, hj, hu, rfl⟩
    · rcases add_basic_block_inv _ _ _ _ _ q b1 hq with ⟨hlt, hq0⟩ | ⟨rfl, rfl⟩
      · right
        refine ⟨b1, hq0, rfl, rfl, rfl, rfl, Or.inl ⟨rfl, ?_⟩⟩
        intro hpq
        rcases hpv with hn | ⟨p, j, hp, hj, hu⟩
        · rw [hn] at hpq
          cases hpq
        · exact ⟨j, hj, hu⟩
      · left
        exact ⟨rfl, rfl⟩
    · obtain ⟨b0, hb0, hb1⟩ := create_edge_inv _ _ _ _ _ q b1 hq
      rcases add_basic_block_inv _ _ _ _ _ q b0 hb0 with ⟨hlt, hq0⟩ | ⟨rfl, rfl⟩
      · right
        by_cases hqp : q = p
        · subst hqp
          simp only [if_true] at hb1
          subst hb1
          exact ⟨b0, hq0, rfl, rfl, rfl, rfl, Or.inr ⟨hp, j, hj, hu, rfl⟩⟩
        · simp only [hqp, if_false] at hb1
          subst hb1
          refine ⟨b1, hq0, rfl, rfl, rfl, rfl, Or.inl ⟨rfl, ?_⟩⟩
          intro hpq
          rw [hp] at hpq
          exact (hqp (Option.some.inj hpq).symm).elim
      · left
        obtain ⟨bp, jp, hbp, -, -⟩ := h.prev_last p hp
        have := hold p bp hbp
        have hne : s.g.heap.length ≠ p := by omega
        simp only [hne, if_false] at hb1
        exact ⟨rfl, hb1⟩
  have hfwd : ∀ (q : Nat) (d : cfg_basic_block),
      (add_basic_block s.g s.block_start sz (i - s.block_insn_count) c).1.heap[q]? = some d →
      ∃ d1 : cfg_basic_block, g1.heap[q]? = some d1 ∧ d1.insn = d.insn ∧
        d1.insn_count = d.insn_count ∧ (d.edges = [] → q = s.g.heap.length → d1.edges = []) := by
    intro q d hd
    rcases link_prev_cases _ _ _ _ _ hl with ⟨rfl, -⟩ | ⟨p, j, hp, -, -, rfl⟩
    · exact ⟨d, hd, rfl, rfl, fun h _ => h⟩
    · obtain ⟨d1, hd1, hd2⟩ := create_edge_inv _ p s.g.heap.length true false q _
        ((create_edge_geom _ p s.g.heap.length true false q d hd).choose_spec.1)
      rw [hd] at hd1
      have hd3 := Option.some.inj hd1
      subst hd3
      refine ⟨_, (create_edge_geom _ p s.g.heap.length true false q d hd).choose_spec.1, ?_, ?_, ?_⟩
      · rw [hd2]
        by_cases hqp : q = p <;> simp [hqp]
      · rw [hd2]
        by_cases hqp : q = p <;> simp [hqp]
      · intro he hq
        obtain ⟨bp, jp, hbp, -, -⟩ := h.prev_last p hp
        have := hold p bp hbp
        have hne : q ≠ p := by omega
        rw [hd2]
        simp only [hne, if_false]
        exact he
  refine ⟨?_, ?_, ?_, ?_⟩
  · intro q b1 hq
    rcases hinv q b1 hq with ⟨rfl, rfl⟩ | ⟨b0, hq0, e1, e2, -, -, -⟩
    · exact ⟨by rw [hm1]; exact map_assign_mem_self _ _ _, rfl⟩
    · obtain ⟨m1, m2⟩ := h2.stored q b0 hq0
      refine ⟨?_, by rw [e2]; exact m2⟩
      show (b1.addr, q) ∈ g1.m_blocks
      rw [hm1, e1]
      exact map_assign_mem_old _ _ _ _ _ m1 (hkey _ _ m1)
  · intro q b1 hq hqn
    rcases hinv q b1 hq with ⟨rfl, -⟩ | ⟨b0, hq0, -, -, e3, e4, hed⟩
    · exact (hqn rfl).elim
    · obtain ⟨j, hj, hjcf⟩ := h2.last_cf q b0 hq0
      refine ⟨j, by rw [e3, e4]; exact hj, hjcf, ?_⟩
      rcases hed with ⟨he, hpv⟩ | ⟨hpv, j1, hj1, hu1, he⟩
      · by_cases hsp : s.prev = some q
        · obtain ⟨j1, hj1, hu1⟩ := hpv hsp
          obtain ⟨bp, jp, hbp, hjp, hlast⟩ := h.prev_last q hsp
          rw [hq0] at hbp
          have := Option.some.inj hbp
          subst this
          rw [hj] at hlast
          have := Option.some.inj hlast
          subst this
          rw [hj1] at hjp
          have := Option.some.inj hjp
          subst this
          refine ⟨fun _ => ?_, fun hu => ?_⟩
          · rw [he]
            exact (h2.open_prev q b0 hsp hq0).1
          · rw [hu1] at hu
            cases hu
        · obtain ⟨c1, c2⟩ := h2.closed q b0 j hq0 hsp hj
          refine ⟨fun hu => by rw [he]; exact c1 hu, fun hu => ?_⟩
          obtain ⟨q1, d, hd1, hd2, hd3⟩ := c2 hu
          obtain ⟨d1, hd4, hd5, -, -⟩ := hfwd q1 d (add_basic_block_heap_old s.g _ _ _ _ q1 d hd2)
          exact ⟨q1, d1, by rw [he]; exact hd1, hd4, by rw [hd5, hd3, e3, e4]⟩
      · obtain ⟨bp, jp, hbp, hjp, hlast⟩ := h.prev_last q hpv
        rw [hq0] at hbp
        have := Option.some.inj hbp
        subst this
        rw [hj] at hlast
        have := Option.some.inj hlast
        subst this
        rw [hj1] at hjp
        have := Option.some.inj hjp
        subst this
        obtain ⟨o1, o2⟩ := h2.open_prev q b0 hpv hq0
        refine ⟨fun hu => ?_, fun _ => ?_⟩
        · rw [hu1] at hu
          cases hu
        · obtain ⟨d1, hd4, hd5, -, -⟩ := hfwd s.g.heap.length _
            (add_basic_block_heap_new s.g _ _ _ _)
          refine ⟨s.g.heap.length, d1, by rw [he, o1]; rfl, hd4, ?_⟩
          rw [hd5, e3, e4, o2]
  · obtain ⟨d1, hd4, hd5, hd6, hd7⟩ := hfwd s.g.heap.length _
      (add_basic_block_heap_new s.g _ _ _ _)
    exact ⟨d1, hd4, hd7 rfl rfl, hd5, hd6⟩
  · intro q b1 hq
    rcases hinv q b1 hq with ⟨rfl, -⟩ | ⟨b0, hq0, -⟩
    · exact Nat.le_refl _
    · exact Nat.le_of_lt (hold q b0 hq0)

theorem block_step_inv2 (A : Nat → Nat) (buf : List cs_insn) (hL : Layout A buf.length)
    (i : Nat) (insn : cs_insn) (hi : buf[i]? = some insn)
    (s s1 : BuilderState) (h : BInv A buf i s) (h2 : BInv2 buf i s)
    (hs : block_step s i insn = some s1) : BInv2 buf (i + 1) s1 := by
  have hiN : i < buf.length := getElem?_lt_length _ _ _ hi
  have hc := h.count_le
  have hN := hL.2.2.2
  have hcc : add32 s.block_insn_count 1 = s.block_insn_count + 1 := by
    unfold add32
    apply Nat.mod_eq_of_lt
    omega
  have hA64 := hL.2.1 (i - s.block_insn_count) (by omega)
  have hst : s.block_start = A (i - s.block_insn_count) := by
    rw [h.start_eq]
    exact Nat.mod_eq_of_lt hA64
  have hidx : i + 1 - (s.block_insn_count + 1) = i - s.block_insn_count := by omega
  by_cases hcf : is_control_flow_insn insn = true
  · obtain ⟨g1, hl, rfl⟩ := block_step_cf s i insn s1 hcf hs
    rw [hcc, hidx] at hl
    obtain ⟨c1, c2, ⟨nb, hnb, n1, n2, n3⟩, c4⟩ := close_block_inv2 A buf hL i (by omega) s h h2
      hst _ _ g1 hl
    refine ⟨c1, ?_, ?_, ?_⟩
    · intro q b1 hq
      by_cases hqn : q = s.g.heap.length
      · subst hqn
        rw [hnb] at hq
        have := Option.some.inj hq
        subst this
        refine ⟨insn, ?_, hcf⟩
        have : nb.insn + nb.insn_count - 1 = i := by omega
        rw [this]
        exact hi
      · obtain ⟨j, hj, hjcf, -⟩ := c2 q b1 hq hqn
        exact ⟨j, hj, hjcf⟩
    · intro q b1 j hq hpq hj
      simp only [ne_eq, Option.some.injEq] at hpq
      obtain ⟨j1, hj1, -, r1, r2⟩ := c2 q b1 hq (fun hx => hpq hx.symm)
      rw [hj] at hj1
      have := Option.some.inj hj1
      subst this
      exact ⟨r1, r2⟩
    · intro q b1 hpq hq
      simp only [Option.some.injEq] at hpq
      subst hpq
      rw [hnb] at hq
      have := Option.some.inj hq
      subst this
      refine ⟨n1, ?_⟩
      simp only
      omega
  · have hcf2 : is_control_flow_insn insn = false := by
      cases hx : is_control_flow_insn insn
      · rfl
      · exact (hcf hx).elim
    simp only [block_step, hcc, hcf2, Bool.false_eq_true, if_false, Option.some.injEq] at hs
    subst hs
    refine ⟨h2.stored, h2.last_cf, h2.closed, ?_⟩
    intro q b1 hpq hq
    obtain ⟨o1, o2⟩ := h2.open_prev q b1 hpq hq
    refine ⟨o1, ?_⟩
    simp only [hidx]
    exact o2

theorem block_loop_inv2 (A : Nat → Nat) (buf : List cs_insn) (hL : Layout A buf.length)
    (hK : Linked A buf) (rest : List cs_insn) (i : Nat) (hrest : buf.drop i = rest)
    (hi : i ≤ buf.length) (s s1 : BuilderState) (h : BInv A buf i s) (h2 : BInv2 buf i s)
    (hs : block_loop rest i s = some s1) :
    BInv A buf buf.length s1 ∧ BInv2 buf buf.length s1 := by
  induction rest generalizing i s with
  | nil =>
    have hlen : buf.length ≤ i := by
      have := congrArg List.length hrest
      simp at this
      omega
    have : i = buf.length := by omega
    subst this
    simp only [block_loop, Option.some.injEq] at hs
    subst hs
    exact ⟨h, h2⟩
  | cons x r ih =>
    have hx : buf[i]? = some x := by
      have := List.getElem?_drop buf i 0
      rw [hrest] at this
      simpa using this.symm
    have hr : buf.drop (i + 1) = r := by
      have h1 : buf.drop (i + 1) = (buf.drop i).drop 1 := by
        rw [List.drop_drop]
      rw [h1, hrest]
      rfl
    have hlt : i < buf.length := getElem?_lt_length _ _ _ hx
    obtain ⟨s2, hs2, hinv⟩ := block_step_inv A buf hL hK i x hx s h
    simp only [block_loop, hs2] at hs
    exact ih (i + 1) hr (by omega) s2 hinv (block_step_inv2 A buf hL i x hx s s2 h h2 hs2) hs

theorem build_blocks_edges (A : Nat → Nat) (buf : List cs_insn) (base : Nat)
    (hL : Layout A buf.length) (hK : Linked A buf) (hA0 : A 0 = base) (hne : buf ≠ [])
    (g0 : ControlFlowGraph) (jumps : List cs_insn)
    (hb : build_blocks ControlFlowGraph.ctor buf base = some (g0, jumps)) :
    BuiltEdges buf g0 ∧
    (∀ (p : Nat) (b : cfg_basic_block), g0.heap[p]? = some b →
      (b.addr, p) ∈ g0.m_blocks ∧ b.visitor_seq = 0) ∧
    (∀ (p : Nat) (b : cfg_basic_block) (j : cs_insn), g0.heap[p]? = some b →
      buf[b.insn + b.insn_count - 1]? = some j →
      is_control_flow_insn j = true ∨ b.insn + b.insn_count = buf.length) := by
  have hpos : 0 < buf.length := List.length_pos.mpr hne
  obtain ⟨g0', jumps', hb', ht0, -, -⟩ := build_blocks_spec A buf base hL hK hA0 hne
  rw [hb] at hb'
  cases hb'
  have h0 : BInv A buf 0
      { g := ControlFlowGraph.ctor, block_start := base, block_size := 0,
        block_insn_count := 0, jumps := [], prev := none } := by
    refine ⟨by simp, by simp, ?_, ?_, by simp, ?_, ?_, ?_⟩
    · simp only [Nat.sub_zero, hA0]
      rw [← hA0]
      exact (Nat.mod_eq_of_lt (hL.2.1 0 hpos)).symm
    · simp [Tile, ControlFlowGraph.ctor]
    · intro p hp
      cases hp
    · intro p b hp
      simp [ControlFlowGraph.ctor] at hp
    · intro k x _ hk
      omega
  have h20 : BInv2 buf 0
      { g := ControlFlowGraph.ctor, block_start := base, block_size := 0,
        block_insn_count := 0, jumps := [], prev := none } := by
    refine ⟨?_, ?_, ?_, ?_⟩
    · intro p b hp
      simp [ControlFlowGraph.ctor] at hp
    · intro p b hp
      simp [ControlFlowGraph.ctor] at hp
    · intro p b j hp
      simp [ControlFlowGraph.ctor] at hp
    · intro p b hp
      cases hp
  have hend : ∀ (q : Nat) (d : cfg_basic_block), g0.heap[q]? = some d →
      (d.addr, q) ∈ g0.m_blocks → d.insn < buf.length := by
    intro q d hd hm
    obtain ⟨d1, hd1, -, -, hc, he, -⟩ := Tile_mem A _ _ 0 _ ht0 _ _ hm
    rw [hd] at hd1
    have := Option.some.inj hd1
    subst this
    omega
  cases hloop : block_loop buf 0
      { g := ControlFlowGraph.ctor, block_start := base, block_size := 0,
        block_insn_count := 0, jumps := [], prev := none } with
  | none => simp [build_blocks, hloop] at hb
  | some s =>
    obtain ⟨hinv, hinv2⟩ := block_loop_inv2 A buf hL hK buf 0 (by simp) (by omega) _ s h0 h20
      hloop
    have hc := hinv.count_le
    have hse := hinv.size_eq
    simp only [build_blocks, hloop] at hb
    by_cases hbs : 0 < s.block_size
    · simp only [hbs, if_true] at hb
      have hcpos : 0 < s.block_insn_count := by
        rcases Nat.eq_zero_or_pos s.block_insn_count with h1 | h1
        · rw [h1] at hse
          simp at hse
          omega
        · exact h1
      have hA64 := hL.2.1 (buf.length - s.block_insn_count) (by omega)
      have hst : s.block_start = A (buf.length - s.block_insn_count) := by
        rw [hinv.start_eq]
        exact Nat.mod_eq_of_lt hA64
      split at hb
      · cases hb
      · rename_i g1 hl
        simp only [Option.some.injEq, Prod.mk.injEq] at hb
        obtain ⟨rfl, rfl⟩ := hb
        obtain ⟨c1, c2, ⟨nb, hnb, n1, n2, n3⟩, c4⟩ := close_block_inv2 A buf hL buf.length
          (Nat.le_refl _) s hinv hinv2 hst _ _ g1 hl
        refine ⟨?_, c1, ?_⟩
        rotate_left
        · intro p b j hp hj
          by_cases hpn : p = s.g.heap.length
          · subst hpn
            rw [hnb] at hp
            have := Option.some.inj hp
            subst this
            right
            omega
          · obtain ⟨j1, hj1, hjcf, -⟩ := c2 p b hp hpn
            rw [hj] at hj1
            have := Option.some.inj hj1
            subst this
            exact Or.inl hjcf
        intro p b j hp hj
        by_cases hpn : p = s.g.heap.length
        · subst hpn
          rw [hnb] at hp
          have := Option.some.inj hp
          subst this
          have hncf := hinv.pending (nb.insn + nb.insn_count - 1) j (by omega) (by omega) hj
          refine ⟨fun hx => ?_, fun _ => n1⟩
          rw [hncf] at hx
          cases hx.1
        · obtain ⟨j1, hj1, hjcf, r1, r2⟩ := c2 p b hp hpn
          rw [hj] at hj1
          have := Option.some.inj hj1
          subst this
          refine ⟨fun hx => r2 hx.2.1, fun hx => ?_⟩
          cases hu : is_unconditional_jump j with
          | true => exact r1 hu
          | false =>
            obtain ⟨q1, d, -, hd2, hd3⟩ := r2 hu
            have := hend q1 d hd2 (c1 q1 d hd2).1
            exact (hx ⟨hjcf, hu, by omega⟩).elim
    · simp only [hbs, if_false, Option.some.injEq, Prod.mk.injEq] at hb
      obtain ⟨rfl, rfl⟩ := hb
      have hz : s.block_insn_count = 0 := by
        rcases Nat.eq_zero_or_pos s.block_insn_count with h1 | h1
        · exact h1
        · have := hL.1 (buf.length - s.block_insn_count) buf.length (by omega) (Nat.le_refl _)
          omega
      refine ⟨?_, hinv2.stored, ?_⟩
      rotate_left
      · intro p b j hp hj
        obtain ⟨j1, hj1, hjcf⟩ := hinv2.last_cf p b hp
        rw [hj] at hj1
        have := Option.some.inj hj1
        subst this
        exact Or.inl hjcf
      intro p b j hp hj
      by_cases hsp : s.prev = some p
      · obtain ⟨o1, o2⟩ := hinv2.open_prev p b hsp hp
        refine ⟨fun hx => ?_, fun _ => o1⟩
        have := hx.2.2
        omega
      · obtain ⟨r1, r2⟩ := hinv2.closed p b j hp hsp hj
        obtain ⟨j1, hj1, hjcf⟩ := hinv2.last_cf p b hp
        rw [hj] at hj1
        have := Option.some.inj hj1
        subst this
        refine ⟨fun hx => r2 hx.2.1, fun hx => ?_⟩
        cases hu : is_unconditional_jump j with
        | true => exact r1 hu
        | false =>
          obtain ⟨q1, d, -, hd2, hd3⟩ := r2 hu
          have := hend q1 d hd2 (hinv2.stored q1 d hd2).1
          exact (hx ⟨hjcf, hu, by omega⟩).elim

/-! ## The edge invariant through jump resolution -/

theorem EdgeInv_of_built (A : Nat → Nat) (buf : List cs_insn) (g0 : ControlFlowGraph)
    (ht0 : Tile A g0.heap buf.length 0 g0.m_blocks) (hbe : BuiltEdges buf g0)
    (hst : ∀ (p : Nat) (b : cfg_basic_block), g0.heap[p]? = some b →
      (b.addr, p) ∈ g0.m_blocks ∧ b.visitor_seq = 0) :
    EdgeInv buf g0 := by
  intro p b hp
  obtain ⟨m1, m2⟩ := hst p b hp
  obtain ⟨b1, hb1, -, -, hc, he, -⟩ := Tile_mem A _ _ 0 _ ht0 _ _ m1
  rw [hp] at hb1
  have := Option.some.inj hb1
  subst this
  have hlt : b.insn + b.insn_count - 1 < buf.length := by omega
  have hj : buf[b.insn + b.insn_count - 1]? = some (buf.get ⟨_, hlt⟩) :=
    List.getElem?_eq_getElem hlt
  obtain ⟨r1, r2⟩ := hbe p b _ hp hj
  have hedges : b.edges = [] ∨ ∃ (q : Nat) (d : cfg_basic_block),
      (is_unconditional_jump (buf.get ⟨_, hlt⟩) = false) ∧
      b.edges = [{ is_branch := true, is_taken := false, to_ := q }] ∧
      g0.heap[q]? = some d := by
    by_cases hx : is_control_flow_insn (buf.get ⟨_, hlt⟩) = true ∧
        is_unconditional_jump (buf.get ⟨_, hlt⟩) = false ∧
        b.insn + b.insn_count < buf.length
    · obtain ⟨q, d, h1, h2, -⟩ := r1 hx
      exact Or.inr ⟨q, d, hx.2.1, h1, h2⟩
    · exact Or.inl (r2 hx)
  refine ⟨m1, m2, ?_, ?_⟩
  · intro e hee
    rcases hedges with h0 | ⟨q, d, -, h1, h2⟩
    · rw [h0] at hee
      cases hee
    · rw [h1] at hee
      simp only [List.mem_singleton] at hee
      subst hee
      exact getElem?_lt_length _ _ _ h2
  · intro j hj2 _ hu e hee
    rw [hj] at hj2
    have := Option.some.inj hj2
    subst this
    rcases hedges with h0 | ⟨q, d, hu2, -, -⟩
    · rw [h0] at hee
      cases hee
    · rw [hu] at hu2
      cases hu2

theorem resolve_jump_map_kept (A : Nat → Nat) (buf : List cs_insn)
    (hL : Layout A buf.length) (g g1 : ControlFlowGraph) (J : cs_insn)
    (htile : Tile A g.heap buf.length 0 g.m_blocks)
    (h : resolve_jump buf g J = Outcome.done g1) (k p : Nat) (hm : (k, p) ∈ g.m_blocks) :
    (k, p) ∈ g1.m_blocks := by
  rcases resolve_jump_done buf g g1 J h with ⟨-, rfl⟩ |
    ⟨T, s, t, tb, hT, hT0, hs, -, -, -, rfl⟩ |
    ⟨T, s, t, tb, j, lead, ti, hT, hT0, hs, hf, ht, hne, hsc, hti, hta, hsp⟩
  · exact hm
  · simp only [set_branch_target, create_edge_m_blocks]
    exact hm
  · obtain ⟨sb, hsb, -⟩ := find_block_facts A g _ htile _ s hs
    have hsl := getElem?_lt_length _ _ _ hsb
    obtain ⟨e1, -⟩ := split_block_heap g g1 s t tb T j lead ht hsl hsp
    rw [e1]
    exact map_assign_mem_old _ _ _ _ _ hm
      (split_target_not_key A g.heap buf.length (fun a b hab hb => hL.1 a b hab hb) 0
        g.m_blocks htile T t tb hf ht hne k p hm)

theorem resolve_jumps_map_kept (A : Nat → Nat) (buf : List cs_insn)
    (hL : Layout A buf.length) (hK : Linked A buf) (jumps : List cs_insn)
    (g g1 : ControlFlowGraph) (htile : Tile A g.heap buf.length 0 g.m_blocks)
    (h : resolve_jumps buf g jumps = Outcome.done g1) (k p : Nat)
    (hm : (k, p) ∈ g.m_blocks) : (k, p) ∈ g1.m_blocks := by
  induction jumps generalizing g with
  | nil =>
    simp only [resolve_jumps, Outcome.done.injEq] at h
    subst h
    exact hm
  | cons J rest ih =>
    simp only [resolve_jumps] at h
    cases hr : resolve_jump buf g J with
    | done g2 =>
      rw [hr] at h
      exact ih g2 (resolve_jump_tile A buf hL hK g g2 J htile hr) h
        (resolve_jump_map_kept A buf hL g g2 J htile hr k p hm)
    | failed => rw [hr] at h; cases h
    | fault => rw [hr] at h; cases h

theorem resolve_jump_edgeinv (A : Nat → Nat) (buf : List cs_insn)
    (hL : Layout A buf.length) (hK : Linked A buf) (g g1 : ControlFlowGraph) (J : cs_insn)
    (htile : Tile A g.heap buf.length 0 g.m_blocks) (hheap : HeapInv buf g.heap)
    (hinv : EdgeInv buf g)
    (h : resolve_jump buf g J = Outcome.done g1) :
    EdgeInv buf g1 := by
  rcases resolve_jump_done buf g g1 J h with ⟨-, rfl⟩ |
    ⟨T, s, t, tb, hT, hT0, hs, -, ht, -, rfl⟩ |
    ⟨T, s, t, tb, j, lead, ti, hT, hT0, hs, hf, ht, hne, hsc, hti, hta, hsp⟩
  · exact hinv
  · intro p b1 hp
    obtain ⟨b0, hb0, hb1⟩ := create_edge_inv _ _ _ _ _ p b1 hp
    obtain ⟨i1, i2, i3, i4⟩ := hinv p b0 hb0
    have htl := getElem?_lt_length _ _ _ ht
    simp only [set_branch_target, create_edge_m_blocks, create_edge_length]
    by_cases hps : p = s
    · simp only [hps, if_true] at hb1
      subst hb1
      refine ⟨i1, i2, ?_, ?_⟩
      · intro e hee
        simp only [List.mem_append, List.mem_singleton] at hee
        rcases hee with h1 | h1
        · exact i3 e h1
        · subst h1
          exact htl
      · intro j hj hcf hu e hee
        simp only [List.mem_append, List.mem_singleton] at hee
        rcases hee with h1 | h1
        · exact i4 j hj hcf hu e h1
        · subst h1
          exact ⟨rfl, rfl⟩
    · simp only [hps, if_false] at hb1
      subst hb1
      exact ⟨i1, i2, i3, i4⟩
  · obtain ⟨f1, f2, f3, f4, f5, f6, f7, f8, f9⟩ :=
      split_facts A buf hL hK g htile T t tb j lead ti hf ht hne hsc hti hta
    obtain ⟨sb, hsb, -⟩ := find_block_facts A g _ htile _ s hs
    have hsl := getElem?_lt_length _ _ _ hsb
    have htl := getElem?_lt_length _ _ _ ht
    obtain ⟨e1, e2, e3, e4⟩ := split_block_heap g g1 s t tb T j lead ht hsl hsp
    have hlen : g.heap.length < g1.heap.length := getElem?_lt_length _ _ _ e3
    have hnk : ∀ k q, (k, q) ∈ g.m_blocks → k ≠ T := fun k q hm =>
      split_target_not_key A g.heap buf.length (fun a b hab hb => hL.1 a b hab hb) 0
        g.m_blocks htile T t tb hf ht hne k q hm
    obtain ⟨hin, -⟩ := hheap t tb ht
    have hsub : sub32 tb.insn_count lead = tb.insn_count - lead := by
      simp only [sub32]
      omega
    obtain ⟨t1, t2, t3, t4⟩ := hinv t tb ht
    intro p b1 hp
    rw [e1]
    by_cases hpt : p = t
    · subst hpt
      rw [e2] at hp
      have := Option.some.inj hp
      subst this
      refine ⟨map_assign_mem_old _ _ _ _ _ t1 (hnk _ _ t1), t2, ?_, ?_⟩
      · intro e hee
        have : e.to_ = g.heap.length := by
          by_cases hst : s = p <;>
            simp only [hst, if_true, if_false, List.nil_append, List.cons_append,
              List.mem_cons, List.mem_singleton, List.not_mem_nil, or_false] at hee
          · rcases hee with h1 | h1 <;> rw [h1]
          · rw [hee]
        omega
      · intro x hx hxcf _ _
        simp only at hx
        have := hin (tb.insn + lead - 1) x (by omega) (by omega) hx
        rw [hxcf] at this
        cases this
    · by_cases hpn : p = g.heap.length
      · subst hpn
        rw [e3] at hp
        have := Option.some.inj hp
        subst this
        refine ⟨map_assign_mem_self _ _ _, rfl, ?_, ?_⟩
        · intro e hee
          have := t3 e hee
          omega
        · intro x hx hxcf hxu e hee
          simp only [hsub] at hx
          have hidx : j + (tb.insn_count - lead) - 1 = tb.insn + tb.insn_count - 1 := by
            omega
          rw [hidx] at hx
          exact t4 x hx hxcf hxu e hee
      · rw [e4 p hpt hpn] at hp
        cases hb : g.heap[p]? with
        | none => simp [hb] at hp
        | some b =>
          simp only [hb, Option.map_some', Option.some.injEq] at hp
          obtain ⟨i1, i2, i3, i4⟩ := hinv p b hb
          by_cases hps : p = s
          · simp only [hps, if_true] at hp
            subst hp
            refine ⟨map_assign_mem_old _ _ _ _ _ i1 (hnk _ _ i1), i2, ?_, ?_⟩
            · intro e hee
              simp only [List.mem_append, List.mem_singleton] at hee
              rcases hee with h1 | h1
              · have := i3 e h1
                omega
              · subst h1
                exact hlen
            · intro x hx hcf hu e hee
              simp only [List.mem_append, List.mem_singleton] at hee
              rcases hee with h1 | h1
              · exact i4 x hx hcf hu e h1
              · subst h1
                exact ⟨rfl, rfl⟩
          · simp only [hps, if_false] at hp
            subst hp
            refine ⟨map_assign_mem_old _ _ _ _ _ i1 (hnk _ _ i1), i2, ?_, i4⟩
            intro e hee
            have := i3 e hee
            omega

theorem resolve_jumps_edgeinv (A : Nat → Nat) (buf : List cs_insn)
    (hL : Layout A buf.length) (hK : Linked A buf) (jumps : List cs_insn)
    (hjumps : ∀ J ∈ jumps, is_control_flow_insn J = true ∧ ∃ idx : Nat, buf[idx]? = some J)
    (g g1 : ControlFlowGraph)
    (htile : Tile A g.heap buf.length 0 g.m_blocks) (hheap : HeapInv buf g.heap)
    (hinv : EdgeInv buf g)
    (h : resolve_jumps buf g jumps = Outcome.done g1) :
    EdgeInv buf g1 := by
  induction jumps generalizing g with
  | nil =>
    simp only [resolve_jumps, Outcome.done.injEq] at h
    subst h
    exact hinv
  | cons J rest ih =>
    simp only [resolve_jumps] at h
    cases hr : resolve_jump buf g J with
    | done g2 =>
      rw [hr] at h
      obtain ⟨hcf, idx, hidx⟩ := hjumps J (by simp)
      exact ih (fun K hK2 => hjumps K (by simp [hK2])) g2
        (resolve_jump_tile A buf hL hK g g2 J htile hr)
        (resolve_jump_heapinv A buf hL hK g g2 J htile hheap idx hidx hcf hr)
        (resolve_jump_edgeinv A buf hL hK g g2 J htile hheap hinv hr) h
    | failed => rw [hr] at h; cases h
    | fault => rw [hr] at h; cases h

theorem mem_blocks (g : ControlFlowGraph) (b : cfg_basic_block) (h : b ∈ blocks g) :
    ∃ k p : Nat, (k, p) ∈ g.m_blocks ∧ g.heap[p]? = some b := by
  unfold blocks at h
  rw [List.mem_filterMap] at h
  obtain ⟨⟨k, p⟩, hm, hb⟩ := h
  exact ⟨k, p, hm, hb⟩

theorem nodup_keys_unique (m : List (Nat × Nat)) (hn : (m.map Prod.fst).Nodup)
    (k p q : Nat) (hp : (k, p) ∈ m) (hq : (k, q) ∈ m) : p = q := by
  induction m with
  | nil => cases hp
  | cons x rest ih =>
    simp only [List.map_cons, List.nodup_cons, List.mem_map, not_exists, not_and] at hn
    simp only [List.mem_cons] at hp hq
    rcases hp with hp | hp
    · rcases hq with hq | hq
      · rw [← hp] at hq
        exact ((Prod.mk.injEq _ _ _ _).mp hq).2.symm
      · exact (hn.1 (k, q) hq (by rw [← hp])).elim
    · rcases hq with hq | hq
      · exact (hn.1 (k, p) hp (by rw [← hq])).elim
      · exact ih hn.2 hp hq

theorem Tile_block_unique (A : Nat → Nat) (N : Nat) (hL : Layout A N)
    (heap : List cfg_basic_block) (m : List (Nat × Nat)) (h : Tile A heap N 0 m)
    (k1 p1 k2 p2 : Nat) (b1 b2 : cfg_basic_block)
    (h1 : (k1, p1) ∈ m) (hb1 : heap[p1]? = some b1)
    (h2 : (k2, p2) ∈ m) (hb2 : heap[p2]? = some b2) (x : Nat)
    (hx1 : b1.insn ≤ x) (hy1 : x < b1.insn + b1.insn_count)
    (hx2 : b2.insn ≤ x) (hy2 : x < b2.insn + b2.insn_count) : p1 = p2 := by
  rcases Nat.lt_trichotomy b1.insn b2.insn with hlt | heq | hgt
  · have := Tile_no_overlap A heap N 0 m h k2 p2 k1 p1 b2 b1 h2 hb2 h1 hb1 hlt
    omega
  · obtain ⟨c1, hc1, a1, -, -, -, a2, -⟩ := Tile_mem A heap N 0 m h k1 p1 h1
    obtain ⟨c2, hc2, a3, -, -, -, a4, -⟩ := Tile_mem A heap N 0 m h k2 p2 h2
    rw [hb1] at hc1
    rw [hb2] at hc2
    have := Option.some.inj hc1
    subst this
    have := Option.some.inj hc2
    subst this
    have hk : k1 = k2 := by rw [← a1, ← a3, a2, a4, heq]
    subst hk
    exact nodup_keys_unique m (Tile_keys_nodup A N hL heap m h) k1 p1 p2 h1 h2
  · have := Tile_no_overlap A heap N 0 m h k1 p1 k2 p2 b1 b2 h1 hb1 h2 hb2 hgt
    omega

theorem source_last_index (A : Nat → Nat) (buf : List cs_insn) (hL : Layout A buf.length)
    (hK : Linked A buf) (g : ControlFlowGraph)
    (htile : Tile A g.heap buf.length 0 g.m_blocks) (hheap : HeapInv buf g.heap)
    (J : cs_insn) (idx : Nat) (hJ : buf[idx]? = some J)
    (hcf : is_control_flow_insn J = true) (s : Nat) (b : cfg_basic_block)
    (hs : find_basic_block g J.address = Lookup.block s) (hb : g.heap[s]? = some b) :
    b.insn + b.insn_count - 1 = idx ∧ 0 < b.insn_count := by
  have hidx := getElem?_lt_length _ _ _ hJ
  rw [(hK idx J hJ).1] at hs
  obtain ⟨b1, hb1, h1, h2⟩ := find_block_contains A _ hL g htile idx s hidx hs
  rw [hb] at hb1
  have hbb := Option.some.inj hb1
  subst hbb
  by_cases hlast : idx + 1 < b.insn + b.insn_count
  · have := (hheap s b hb).1 idx J h1 hlast hJ
    rw [hcf] at this
    cases this
  · omega

/-! ## The edge list of the block that ends in a given jump -/

theorem heap_block_unique (A : Nat → Nat) (buf : List cs_insn) (hL : Layout A buf.length)
    (g : ControlFlowGraph) (htile : Tile A g.heap buf.length 0 g.m_blocks)
    (hinv : EdgeInv buf g) (p q : Nat) (b c : cfg_basic_block)
    (hb : g.heap[p]? = some b) (hc : g.heap[q]? = some c)
    (hlast : b.insn + b.insn_count - 1 = c.insn + c.insn_count - 1) : p = q := by
  have m1 := (hinv p b hb).1
  have m2 := (hinv q c hc).1
  obtain ⟨b1, hb1, -, -, hc1, -⟩ := Tile_mem A _ _ 0 _ htile _ _ m1
  obtain ⟨c1, hc2, -, -, hc3, -⟩ := Tile_mem A _ _ 0 _ htile _ _ m2
  rw [hb] at hb1
  rw [hc] at hc2
  have := Option.some.inj hb1
  subst this
  have := Option.some.inj hc2
  subst this
  exact Tile_block_unique A buf.length hL g.heap g.m_blocks htile _ p _ q b c m1 hb m2 hc
    (b.insn + b.insn_count - 1) (by omega) (by omega) (by omega) (by omega)

theorem resolve_jump_edges_at (A : Nat → Nat) (buf : List cs_insn)
    (hL : Layout A buf.length) (hK : Linked A buf) (g g1 : ControlFlowGraph) (J : cs_insn)
    (htile : Tile A g.heap buf.length 0 g.m_blocks) (hheap : HeapInv buf g.heap)
    (hinv : EdgeInv buf g) (idxJ : Nat) (hJ : buf[idxJ]? = some J)
    (hcfJ : is_control_flow_insn J = true)
    (h : resolve_jump buf g J = Outcome.done g1)
    (idx : Nat) (L : cs_insn) (hL0 : buf[idx]? = some L)
    (hcf0 : is_control_flow_insn L = true) (E : List cfg_edge) (he : EdgesAt g idx E) :
    ((idx ≠ idxJ ∨ ∃ T, get_jump_target J = some T ∧ (T = 0 ∨
        (find_basic_block g J.address = find_basic_block g T ∧
          T ∉ g.m_blocks.map Prod.fst))) → EdgesAt g1 idx E) ∧
    (idx = idxJ → ∀ T, get_jump_target J = some T → T ≠ 0 →
      ¬ (find_basic_block g J.address = find_basic_block g T ∧
          T ∉ g.m_blocks.map Prod.fst) →
      ∃ r, (T, r) ∈ g1.m_blocks ∧
        EdgesAt g1 idx (E ++ [{ is_branch := true, is_taken := true, to_ := r }])) := by
  rcases resolve_jump_done buf g g1 J h with ⟨hz, rfl⟩ |
    ⟨T, s, t, tb, hT, hT0, hs, hf, ht, hta, rfl⟩ |
    ⟨T, s, t, tb, j, lead, ti, hT, hT0, hs, hf, ht, hne, hsc, hti, hta, hsp⟩
  · refine ⟨fun _ => he, ?_⟩
    intro _ T hT hT0
    rw [hz] at hT
    exact (hT0 (Option.some.inj hT).symm).elim
  · -- the target is a block start
    obtain ⟨sb, hsb, -⟩ := find_block_facts A g _ htile _ s hs
    obtain ⟨hsl, hsc⟩ := source_last_index A buf hL hK g htile hheap J idxJ hJ hcfJ s sb hs hsb
    have huniq : ∀ (p : Nat) (b0 : cfg_basic_block), g.heap[p]? = some b0 →
        b0.insn + b0.insn_count - 1 = idxJ → p = s := fun p b0 hb0 hl =>
      heap_block_unique A buf hL g htile hinv p s b0 sb hb0 hsb (by rw [hl, hsl])
    have hkey : (T, t) ∈ g.m_blocks := by
      have := (hinv t tb ht).1
      rw [hta] at this
      exact this
    refine ⟨?_, ?_⟩
    · intro hcase
      have hne : idx ≠ idxJ := by
        rcases hcase with h1 | ⟨T1, hT1, h1 | ⟨-, h1⟩⟩
        · exact h1
        · rw [hT] at hT1
          exact (hT0 ((Option.some.inj hT1).trans h1)).elim
        · rw [hT] at hT1
          have := Option.some.inj hT1
          subst this
          exact (h1 (List.mem_map.mpr ⟨(T, t), hkey, rfl⟩)).elim
      refine ⟨?_, ?_⟩
      · obtain ⟨p0, b0, hb0, hl0⟩ := he.1
        obtain ⟨b1, hb1, -, -, g3, g4⟩ := create_edge_geom g s t true true p0 b0 hb0
        exact ⟨p0, b1, hb1, by rw [g3, g4]; exact hl0⟩
      · intro p b1 hp hl
        obtain ⟨b0, hb0, hb1⟩ := create_edge_inv _ _ _ _ _ p b1 hp
        by_cases hps : p = s
        · simp only [hps, if_true] at hb1
          subst hb1
          rw [hps, hsb] at hb0
          have := Option.some.inj hb0
          subst this
          simp only at hl
          exact (hne (by rw [← hl, hsl])).elim
        · simp only [hps, if_false] at hb1
          subst hb1
          exact he.2 p b1 hb0 hl
    · intro hidx T1 hT1 _ _
      rw [hT] at hT1
      have := Option.some.inj hT1
      subst this
      refine ⟨t, by simpa [set_branch_target, create_edge_m_blocks] using hkey, ?_, ?_⟩
      · obtain ⟨b1, hb1, -, -, g3, g4⟩ := create_edge_geom g s t true true s sb hsb
        exact ⟨s, b1, hb1, by rw [g3, g4, hidx]; exact hsl⟩
      · intro p b1 hp hl
        obtain ⟨b0, hb0, hb1⟩ := create_edge_inv _ _ _ _ _ p b1 hp
        have hl0 : b0.insn + b0.insn_count - 1 = idx := by
          rw [← hl, hb1]
          by_cases hps : p = s <;> simp [hps]
        have hps := huniq p b0 hb0 (by rw [hl0, hidx])
        simp only [hps, if_true] at hb1
        subst hb1
        simp only
        rw [he.2 p b0 hb0 hl0]
  · -- the target block is split
    obtain ⟨f1, f2, f3, f4, f5, f6, f7, f8, f9⟩ :=
      split_facts A buf hL hK g htile T t tb j lead ti hf ht hne hsc hti hta
    obtain ⟨sb, hsb, -⟩ := find_block_facts A g _ htile _ s hs
    obtain ⟨hsl, hsc0⟩ := source_last_index A buf hL hK g htile hheap J idxJ hJ hcfJ s sb hs hsb
    have hslen := getElem?_lt_length _ _ _ hsb
    have htl := getElem?_lt_length _ _ _ ht
    obtain ⟨e1, e2, e3, e4⟩ := split_block_heap g g1 s t tb T j lead ht hslen hsp
    have huniq : ∀ (p : Nat) (b0 : cfg_basic_block), g.heap[p]? = some b0 →
        b0.insn + b0.insn_count - 1 = idxJ → p = s := fun p b0 hb0 hl =>
      heap_block_unique A buf hL g htile hinv p s b0 sb hb0 hsb (by rw [hl, hsl])
    have hnk : T ∉ g.m_blocks.map Prod.fst := by
      intro hmem
      obtain ⟨⟨k, q⟩, hm, hk⟩ := List.mem_map.mp hmem
      simp only at hk
      subst hk
      exact split_target_not_key A g.heap buf.length (fun a b hab hb => hL.1 a b hab hb) 0
        g.m_blocks htile k t tb hf ht hne k q hm rfl
    obtain ⟨hin, -⟩ := hheap t tb ht
    have hsub : sub32 tb.insn_count lead = tb.insn_count - lead := by
      simp only [sub32]
      omega
    have hhead : ¬ (tb.insn + lead - 1 = idx) := by
      intro hx
      have := hin idx L (by omega) (by omega) hL0
      rw [hcf0] at this
      cases this
    refine ⟨?_, ?_⟩
    · intro hcase
      have hcase2 : idx ≠ idxJ ∨ s = t := by
        rcases hcase with h1 | ⟨T1, hT1, h1 | ⟨h1, -⟩⟩
        · exact Or.inl h1
        · rw [hT] at hT1
          exact (hT0 ((Option.some.inj hT1).trans h1)).elim
        · rw [hT] at hT1
          have := Option.some.inj hT1
          subst this
          rw [hs, hf] at h1
          exact Or.inr (Lookup.block.inj h1)
      clear hcase
      refine ⟨?_, ?_⟩
      · obtain ⟨p0, b0, hb0, hl0⟩ := he.1
        by_cases hp0 : p0 = t
        · subst hp0
          rw [ht] at hb0
          have := Option.some.inj hb0
          subst this
          refine ⟨g.heap.length, _, e3, ?_⟩
          simp only [hsub]
          omega
        · have hp0n : p0 ≠ g.heap.length := by
            have := getElem?_lt_length _ _ _ hb0
            omega
          have hx := e4 p0 hp0 hp0n
          rw [hb0] at hx
          simp only [Option.map_some'] at hx
          refine ⟨p0, _, hx, ?_⟩
          by_cases hps : p0 = s <;> simp [hps, hl0]
      · intro p b1 hp hl
        by_cases hpt : p = t
        · subst hpt
          rw [e2] at hp
          have := Option.some.inj hp
          subst this
          simp only at hl
          exact (hhead hl).elim
        · by_cases hpn : p = g.heap.length
          · subst hpn
            rw [e3] at hp
            have := Option.some.inj hp
            subst this
            simp only [hsub] at hl
            simp only
            exact he.2 t tb ht (by omega)
          · rw [e4 p hpt hpn] at hp
            cases hb : g.heap[p]? with
            | none => simp [hb] at hp
            | some b =>
              simp only [hb, Option.map_some', Option.some.injEq] at hp
              by_cases hps : p = s
              · simp only [hps, if_true] at hp
                subst hp
                simp only at hl
                rw [hps, hsb] at hb
                have := Option.some.inj hb
                subst this
                rcases hcase2 with h1 | h1
                · exact (h1 (by rw [← hl, hsl])).elim
                · exact (hpt (hps.trans h1)).elim
              · simp only [hps, if_false] at hp
                subst hp
                exact he.2 p b hb hl
    · intro hidx T1 hT1 _ hns
      rw [hT] at hT1
      have := Option.some.inj hT1
      subst this
      have hst : s ≠ t := by
        intro hx
        apply hns
        rw [hs, hf, hx]
        exact ⟨rfl, hnk⟩
      have hsn : s ≠ g.heap.length := by omega
      refine ⟨g.heap.length, by rw [e1]; exact map_assign_mem_self _ _ _, ?_, ?_⟩
      · have hx := e4 s hst hsn
        rw [hsb] at hx
        simp only [Option.map_some', if_true] at hx
        refine ⟨s, _, hx, ?_⟩
        simp only
        rw [hidx]
        exact hsl
      · intro p b1 hp hl
        by_cases hpt : p = t
        · subst hpt
          rw [e2] at hp
          have := Option.some.inj hp
          subst this
          simp only at hl
          exact (hhead hl).elim
        · by_cases hpn : p = g.heap.length
          · subst hpn
            rw [e3] at hp
            have := Option.some.inj hp
            subst this
            simp only [hsub] at hl
            have := huniq t tb ht (by omega)
            exact (hst this.symm).elim
          · rw [e4 p hpt hpn] at hp
            cases hb : g.heap[p]? with
            | none => simp [hb] at hp
            | some b =>
              simp only [hb, Option.map_some', Option.some.injEq] at hp
              have hl0 : b.insn + b.insn_count - 1 = idx := by
                rw [← hl, ← hp]
                by_cases hps : p = s <;> simp [hps]
              have hps := huniq p b hb (by rw [hl0, hidx])
              simp only [hps, if_true] at hp
              subst hp
              simp only
              rw [he.2 p b hb hl0]

theorem nodup_of_contiguous (buf : List cs_insn) (base : Nat)
    (h : contiguous base buf = true) : buf.Nodup := by
  rw [List.nodup_iff_getElem?_ne_getElem?]
  intro i j hij hj heq
  have hi : i < buf.length := by omega
  have h1 : buf[i]? = some (buf.get ⟨i, hi⟩) := List.getElem?_eq_getElem hi
  have h2 := contiguous_get buf base i _ h h1
  rw [heq] at h1
  have h3 := contiguous_get buf base j _ h h1
  have := addr_at_strict buf base h i j hij (by omega)
  omega

theorem resolve_jumps_edges_kept (A : Nat → Nat) (buf : List cs_insn)
    (hL : Layout A buf.length) (hK : Linked A buf) (jumps : List cs_insn)
    (hjumps : ∀ J ∈ jumps, is_control_flow_insn J = true ∧ ∃ idx : Nat, buf[idx]? = some J)
    (g g1 : ControlFlowGraph)
    (htile : Tile A g.heap buf.length 0 g.m_blocks) (hheap : HeapInv buf g.heap)
    (hinv : EdgeInv buf g)
    (h : resolve_jumps buf g jumps = Outcome.done g1)
    (idx : Nat) (L : cs_insn) (hL0 : buf[idx]? = some L)
    (hcf0 : is_control_flow_insn L = true) (hnot : L ∉ jumps)
    (E : List cfg_edge) (he : EdgesAt g idx E) : EdgesAt g1 idx E := by
  induction jumps generalizing g with
  | nil =>
    simp only [resolve_jumps, Outcome.done.injEq] at h
    subst h
    exact he
  | cons J rest ih =>
    simp only [resolve_jumps] at h
    cases hr : resolve_jump buf g J with
    | done g2 =>
      rw [hr] at h
      obtain ⟨hcf, idxJ, hidx⟩ := hjumps J (by simp)
      have hne : idx ≠ idxJ := by
        intro hx
        subst hx
        rw [hL0] at hidx
        have := Option.some.inj hidx
        subst this
        exact hnot (by simp)
      exact ih (fun K hK2 => hjumps K (by simp [hK2])) g2
        (resolve_jump_tile A buf hL hK g g2 J htile hr)
        (resolve_jump_heapinv A buf hL hK g g2 J htile hheap idxJ hidx hcf hr)
        (resolve_jump_edgeinv A buf hL hK g g2 J htile hheap hinv hr) h
        (fun hx => hnot (by simp [hx]))
        ((resolve_jump_edges_at A buf hL hK g g2 J htile hheap hinv idxJ hidx hcf hr idx L
          hL0 hcf0 E he).1 (Or.inl hne))
    | failed => rw [hr] at h; cases h
    | fault => rw [hr] at h; cases h

theorem resolve_jump_target_some (buf : List cs_insn) (g g1 : ControlFlowGraph) (J : cs_insn)
    (h : resolve_jump buf g J = Outcome.done g1) : ∃ T, get_jump_target J = some T := by
  rcases resolve_jump_done buf g g1 J h with ⟨hz, -⟩ | ⟨T, s, t, tb, hT, -⟩ |
    ⟨T, s, t, tb, j, lead, ti, hT, -⟩
  · exact ⟨0, hz⟩
  · exact ⟨T, hT⟩
  · exact ⟨T, hT⟩

theorem resolve_jumps_edges_grow (A : Nat → Nat) (buf : List cs_insn)
    (hL : Layout A buf.length) (hK : Linked A buf) (jumps : List cs_insn)
    (hjumps : ∀ J ∈ jumps, is_control_flow_insn J = true ∧ ∃ idx : Nat, buf[idx]? = some J)
    (g g1 : ControlFlowGraph)
    (htile : Tile A g.heap buf.length 0 g.m_blocks) (hheap : HeapInv buf g.heap)
    (hinv : EdgeInv buf g)
    (h : resolve_jumps buf g jumps = Outcome.done g1)
    (idx : Nat) (L : cs_insn) (hL0 : buf[idx]? = some L)
    (hcf0 : is_control_flow_insn L = true) (E : List cfg_edge)
    (he : ∃ E1 : List cfg_edge, EdgesAt g idx (E ++ E1) ∧
      ∀ e ∈ E1, e.is_branch = true ∧ e.is_taken = true) :
    ∃ E1 : List cfg_edge, EdgesAt g1 idx (E ++ E1) ∧
      ∀ e ∈ E1, e.is_branch = true ∧ e.is_taken = true := by
  induction jumps generalizing g with
  | nil =>
    simp only [resolve_jumps, Outcome.done.injEq] at h
    subst h
    exact he
  | cons J rest ih =>
    simp only [resolve_jumps] at h
    cases hr : resolve_jump buf g J with
    | done g2 =>
      rw [hr] at h
      obtain ⟨hcf, idxJ, hidx⟩ := hjumps J (by simp)
      obtain ⟨E1, he1, he2⟩ := he
      obtain ⟨pA, pB⟩ := resolve_jump_edges_at A buf hL hK g g2 J htile hheap hinv idxJ hidx
        hcf hr idx L hL0 hcf0 (E ++ E1) he1
      apply ih (fun K hK2 => hjumps K (by simp [hK2])) g2
        (resolve_jump_tile A buf hL hK g g2 J htile hr)
        (resolve_jump_heapinv A buf hL hK g g2 J htile hheap idxJ hidx hcf hr)
        (resolve_jump_edgeinv A buf hL hK g g2 J htile hheap hinv hr) h
      by_cases hcase : idx ≠ idxJ ∨ ∃ T, get_jump_target J = some T ∧ (T = 0 ∨
          (find_basic_block g J.address = find_basic_block g T ∧
            T ∉ g.m_blocks.map Prod.fst))
      · exact ⟨E1, pA hcase, he2⟩
      · have hc1 : idx = idxJ := by
          by_contra hx
          exact hcase (Or.inl hx)
        obtain ⟨T, hT⟩ := resolve_jump_target_some buf g g2 J hr
        have hT0 : T ≠ 0 := fun hx => hcase (Or.inr ⟨T, hT, Or.inl hx⟩)
        have hns : ¬ (find_basic_block g J.address = find_basic_block g T ∧
            T ∉ g.m_blocks.map Prod.fst) := fun hx => hcase (Or.inr ⟨T, hT, Or.inr hx⟩)
        obtain ⟨r, -, hr2⟩ := pB hc1 T hT hT0 hns
        refine ⟨E1 ++ [{ is_branch := true, is_taken := true, to_ := r }], ?_, ?_⟩
        · rw [← List.append_assoc]
          exact hr2
        · intro e hee
          simp only [List.mem_append, List.mem_singleton] at hee
          rcases hee with h1 | h1
          · exact he2 e h1
          · subst h1
            exact ⟨rfl, rfl⟩
    | failed => rw [hr] at h; cases h
    | fault => rw [hr] at h; cases h

theorem parse_edgeinv (buf : List cs_insn) (base : Nat) (g : ControlFlowGraph)
    (hwf : WellFormed buf base) (hfit : fits_types buf = true)
    (h : parse ControlFlowGraph.ctor buf base = Outcome.done g) :
    EdgeInv buf g := by
  obtain ⟨g0, jumps, g1, hb, hr, e1, e2⟩ := parse_done _ _ _ _ h
  have hL := Layout_of_WellFormed buf base hwf hfit
  have hK := Linked_of_WellFormed buf base hwf
  obtain ⟨g0', jumps', hb', ht, hh, hj⟩ := build_blocks_spec (addr_at buf base) buf base hL hK
    (addr_at_zero buf base) hwf.1
  rw [hb] at hb'
  cases hb'
  obtain ⟨hbe, hst, -⟩ := build_blocks_edges (addr_at buf base) buf base hL hK
    (addr_at_zero buf base) hwf.1 g0 jumps hb
  have hinv0 := EdgeInv_of_built (addr_at buf base) buf g0 ht hbe hst
  have hmem : ∀ K ∈ jumps, is_control_flow_insn K = true ∧ ∃ i : Nat, buf[i]? = some K := by
    intro K hK2
    rw [hj] at hK2
    exact filter_jumps_mem buf K hK2
  have := resolve_jumps_edgeinv _ buf hL hK jumps hmem g0 g1 ht hh hinv0 hr
  unfold EdgeInv at this ⊢
  rw [e1, e2]
  exact this

theorem parse_entry (buf : List cs_insn) (base : Nat) (g : ControlFlowGraph)
    (hwf : WellFormed buf base) (hfit : fits_types buf = true)
    (h : parse ControlFlowGraph.ctor buf base = Outcome.done g) :
    ∃ (e : Nat) (b : cfg_basic_block), g.m_entry = some e ∧ g.heap[e]? = some b ∧
      g.m_insn_buffer = buf := by
  have ht := parse_tile buf base g hwf hfit h
  unfold parse at h
  cases hb : build_blocks ControlFlowGraph.ctor buf base with
  | none => simp [hb] at h
  | some r =>
    obtain ⟨g0, jumps⟩ := r
    simp only [hb] at h
    cases hr : resolve_jumps buf g0 jumps with
    | failed => simp [hr] at h
    | fault => simp [hr] at h
    | done g1 =>
      simp only [hr] at h
      cases hf : find_basic_block g1 base with
      | fault => simp [hf] at h
      | null =>
        simp only [hf, Outcome.done.injEq] at h
        subst h
        have hpos : 0 < buf.length := List.length_pos.mpr hwf.1
        obtain ⟨p, hp⟩ := find_entry (addr_at buf base) g1 buf.length hpos ht
        rw [addr_at_zero, hf] at hp
        cases hp
      | block e =>
        simp only [hf, Outcome.done.injEq] at h
        subst h
        obtain ⟨b, hb2, -⟩ := find_block_facts (addr_at buf base) g1 _ ht _ e hf
        exact ⟨e, b, rfl, hb2, rfl⟩

theorem Tile_cover (A : Nat → Nat) (heap : List cfg_basic_block) (e i : Nat)
    (m : List (Nat × Nat)) (h : Tile A heap e i m) (x : Nat) (hx1 : i ≤ x) (hx2 : x < e) :
    ∃ (k p : Nat) (b : cfg_basic_block), (k, p) ∈ m ∧ heap[p]? = some b ∧ b.insn ≤ x ∧
      x < b.insn + b.insn_count := by
  induction m generalizing i with
  | nil =>
    simp only [Tile] at h
    omega
  | cons kp rest ih =>
    obtain ⟨k, p⟩ := kp
    simp only [Tile] at h
    obtain ⟨b, hb, -, hi, -, -, -, hrest⟩ := h
    by_cases hlt : x < i + b.insn_count
    · exact ⟨k, p, b, by simp, hb, by omega, by omega⟩
    · obtain ⟨k1, p1, b1, hm1, r⟩ := ih (i + b.insn_count) hrest (by omega)
      exact ⟨k1, p1, b1, by simp [hm1], r⟩

theorem block_ending_at (A : Nat → Nat) (buf : List cs_insn) (g : ControlFlowGraph)
    (htile : Tile A g.heap buf.length 0 g.m_blocks) (hheap : HeapInv buf g.heap)
    (idx : Nat) (L : cs_insn) (hL0 : buf[idx]? = some L)
    (hcf0 : is_control_flow_insn L = true) :
    ∃ (p : Nat) (b : cfg_basic_block), g.heap[p]? = some b ∧
      b.insn + b.insn_count - 1 = idx ∧ 0 < b.insn_count := by
  have hlt := getElem?_lt_length _ _ _ hL0
  obtain ⟨k, p, b, -, hb, h1, h2⟩ := Tile_cover A _ _ 0 _ htile idx (by omega) hlt
  refine ⟨p, b, hb, ?_, by omega⟩
  by_cases hlast : idx + 1 < b.insn + b.insn_count
  · have := (hheap p b hb).1 idx L h1 hlast hL0
    rw [hcf0] at this
    cases this
  · omega

/-! ## The lookup `find_basic_block` on a sorted map -/

theorem lower_bound_end (m : List (Nat × Nat)) (a : Nat) (h : ∀ e ∈ m, e.1 < a) :
    lower_bound m a = m.length := by
  induction m with
  | nil => rfl
  | cons x rest ih =>
    obtain ⟨k, p⟩ := x
    have hk : k < a := h (k, p) (by simp)
    have hnk : ¬ a ≤ k := by omega
    simp only [lower_bound, hnk, if_false, List.length_cons]
    rw [ih (fun e he => h e (by simp [he]))]

theorem floor_lookup_floor (m : List (Nat × Nat)) (a : Nat)
    (hs : (m.map Prod.fst).Pairwise (fun x y => x < y)) (hex : ∃ e ∈ m, a ≤ e.1) :
    ((∀ e ∈ m, a < e.1) → floor_lookup m a = Lookup.null) ∧
    (∀ k p, (k, p) ∈ m → k ≤ a → (∀ e ∈ m, e.1 ≤ a → e.1 ≤ k) →
      floor_lookup m a = Lookup.block p) := by
  induction m with
  | nil =>
    obtain ⟨e, he, -⟩ := hex
    cases he
  | cons x rest ih =>
    obtain ⟨k0, p0⟩ := x
    simp only [List.map_cons, List.pairwise_cons, List.mem_map, forall_exists_index,
      and_imp] at hs
    obtain ⟨hlt, hs2⟩ := hs
    have hgt : ∀ e ∈ rest, k0 < e.1 := fun e he => hlt e.1 e he rfl
    rw [floor_lookup_cons]
    by_cases hak : a ≤ k0
    · simp only [hak, if_true]
      refine ⟨?_, ?_⟩
      · intro hall
        have := hall (k0, p0) (by simp)
        simp only at this
        have hne : k0 ≠ a := by omega
        simp [hne]
      · intro k p hm hka hmax
        simp only [List.mem_cons, Prod.mk.injEq] at hm
        rcases hm with ⟨rfl, rfl⟩ | hm
        · have : k = a := by omega
          simp [this]
        · have := hgt (k, p) hm
          simp only at this
          omega
    · simp only [hak, if_false]
      have hex2 : ∃ e ∈ rest, a ≤ e.1 := by
        obtain ⟨e, he, hae⟩ := hex
        simp only [List.mem_cons] at he
        rcases he with rfl | he
        · simp only at hae
          omega
        · exact ⟨e, he, hae⟩
      obtain ⟨ih1, ih2⟩ := ih hs2 hex2
      refine ⟨?_, ?_⟩
      · intro hall
        have := hall (k0, p0) (by simp)
        simp only at this
        omega
      · intro k p hm hka hmax
        simp only [List.mem_cons, Prod.mk.injEq] at hm
        rcases hm with ⟨rfl, rfl⟩ | hm
        · have hnull : floor_lookup rest a = Lookup.null := by
            apply ih1
            intro e he
            by_contra hx
            have h1 := hmax e (by simp [he]) (by omega)
            have h2 := hgt e he
            omega
          rw [hnull]
        · rw [ih2 k p hm hka (fun e he hea => hmax e (by simp [he]) hea)]

theorem zero_direct_target (J : cs_insn) (h : direct_target J = some 0) :
    get_jump_target J = some 0 := by
  unfold direct_target at h
  unfold get_jump_target
  cases hops : J.operands with
  | nil => simp [hops] at h
  | cons op rest =>
    cases rest with
    | nil =>
      simp only [hops] at h
      by_cases hty : op.type = x86_op_type.X86_OP_IMM
      · simp only [hty, if_true, Option.some.injEq] at h
        simp [hty, h]
      · simp [hty] at h
    | cons op2 rest2 => simp [hops] at h

theorem resolve_jump_zero (buf : List cs_insn) (g : ControlFlowGraph) (J : cs_insn)
    (h : get_jump_target J = some 0) : resolve_jump buf g J = Outcome.done g := by
  simp [resolve_jump, h]

theorem find_basic_block_past_keys (g : ControlFlowGraph) (a : Nat)
    (h : ∀ e ∈ g.m_blocks, e.1 < a) : find_basic_block g a = Lookup.fault := by
  unfold find_basic_block
  simp only [lower_bound_end g.m_blocks a h]
  rw [List.getElem?_eq_none (Nat.le_refl _)]

/-! ## Depth-first exploration -/

theorem DfsPost_refl (succ : Nat → List Nat) (V : List Nat) : DfsPost succ [] V V :=
  ⟨⟨[], by simp⟩, fun x hx => Or.inl hx, fun h => h, fun x hx hn => (hn hx).elim,
    fun m hm => by cases hm⟩

theorem DfsPost_skip (succ : Nat → List Nat) (m : Nat) (rest V V1 : List Nat)
    (hm : m ∈ V) (h : DfsPost succ rest V V1) : DfsPost succ (m :: rest) V V1 := by
  obtain ⟨ext, hext⟩ := h.ext
  refine ⟨⟨ext, hext⟩, ?_, h.nodup, h.closed, ?_⟩
  · intro x hx
    rcases h.reach x hx with h1 | ⟨r, hr, h1⟩
    · exact Or.inl h1
    · exact Or.inr ⟨r, by simp [hr], h1⟩
  · intro r hr
    simp only [List.mem_cons] at hr
    rcases hr with rfl | hr
    · rw [hext]
      simp [hm]
    · exact h.roots_in r hr

theorem DfsPost_step (succ : Nat → List Nat) (m : Nat) (rest V V1 V2 : List Nat)
    (h1 : DfsPost succ [m] V V1) (h2 : DfsPost succ rest V1 V2) :
    DfsPost succ (m :: rest) V V2 := by
  obtain ⟨ext1, hext1⟩ := h1.ext
  obtain ⟨ext2, hext2⟩ := h2.ext
  refine ⟨⟨ext1 ++ ext2, by rw [hext2, hext1, List.append_assoc]⟩, ?_, ?_, ?_, ?_⟩
  · intro x hx
    rcases h2.reach x hx with h3 | ⟨r, hr, h3⟩
    · rcases h1.reach x h3 with h4 | ⟨r, hr, h4⟩
      · exact Or.inl h4
      · simp only [List.mem_singleton] at hr
        subst hr
        exact Or.inr ⟨r, by simp, h4⟩
    · exact Or.inr ⟨r, by simp [hr], h3⟩
  · exact fun hn => h2.nodup (h1.nodup hn)
  · intro x hx hn y hy
    by_cases hx1 : x ∈ V1
    · have := h1.closed x hx1 hn y hy
      rw [hext2]
      simp [this]
    · exact h2.closed x hx hx1 y hy
  · intro r hr
    simp only [List.mem_cons] at hr
    rcases hr with rfl | hr
    · have := h1.roots_in r (by simp)
      rw [hext2]
      simp [this]
    · exact h2.roots_in r hr

theorem dfs_edges_post (succ : Nat → List Nat) (call : List Nat → Nat → Option (List Nat))
    (hcall : ∀ V n V1, call V n = some V1 → n ∉ V → DfsPost succ [n] V V1)
    (ms V V1 : List Nat) (h : dfs_edges call ms V = some V1) : DfsPost succ ms V V1 := by
  induction ms generalizing V with
  | nil =>
    simp only [dfs_edges, Option.some.injEq] at h
    subst h
    exact DfsPost_refl succ V
  | cons m rest ih =>
    by_cases hm : m ∈ V
    · simp only [dfs_edges, hm, if_true] at h
      exact DfsPost_skip succ m rest V V1 hm (ih V h)
    · simp only [dfs_edges, hm, if_false] at h
      cases hc : call V m with
      | none => simp [hc] at h
      | some V2 =>
        simp only [hc] at h
        exact DfsPost_step succ m rest V V2 V1 (hcall V m V2 hc hm) (ih V2 h)

theorem dfs_node_post (succ : Nat → List Nat) (fuel : Nat) (V : List Nat) (n : Nat)
    (V1 : List Nat) (h : dfs_node succ fuel V n = some V1) (hn : n ∉ V) :
    DfsPost succ [n] V V1 := by
  induction fuel generalizing V n V1 with
  | zero => simp [dfs_node] at h
  | succ fuel ih =>
    simp only [dfs_node] at h
    have hp := dfs_edges_post succ (dfs_node succ fuel) (fun W m W1 hw hm => ih W m W1 hw hm)
      (succ n) (V ++ [n]) V1 h
    obtain ⟨ext, hext⟩ := hp.ext
    have hnV1 : n ∈ V1 := by
      rw [hext]
      simp
    refine ⟨⟨[n] ++ ext, by rw [hext, List.append_assoc]⟩, ?_, ?_, ?_, ?_⟩
    · intro x hx
      rcases hp.reach x hx with h1 | ⟨m, hm, h1⟩
      · simp only [List.mem_append, List.mem_singleton] at h1
        rcases h1 with h1 | h1
        · exact Or.inl h1
        · subst h1
          exact Or.inr ⟨x, by simp, Relation.ReflTransGen.refl⟩
      · exact Or.inr ⟨n, by simp, Relation.ReflTransGen.head hm h1⟩
    · intro hnd
      apply hp.nodup
      rw [List.nodup_append]
      refine ⟨hnd, by simp, ?_⟩
      intro x hx1 hx2
      simp only [List.mem_singleton] at hx2
      subst hx2
      exact hn hx1
    · intro x hx hxV y hy
      by_cases hxn : x = n
      · subst hxn
        exact hp.roots_in y hy
      · exact hp.closed x hx (by simp [hxV, hxn]) y hy
    · intro m hm
      simp only [List.mem_singleton] at hm
      subst hm
      exact hnV1

theorem dfs_edges_mono (call1 call2 : List Nat → Nat → Option (List Nat))
    (hc : ∀ V n V1, call1 V n = some V1 → call2 V n = some V1)
    (ms V V1 : List Nat) (h : dfs_edges call1 ms V = some V1) :
    dfs_edges call2 ms V = some V1 := by
  induction ms generalizing V with
  | nil => exact h
  | cons m rest ih =>
    by_cases hm : m ∈ V
    · simp only [dfs_edges, hm, if_true] at h ⊢
      exact ih V h
    · simp only [dfs_edges, hm, if_false] at h ⊢
      cases h1 : call1 V m with
      | none => simp [h1] at h
      | some V2 =>
        simp only [h1] at h
        simp only [hc V m V2 h1]
        exact ih V2 h

theorem dfs_node_fuel_succ (succ : Nat → List Nat) (fuel : Nat) (V : List Nat) (n : Nat)
    (V1 : List Nat) (h : dfs_node succ fuel V n = some V1) :
    dfs_node succ (fuel + 1) V n = some V1 := by
  induction fuel generalizing V n V1 with
  | zero => simp [dfs_node] at h
  | succ fuel ih =>
    simp only [dfs_node] at h
    rw [dfs_node]
    exact dfs_edges_mono _ _ (fun W m W1 hw => ih W m W1 hw) _ _ _ h

theorem dfs_node_fuel_le (succ : Nat → List Nat) (fuel fuel1 : Nat) (hle : fuel ≤ fuel1)
    (V : List Nat) (n : Nat) (V1 : List Nat) (h : dfs_node succ fuel V n = some V1) :
    dfs_node succ fuel1 V n = some V1 := by
  induction fuel1 with
  | zero =>
    have : fuel = 0 := by omega
    subst this
    exact h
  | succ k ih =>
    rcases Nat.eq_or_lt_of_le hle with heq | hlt
    · subst heq
      exact h
    · exact dfs_node_fuel_succ succ k V n V1 (ih (by omega))

theorem nodup_bounded_length (l : List Nat) (N : Nat) (hn : l.Nodup)
    (hb : ∀ x ∈ l, x < N) : l.length ≤ N := by
  have h1 : l.toFinset ⊆ Finset.range N := by
    intro x hx
    rw [List.mem_toFinset] at hx
    exact Finset.mem_range.mpr (hb x hx)
  have h2 := Finset.card_le_card h1
  rw [List.toFinset_card_of_nodup hn, Finset.card_range] at h2
  exact h2

theorem reach_bounded (succ : Nat → List Nat) (N : Nat)
    (hclosed : ∀ x, x < N → ∀ y ∈ succ x, y < N) (m x : Nat) (hm : m < N)
    (h : Relation.ReflTransGen (fun a b => b ∈ succ a) m x) : x < N := by
  induction h with
  | refl => exact hm
  | tail _ hstep ih => exact hclosed _ ih _ hstep

theorem DfsPost_bounded (succ : Nat → List Nat) (N : Nat)
    (hclosed : ∀ x, x < N → ∀ y ∈ succ x, y < N) (roots V V1 : List Nat)
    (h : DfsPost succ roots V V1) (hV : ∀ x ∈ V, x < N) (hr : ∀ m ∈ roots, m < N) :
    ∀ x ∈ V1, x < N := by
  intro x hx
  rcases h.reach x hx with h1 | ⟨m, hm, h1⟩
  · exact hV x h1
  · exact reach_bounded succ N hclosed m x (hr m hm) h1

theorem DfsPost_length (succ : Nat → List Nat) (roots V V1 : List Nat)
    (h : DfsPost succ roots V V1) : V.length ≤ V1.length := by
  obtain ⟨ext, hext⟩ := h.ext
  rw [hext]
  simp

theorem dfs_edges_total (succ : Nat → List Nat) (N K : Nat)
    (hclosed : ∀ x, x < N → ∀ y ∈ succ x, y < N)
    (call : List Nat → Nat → Option (List Nat))
    (hcall : ∀ (W : List Nat) (m : Nat), W.Nodup → (∀ x ∈ W, x < N) → m < N → m ∉ W →
      K ≤ W.length → ∃ W1, call W m = some W1 ∧ DfsPost succ [m] W W1)
    (ms W : List Nat) (hms : ∀ m ∈ ms, m < N) (hn : W.Nodup) (hb : ∀ x ∈ W, x < N)
    (hK : K ≤ W.length) : ∃ W1, dfs_edges call ms W = some W1 := by
  induction ms generalizing W with
  | nil => exact ⟨W, rfl⟩
  | cons m rest ih =>
    by_cases hm : m ∈ W
    · simp only [dfs_edges, hm, if_true]
      exact ih W (fun r hr => hms r (by simp [hr])) hn hb hK
    · simp only [dfs_edges, hm, if_false]
      obtain ⟨W1, hc, hp⟩ := hcall W m hn hb (hms m (by simp)) hm hK
      simp only [hc]
      have hl := DfsPost_length succ _ _ _ hp
      exact ih W1 (fun r hr => hms r (by simp [hr])) (hp.nodup hn)
        (DfsPost_bounded succ N hclosed _ _ _ hp hb
          (fun r hr => by
            simp only [List.mem_singleton] at hr
            subst hr
            exact hms r (by simp)))
        (by omega)

theorem dfs_node_total (succ : Nat → List Nat) (N : Nat)
    (hclosed : ∀ x, x < N → ∀ y ∈ succ x, y < N) (fuel : Nat) (V : List Nat) (n : Nat)
    (hn : V.Nodup) (hb : ∀ x ∈ V, x < N) (hnN : n < N) (hnV : n ∉ V)
    (hfuel : N ≤ V.length + fuel) : ∃ V1, dfs_node succ fuel V n = some V1 := by
  have hnd : (V ++ [n]).Nodup := by
    rw [List.nodup_append]
    refine ⟨hn, by simp, ?_⟩
    intro x hx1 hx2
    simp only [List.mem_singleton] at hx2
    subst hx2
    exact hnV hx1
  have hbd : ∀ x ∈ V ++ [n], x < N := by
    intro x hx
    simp only [List.mem_append, List.mem_singleton] at hx
    rcases hx with hx | hx
    · exact hb x hx
    · subst hx
      exact hnN
  have hlen := nodup_bounded_length (V ++ [n]) N hnd hbd
  simp only [List.length_append, List.length_singleton] at hlen
  induction fuel generalizing V n with
  | zero => omega
  | succ fuel ih =>
    simp only [dfs_node]
    apply dfs_edges_total succ N (V.length + 1) hclosed (dfs_node succ fuel) ?_ (succ n)
      (V ++ [n]) (hclosed n hnN) hnd hbd (by simp)
    intro W m hW1 hW2 hm1 hm2 hW3
    have hnd2 : (W ++ [m]).Nodup := by
      rw [List.nodup_append]
      refine ⟨hW1, by simp, ?_⟩
      intro x hx1 hx2
      simp only [List.mem_singleton] at hx2
      subst hx2
      exact hm2 hx1
    have hbd2 : ∀ x ∈ W ++ [m], x < N := by
      intro x hx
      simp only [List.mem_append, List.mem_singleton] at hx
      rcases hx with hx | hx
      · exact hW2 x hx
      · subst hx
        exact hm1
    have hlen2 := nodup_bounded_length (W ++ [m]) N hnd2 hbd2
    simp only [List.length_append, List.length_singleton] at hlen2
    obtain ⟨W1, hW1r⟩ := ih W m hW1 hW2 hm1 hm2 (by omega) hnd2 hbd2 hlen2
    exact ⟨W1, hW1r, dfs_node_post succ fuel W m W1 hW1r hm2⟩

theorem dfs_top (succ : Nat → List Nat) (N : Nat)
    (hclosed : ∀ x, x < N → ∀ y ∈ succ x, y < N) (e : Nat) (he : e < N) :
    ∃ V1, dfs_node succ N [] e = some V1 ∧ V1.Nodup ∧
      (∀ x, x ∈ V1 ↔ Relation.ReflTransGen (fun a b => b ∈ succ a) e x) ∧
      ∀ fuel, N ≤ fuel → dfs_node succ fuel [] e = some V1 := by
  obtain ⟨V1, hV1⟩ := dfs_node_total succ N hclosed N [] e List.nodup_nil
    (fun x hx => by cases hx) he (by simp) (by simp)
  have hp := dfs_node_post succ N [] e V1 hV1 (by simp)
  refine ⟨V1, hV1, hp.nodup List.nodup_nil, ?_, fun fuel hf =>
    dfs_node_fuel_le succ N fuel hf [] e V1 hV1⟩
  intro x
  constructor
  · intro hx
    rcases hp.reach x hx with h1 | ⟨m, hm, h1⟩
    · cases h1
    · simp only [List.mem_singleton] at hm
      subst hm
      exact h1
  · intro hx
    induction hx with
    | refl => exact hp.roots_in e (by simp)
    | tail _ hstep ih => exact hp.closed _ ih (by simp) _ hstep

/-! ## Graphs that differ in their marks only -/

theorem emitted_append {β : Type} (f : Nat → List β) (V W : List Nat) :
    emitted f (V ++ W) = emitted f V ++ emitted f W := by
  induction V with
  | nil => rfl
  | cons p rest ih => simp [emitted, ih]

theorem emitted_snoc {β : Type} (f : Nat → List β) (V : List Nat) (n : Nat) :
    emitted f (V ++ [n]) = emitted f V ++ f n := by
  rw [emitted_append]
  simp [emitted]

theorem unmark_block (g1 g : ControlFlowGraph) (h : unmark g1 = unmark g) (p : Nat) :
    (g1.heap[p]?).map (fun b => ({ b with visitor_seq := 0 } : cfg_basic_block)) =
      (g.heap[p]?).map (fun b => ({ b with visitor_seq := 0 } : cfg_basic_block)) := by
  have h1 := congrArg ControlFlowGraph.heap h
  simp only [unmark] at h1
  have h2 := congrArg (fun l => l[p]?) h1
  simpa [List.getElem?_map] using h2

theorem unmark_length (g1 g : ControlFlowGraph) (h : unmark g1 = unmark g) :
    g1.heap.length = g.heap.length := by
  have h1 := congrArg (fun x => x.heap.length) h
  simpa [unmark] using h1

theorem unmark_get (g1 g : ControlFlowGraph) (h : unmark g1 = unmark g) (p : Nat)
    (b1 : cfg_basic_block) (hb : g1.heap[p]? = some b1) :
    ∃ b : cfg_basic_block, g.heap[p]? = some b ∧ b1.edges = b.edges ∧ b1.addr = b.addr ∧
      b1.size = b.size ∧ b1.insn = b.insn ∧ b1.insn_count = b.insn_count := by
  have h1 := unmark_block g1 g h p
  rw [hb] at h1
  cases hg : g.heap[p]? with
  | none => simp [hg] at h1
  | some b =>
    simp only [hg, Option.map_some', Option.some.injEq, cfg_basic_block.mk.injEq] at h1
    exact ⟨b, rfl, h1.1, h1.2.2.1, h1.2.2.2.1, h1.2.2.2.2.1, h1.2.2.2.2.2⟩

theorem unmark_fields (g1 g : ControlFlowGraph) (h : unmark g1 = unmark g) :
    g1.m_blocks = g.m_blocks ∧ g1.m_insn_buffer = g.m_insn_buffer ∧
      g1.m_entry = g.m_entry ∧ g1.m_insn_count = g.m_insn_count := by
  refine ⟨?_, ?_, ?_, ?_⟩
  · simpa [unmark] using congrArg ControlFlowGraph.m_blocks h
  · simpa [unmark] using congrArg ControlFlowGraph.m_insn_buffer h
  · simpa [unmark] using congrArg ControlFlowGraph.m_entry h
  · simpa [unmark] using congrArg ControlFlowGraph.m_insn_count h

theorem unmark_successors (g1 g : ControlFlowGraph) (h : unmark g1 = unmark g) (p : Nat) :
    successors g1 p = successors g p := by
  unfold successors
  cases h1 : g1.heap[p]? with
  | none =>
    cases hg : g.heap[p]? with
    | none => rfl
    | some b =>
      have := unmark_block g1 g h p
      simp [h1, hg] at this
  | some b1 =>
    obtain ⟨b, hb, he, -⟩ := unmark_get g1 g h p b1 h1
    simp only [hb, he]

theorem unmark_reachable (g1 g : ControlFlowGraph) (h : unmark g1 = unmark g) (a b : Nat) :
    Reachable g1 a b ↔ Reachable g a b := by
  have : (fun x y => y ∈ successors g1 x) = (fun x y => y ∈ successors g x) := by
    funext x y
    rw [unmark_successors g1 g h x]
  unfold Reachable
  rw [this]

theorem mark_visited_spec (g : ControlFlowGraph) (n : Nat) (b : cfg_basic_block)
    (hb : g.heap[n]? = some b) :
    ∃ g1, mark_visited g n = some g1 ∧ unmark g1 = unmark g ∧ g1.m_seq = g.m_seq ∧
      g1.heap[n]? = some { b with visitor_seq := g.m_seq % 4294967296 } ∧
      ∀ x, x ≠ n → g1.heap[x]? = g.heap[x]? := by
  have hlt := getElem?_lt_length _ _ _ hb
  refine ⟨{ g with heap := g.heap.set n { b with visitor_seq := g.m_seq % 4294967296 } },
    by simp only [mark_visited, hb], ?_, rfl, ?_, ?_⟩
  · simp only [unmark]
    congr 1
    apply List.ext_getElem?
    intro i
    simp only [List.getElem?_map]
    by_cases hi : i = n
    · subst hi
      rw [List.getElem?_set_self hlt, hb]
      rfl
    · rw [List.getElem?_set_ne (fun hx => hi hx.symm)]
  · exact List.getElem?_set_self hlt
  · intro x hx
    exact List.getElem?_set_ne (fun h => hx h.symm)

/-! ## `visit_node` explores the graph as `dfs_node` does -/

theorem visit_edges_sim {β : Type} (visitor : ControlFlowGraph → Nat → Option (List β))
    (f : Nat → List β) (g0 : ControlFlowGraph) (e fuel : Nat)
    (hnode : ∀ (g : ControlFlowGraph) (V : List Nat) (n : Nat), Marked g0 e g V →
      Reachable g0 e n → n < g0.heap.length → n ∉ V →
      (dfs_node (successors g0) fuel V n = none →
        visit_node visitor fuel g n (emitted f V) = Visit.starved) ∧
      (∀ V1, dfs_node (successors g0) fuel V n = some V1 →
        ∃ g1, visit_node visitor fuel g n (emitted f V) = Visit.returned g1 (emitted f V1) ∧
          Marked g0 e g1 V1))
    (es : List cfg_edge)
    (hes : ∀ ed ∈ es, Reachable g0 e ed.to_ ∧ ed.to_ < g0.heap.length)
    (g : ControlFlowGraph) (V : List Nat) (hm : Marked g0 e g V) :
    (dfs_edges (dfs_node (successors g0) fuel) (es.map (fun ed => ed.to_)) V = none →
      visit_edges (visit_node visitor fuel) es g (emitted f V) = Visit.starved) ∧
    (∀ V1, dfs_edges (dfs_node (successors g0) fuel) (es.map (fun ed => ed.to_)) V = some V1 →
      ∃ g1, visit_edges (visit_node visitor fuel) es g (emitted f V) =
          Visit.returned g1 (emitted f V1) ∧ Marked g0 e g1 V1) := by
  induction es generalizing g V with
  | nil =>
    refine ⟨fun h => by simp [dfs_edges] at h, ?_⟩
    intro V1 h
    simp only [List.map_nil, dfs_edges, Option.some.injEq] at h
    subst h
    exact ⟨g, rfl, hm⟩
  | cons ed rest ih =>
    obtain ⟨hre, hlt⟩ := hes ed (by simp)
    have hrest : ∀ ed1 ∈ rest, Reachable g0 e ed1.to_ ∧ ed1.to_ < g0.heap.length :=
      fun ed1 h1 => hes ed1 (by simp [h1])
    have hlen := unmark_length g g0 hm.1
    have hlt2 : ed.to_ < g.heap.length := by omega
    have hb : g.heap[ed.to_]? = some (g.heap.get ⟨ed.to_, hlt2⟩) :=
      List.getElem?_eq_getElem hlt2
    have hmark := hm.2.2 ed.to_ _ hre hb
    by_cases hin : ed.to_ ∈ V
    · have hv : is_visited g ed.to_ = some true := by
        simp only [is_visited, hb]
        rw [decide_eq_true (hmark.mpr hin)]
      simp only [List.map_cons, dfs_edges, hin, if_true, visit_edges, hv]
      exact ih hrest g V hm
    · have hv : is_visited g ed.to_ = some false := by
        simp only [is_visited, hb]
        have : ¬ ((g.heap.get ⟨ed.to_, hlt2⟩).visitor_seq = g.m_seq) :=
          fun hx => hin (hmark.mp hx)
        rw [decide_eq_false this]
      simp only [List.map_cons, dfs_edges, hin, if_false, visit_edges, hv]
      obtain ⟨n1, n2⟩ := hnode g V ed.to_ hm hre hlt hin
      cases hd : dfs_node (successors g0) fuel V ed.to_ with
      | none =>
        simp only [n1 hd]
        exact ⟨fun _ => trivial, fun V1 h => by cases h⟩
      | some V2 =>
        obtain ⟨g2, hg2, hm2⟩ := n2 V2 hd
        simp only [hg2]
        exact ih hrest g2 V2 hm2

theorem visit_node_sim {β : Type} (visitor : ControlFlowGraph → Nat → Option (List β))
    (f : Nat → List β) (g0 : ControlFlowGraph) (e : Nat)
    (hV : ∀ (g1 : ControlFlowGraph) (n : Nat), unmark g1 = unmark g0 →
      n < g0.heap.length → visitor g1 n = some (f n))
    (hclosed : ∀ (p : Nat) (b : cfg_basic_block), g0.heap[p]? = some b →
      ∀ ed ∈ b.edges, ed.to_ < g0.heap.length)
    (hseq : g0.m_seq < 4294967296) (fuel : Nat)
    (g : ControlFlowGraph) (V : List Nat) (n : Nat) (hm : Marked g0 e g V)
    (hre : Reachable g0 e n) (hlt : n < g0.heap.length) (hin : n ∉ V) :
    (dfs_node (successors g0) fuel V n = none →
      visit_node visitor fuel g n (emitted f V) = Visit.starved) ∧
    (∀ V1, dfs_node (successors g0) fuel V n = some V1 →
      ∃ g1, visit_node visitor fuel g n (emitted f V) = Visit.returned g1 (emitted f V1) ∧
        Marked g0 e g1 V1) := by
  induction fuel generalizing g V n with
  | zero =>
    exact ⟨fun _ => rfl, fun V1 h => by simp [dfs_node] at h⟩
  | succ fuel ih =>
    have hlen := unmark_length g g0 hm.1
    have hlt2 : n < g.heap.length := by omega
    have hb : g.heap[n]? = some (g.heap.get ⟨n, hlt2⟩) := List.getElem?_eq_getElem hlt2
    obtain ⟨b0, hb0, hed, -⟩ := unmark_get g g0 hm.1 n _ hb
    obtain ⟨g1, hg1, hu1, hs1, hn1, ho1⟩ := mark_visited_spec g n _ hb
    have hsucc : successors g0 n = (g.heap.get ⟨n, hlt2⟩).edges.map (fun ed => ed.to_) := by
      simp only [successors, hb0, hed]
    have hm1 : Marked g0 e g1 (V ++ [n]) := by
      refine ⟨hu1.trans hm.1, hs1.trans hm.2.1, ?_⟩
      intro x b hx hxb
      by_cases hxn : x = n
      · subst hxn
        rw [hn1] at hxb
        have := Option.some.inj hxb
        subst this
        simp only [List.mem_append, List.mem_singleton, or_true, iff_true]
        rw [hs1]
        apply Nat.mod_eq_of_lt
        rw [hm.2.1]
        exact hseq
      · rw [ho1 x hxn] at hxb
        rw [hs1]
        simp only [List.mem_append, List.mem_singleton, hxn, or_false]
        exact hm.2.2 x b hx hxb
    have hes : ∀ ed ∈ (g.heap.get ⟨n, hlt2⟩).edges,
        Reachable g0 e ed.to_ ∧ ed.to_ < g0.heap.length := by
      intro ed hed1
      refine ⟨?_, hclosed n b0 hb0 ed (by rw [← hed]; exact hed1)⟩
      apply Relation.ReflTransGen.tail hre
      show ed.to_ ∈ successors g0 n
      rw [hsucc]
      exact List.mem_map.mpr ⟨ed, hed1, rfl⟩
    have hsim := visit_edges_sim visitor f g0 e fuel
      (fun g2 V2 n2 h1 h2 h3 h4 => ih g2 V2 n2 h1 h2 h3 h4)
      (g.heap.get ⟨n, hlt2⟩).edges hes g1 (V ++ [n]) hm1
    rw [emitted_snoc, ← hsucc] at hsim
    simp only [visit_node, hV g n hm.1 hlt, hg1, hn1, dfs_node]
    exact hsim

/-! ## What `visit` does on a graph whose reachable blocks carry one mark -/

theorem visit_spec {β : Type} (visitor : ControlFlowGraph → Nat → Option (List β))
    (f : Nat → List β) (g : ControlFlowGraph) (hF : Fresh g)
    (hV : ∀ (g1 : ControlFlowGraph) (n : Nat), unmark g1 = unmark g →
      n < g.heap.length → visitor g1 n = some (f n))
    (fuel : Nat) (hfuel : g.heap.length ≤ fuel) :
    ∃ (e : Nat) (V : List Nat) (g1 : ControlFlowGraph), g.m_entry = some e ∧
      dfs_preorder g = some V ∧ V.Nodup ∧ (∀ x, x ∈ V ↔ Reachable g e x) ∧
      visit visitor fuel g = Visit.returned g1 (emitted f V) ∧ unmark g1 = unmark g ∧
      Fresh g1 := by
  obtain ⟨e, be, he, hbe, hlt32, hclosed, hsame⟩ := hF
  have heN := getElem?_lt_length _ _ _ hbe
  have hclosedN : ∀ x, x < g.heap.length → ∀ y ∈ successors g x, y < g.heap.length := by
    intro x hx y hy
    have hb : g.heap[x]? = some (g.heap.get ⟨x, hx⟩) := List.getElem?_eq_getElem hx
    simp only [successors, hb, List.mem_map] at hy
    obtain ⟨ed, hed, rfl⟩ := hy
    exact hclosed x _ hb ed hed
  obtain ⟨V, hd, hnd, hiff, hmono⟩ := dfs_top (successors g) g.heap.length hclosedN e heN
  have hbegin : begin g = some { g with m_seq := add32 be.visitor_seq 1 } := by
    simp only [begin, he, hbe]
  have hm0 : Marked { g with m_seq := add32 be.visitor_seq 1 } e
      { g with m_seq := add32 be.visitor_seq 1 } [] := by
    refine ⟨rfl, rfl, ?_⟩
    intro x b hx hxb
    have h1 : b.visitor_seq = be.visitor_seq := hsame x b hx hxb
    constructor
    · intro h2
      simp only [add32] at h2
      omega
    · intro h2
      cases h2
  have hseq : ({ g with m_seq := add32 be.visitor_seq 1 } : ControlFlowGraph).m_seq <
      4294967296 := by
    simp only [add32]
    omega
  obtain ⟨-, hsim⟩ := visit_node_sim visitor f { g with m_seq := add32 be.visitor_seq 1 } e
    (fun g1 n h1 h2 => hV g1 n h1 h2) hclosed hseq fuel
    { g with m_seq := add32 be.visitor_seq 1 } [] e hm0 Relation.ReflTransGen.refl heN
    (by simp)
  obtain ⟨g1, hg1, hm1⟩ := hsim V (hmono fuel hfuel)
  have hu1 : unmark g1 = unmark g := hm1.1
  have hlen := unmark_length g1 g hu1
  have hb1 : g1.heap[e]? = some (g1.heap.get ⟨e, by omega⟩) :=
    List.getElem?_eq_getElem (by omega)
  have hstamp : ∀ (x : Nat) (b : cfg_basic_block), Reachable g e x → g1.heap[x]? = some b →
      b.visitor_seq = g1.m_seq := fun x b hx hxb => (hm1.2.2 x b hx hxb).mpr ((hiff x).mpr hx)
  refine ⟨e, V, g1, he, by simp only [dfs_preorder, he, hd], hnd, hiff, ?_, hu1, ?_⟩
  · simp only [visit, hbegin, he]
    simp only [he, emitted] at hg1
    exact hg1
  · refine ⟨e, _, by rw [(unmark_fields g1 g hu1).2.2.1]; exact he, hb1, ?_, ?_, ?_⟩
    · rw [hstamp e _ Relation.ReflTransGen.refl hb1, hm1.2.1]
      exact hseq
    · intro p b hp ed hed
      obtain ⟨b0, hb0, hee, -⟩ := unmark_get g1 g hu1 p b hp
      rw [hlen]
      exact hclosed p b0 hb0 ed (by rw [← hee]; exact hed)
    · intro x b hx hxb
      rw [unmark_reachable g1 g hu1] at hx
      rw [hstamp x b hx hxb, hstamp e _ Relation.ReflTransGen.refl hb1]

theorem emitted_record (V : List Nat) : emitted (fun n => [n]) V = V := by
  induction V with
  | nil => rfl
  | cons p rest ih => simp [emitted, ih]

theorem dfs_preorder_unmark (g1 g : ControlFlowGraph) (h : unmark g1 = unmark g) :
    dfs_preorder g1 = dfs_preorder g := by
  have : successors g1 = successors g := by
    funext p
    exact unmark_successors g1 g h p
  unfold dfs_preorder
  rw [(unmark_fields g1 g h).2.2.1, unmark_length g1 g h, this]

theorem visit_calls_spec (g : ControlFlowGraph) (hF : Fresh g) (fuel : Nat)
    (hfuel : g.heap.length ≤ fuel) :
    ∃ (e : Nat) (V : List Nat) (g1 : ControlFlowGraph), g.m_entry = some e ∧
      dfs_preorder g = some V ∧ V.Nodup ∧ (∀ x, x ∈ V ↔ Reachable g e x) ∧
      visit_calls fuel g = Visit.returned g1 V ∧ unmark g1 = unmark g ∧ Fresh g1 := by
  obtain ⟨e, V, g1, h1, h2, h3, h4, h5, h6, h7⟩ := visit_spec record_node (fun n => [n]) g hF
    (fun _ _ _ _ => rfl) fuel hfuel
  rw [emitted_record] at h5
  exact ⟨e, V, g1, h1, h2, h3, h4, h5, h6, h7⟩

theorem visit_again_spec (g : ControlFlowGraph) (hF : Fresh g) (fuel : Nat)
    (hfuel : g.heap.length ≤ fuel) (V : List Nat) (hV : dfs_preorder g = some V) (k : Nat) :
    ∃ gk : ControlFlowGraph, visit_again fuel g k = Visit.returned gk V ∧
      unmark gk = unmark g ∧ Fresh gk := by
  induction k with
  | zero =>
    obtain ⟨e, V1, g1, -, h2, -, -, h5, h6, h7⟩ := visit_calls_spec g hF fuel hfuel
    rw [hV] at h2
    have := Option.some.inj h2
    subst this
    exact ⟨g1, h5, h6, h7⟩
  | succ k ih =>
    obtain ⟨gk, h1, h2, h3⟩ := ih
    obtain ⟨e, V1, g1, -, h4, -, -, h5, h6, h7⟩ := visit_calls_spec gk h3 fuel
      (by rw [unmark_length gk g h2]; exact hfuel)
    rw [dfs_preorder_unmark gk g h2, hV] at h4
    have := Option.some.inj h4
    subst this
    exact ⟨g1, by simp only [visit_again, h1, h5], h6.trans h2, h7⟩

theorem parse_fresh (buf : List cs_insn) (base : Nat) (g : ControlFlowGraph)
    (hwf : WellFormed buf base) (hfit : fits_types buf = true)
    (h : parse ControlFlowGraph.ctor buf base = Outcome.done g) : Fresh g := by
  obtain ⟨e, be, he, hbe, -⟩ := parse_entry buf base g hwf hfit h
  have hinv := parse_edgeinv buf base g hwf hfit h
  refine ⟨e, be, he, hbe, ?_, fun p b hp => (hinv p b hp).2.2.1, ?_⟩
  · rw [(hinv e be hbe).2.1]
    decide
  · intro x b _ hxb
    rw [(hinv x b hxb).2.1, (hinv e be hbe).2.1]

/-! ## Rendering -/

theorem dot_label_spec (buf : List cs_insn) (i c : Nat) (h : i + c ≤ buf.length) :
    dot_label buf i c = some ((buf.drop i).take c) := by
  induction c generalizing i with
  | zero => simp [dot_label]
  | succ c ih =>
    have hi : i < buf.length := by omega
    have hx : buf[i]? = some (buf.get ⟨i, hi⟩) := List.getElem?_eq_getElem hi
    have hd : buf.drop i = buf.get ⟨i, hi⟩ :: buf.drop (i + 1) := by
      simp
    simp only [dot_label, hx, ih (i + 1) (by omega), hd, List.take_succ_cons]

theorem dot_node_name_unmark (g1 g : ControlFlowGraph) (h : unmark g1 = unmark g) (p : Nat) :
    dot_node_name g1 p = dot_node_name g p := by
  have h1 := unmark_block g1 g h p
  unfold dot_node_name
  cases hb1 : g1.heap[p]? with
  | none =>
    cases hb : g.heap[p]? with
    | none => rfl
    | some b => simp [hb1, hb] at h1
  | some b1 =>
    obtain ⟨b, hb, -, ha, -⟩ := unmark_get g1 g h p b1 hb1
    simp only [hb, ha]

theorem dot_format_edges_unmark (g1 g : ControlFlowGraph) (h : unmark g1 = unmark g)
    (n : Nat) (es : List cfg_edge) :
    dot_format_edges g1 n es = dot_format_edges g n es := by
  induction es with
  | nil => rfl
  | cons e rest ih =>
    simp only [dot_format_edges, dot_format_edge, dot_node_name_unmark g1 g h, ih]

theorem dot_visitor_unmark (g1 g : ControlFlowGraph) (h : unmark g1 = unmark g) (n : Nat)
    (hn : n < g.heap.length) : dot_visitor g1 n = dot_visitor g n := by
  have hlen := unmark_length g1 g h
  have hb1 : g1.heap[n]? = some (g1.heap.get ⟨n, by omega⟩) :=
    List.getElem?_eq_getElem (by omega)
  obtain ⟨b, hb, he, ha, -, hi, hc⟩ := unmark_get g1 g h n _ hb1
  simp only [dot_visitor, dot_format_node, hb1, hb, he, ha, hi, hc,
    (unmark_fields g1 g h).2.1, dot_format_edges_unmark g1 g h]

theorem dot_format_edges_spec (g : ControlFlowGraph) (n : Nat) (b : cfg_basic_block)
    (hb : g.heap[n]? = some b) (es : List cfg_edge)
    (hes : ∀ e ∈ es, e.to_ < g.heap.length) :
    dot_format_edges g n es = some (es.map (fun e =>
      dot_stmt.edge b.addr (block_addr g e.to_) (color_of (classify e)))) := by
  induction es with
  | nil => rfl
  | cons e rest ih =>
    have hlt := hes e (by simp)
    have hd : g.heap[e.to_]? = some (g.heap.get ⟨e.to_, hlt⟩) := List.getElem?_eq_getElem hlt
    have hcol : (if e.is_branch = true then
        (if e.is_taken = true then dot_color.blue else dot_color.red)
        else dot_color.gray) = color_of (classify e) := by
      cases h1 : e.is_branch <;> cases h2 : e.is_taken <;> simp [classify, color_of, h1, h2]
    simp only [dot_format_edges, dot_format_edge, dot_node_name, hb, hd,
      ih (fun e1 h1 => hes e1 (by simp [h1])), List.map_cons, block_addr, hcol]

theorem dot_visitor_spec (g : ControlFlowGraph)
    (hclosed : ∀ (p : Nat) (b : cfg_basic_block), g.heap[p]? = some b →
      ∀ ed ∈ b.edges, ed.to_ < g.heap.length)
    (hrange : ∀ (p : Nat) (b : cfg_basic_block), g.heap[p]? = some b →
      b.insn + b.insn_count ≤ g.m_insn_buffer.length)
    (g1 : ControlFlowGraph) (n : Nat) (h : unmark g1 = unmark g) (hn : n < g.heap.length) :
    dot_visitor g1 n = some (block_decls g n) := by
  rw [dot_visitor_unmark g1 g h n hn]
  have hb : g.heap[n]? = some (g.heap.get ⟨n, hn⟩) := List.getElem?_eq_getElem hn
  simp only [dot_visitor, dot_format_node, hb, block_decls,
    dot_label_spec _ _ _ (hrange n _ hb),
    dot_format_edges_spec g n _ hb _ (hclosed n _ hb)]

theorem dot_chain_keys (g : ControlFlowGraph) (m : List (Nat × Nat))
    (hm : ∀ k p, (k, p) ∈ m → ∃ b : cfg_basic_block, g.heap[p]? = some b ∧ b.addr = k) :
    dot_chain g m = some (m.map Prod.fst) := by
  induction m with
  | nil => rfl
  | cons x rest ih =>
    obtain ⟨k, p⟩ := x
    obtain ⟨b, hb, hk⟩ := hm k p (by simp)
    simp only [dot_chain, dot_node_name, hb, ih (fun k1 p1 h1 => hm k1 p1 (by simp [h1])),
      List.map_cons, hk]

theorem node_decls_append (a b : List dot_stmt) :
    node_decls (a ++ b) = node_decls a ++ node_decls b := by
  induction a with
  | nil => rfl
  | cons x rest ih =>
    cases x <;> simp [node_decls, ih]

theorem edge_decls_append (a b : List dot_stmt) :
    edge_decls (a ++ b) = edge_decls a ++ edge_decls b := by
  induction a with
  | nil => rfl
  | cons x rest ih =>
    cases x <;> simp [edge_decls, ih]

theorem node_decls_edges (l : List cfg_edge) (a b : cfg_edge → Nat)
    (c : cfg_edge → dot_color) :
    node_decls (l.map (fun e => dot_stmt.edge (a e) (b e) (c e))) = [] := by
  induction l with
  | nil => rfl
  | cons x rest ih => simp [node_decls, ih]

theorem edge_decls_edges (l : List cfg_edge) (a b : cfg_edge → Nat)
    (c : cfg_edge → dot_color) :
    edge_decls (l.map (fun e => dot_stmt.edge (a e) (b e) (c e))) =
      l.map (fun e => (a e, b e, c e)) := by
  induction l with
  | nil => rfl
  | cons x rest ih => simp [edge_decls, ih]

theorem node_decls_block (g : ControlFlowGraph) (p : Nat) (hp : p < g.heap.length) :
    node_decls (block_decls g p) = [block_addr g p] := by
  have hb : g.heap[p]? = some (g.heap.get ⟨p, hp⟩) := List.getElem?_eq_getElem hp
  have h1 : block_addr g p = (g.heap.get ⟨p, hp⟩).addr := by
    simp only [block_addr, hb]
  rw [h1]
  simp only [block_decls, hb, node_decls]
  congr 1
  exact node_decls_edges _ _ _ _

theorem edge_decls_block (g : ControlFlowGraph) (p : Nat) :
    edge_decls (block_decls g p) = block_edge_decls g p := by
  cases hb : g.heap[p]? with
  | none => simp [block_decls, block_edge_decls, hb, edge_decls]
  | some b =>
    simp only [block_decls, block_edge_decls, hb, edge_decls]
    exact edge_decls_edges _ _ _ _

theorem node_decls_emitted (g : ControlFlowGraph) (V : List Nat)
    (hV : ∀ p ∈ V, p < g.heap.length) :
    node_decls (emitted (block_decls g) V) = V.map (block_addr g) := by
  induction V with
  | nil => rfl
  | cons p rest ih =>
    simp only [emitted, node_decls_append, node_decls_block g p (hV p (by simp)),
      ih (fun q hq => hV q (by simp [hq])), List.map_cons, List.singleton_append]

theorem edge_decls_emitted (g : ControlFlowGraph) (V : List Nat) :
    edge_decls (emitted (block_decls g) V) = emitted (block_edge_decls g) V := by
  induction V with
  | nil => rfl
  | cons p rest ih =>
    simp only [emitted, edge_decls_append, edge_decls_block, ih]

theorem node_decls_text (names : List Nat) (body : List dot_stmt) :
    node_decls ([dot_stmt.header, dot_stmt.chain names] ++ body ++ [dot_stmt.close]) =
      node_decls body := by
  show node_decls (body ++ [dot_stmt.close]) = node_decls body
  rw [node_decls_append]
  simp [node_decls]

theorem edge_decls_text (names : List Nat) (body : List dot_stmt) :
    edge_decls ([dot_stmt.header, dot_stmt.chain names] ++ body ++ [dot_stmt.close]) =
      edge_decls body := by
  show edge_decls (body ++ [dot_stmt.close]) = edge_decls body
  rw [edge_decls_append]
  simp [edge_decls]

/-! ## The claims -/

/-- C1: for a well-formed input of N instructions, held in records that fit their C types,
on which `parse` succeeds, the `insn_count` fields of the blocks of the final graph add up
to N. -/
theorem parse_insn_count_sum (buf : List cs_insn) (base : Nat) (g : ControlFlowGraph)
    (hwf : WellFormed buf base) (hfit : fits_types buf = true)
    (h : parse ControlFlowGraph.ctor buf base = Outcome.done g) :
    ((blocks g).map (fun b => b.insn_count)).sum = buf.length := by
  have ht := parse_tile buf base g hwf hfit h
  have := (Tile_blocks _ _ (Layout_of_WellFormed buf base hwf hfit) g.heap 0 g.m_blocks ht).1
  simpa [blocks] using this

/-- Witness of C1 on `sample_split`, an input on which jump resolution splits a block. -/
theorem parse_insn_count_sum_witness :
    WellFormed sample_split 0x1000 ∧ fits_types sample_split = true ∧
    parse ControlFlowGraph.ctor sample_split 0x1000 = Outcome.done sample_split_graph ∧
    ((blocks sample_split_graph).map (fun b => b.insn_count)).sum = sample_split.length :=
  ⟨by decide, by decide, by decide,
    parse_insn_count_sum sample_split 0x1000 sample_split_graph (by decide) (by decide)
      (by decide)⟩

/-- C2: for a well-formed input, held in records that fit their C types, on which `parse`
succeeds, the address ranges `[addr, addr + size)` of two distinct blocks of the final graph
share no address, and an address lies in the range of some block exactly when it lies in
`[base, base + total byte size of the input)`. -/
theorem parse_block_ranges (buf : List cs_insn) (base : Nat) (g : ControlFlowGraph)
    (hwf : WellFormed buf base) (hfit : fits_types buf = true)
    (h : parse ControlFlowGraph.ctor buf base = Outcome.done g) :
    (blocks g).Pairwise (fun a b =>
      ∀ x, ¬ ((a.addr ≤ x ∧ x < a.addr + a.size) ∧ (b.addr ≤ x ∧ x < b.addr + b.size))) ∧
    (∀ x, (∃ b ∈ blocks g, b.addr ≤ x ∧ x < b.addr + b.size) ↔
      (base ≤ x ∧ x < base + (buf.map (fun i => i.size)).sum)) := by
  have ht := parse_tile buf base g hwf hfit h
  obtain ⟨-, -, -, -, h5, h6⟩ :=
    Tile_blocks _ _ (Layout_of_WellFormed buf base hwf hfit) g.heap 0 g.m_blocks ht
  refine ⟨?_, ?_⟩
  · refine List.Pairwise.imp ?_ h5
    intro a b hab x hx
    omega
  · intro x
    have := h6 x
    rw [addr_at_zero, addr_at_length] at this
    exact this

/-- Witness of C2 on `sample_split`. -/
theorem parse_block_ranges_witness :
    WellFormed sample_split 0x1000 ∧ fits_types sample_split = true ∧
    parse ControlFlowGraph.ctor sample_split 0x1000 = Outcome.done sample_split_graph ∧
    ((blocks sample_split_graph).Pairwise (fun a b =>
      ∀ x, ¬ ((a.addr ≤ x ∧ x < a.addr + a.size) ∧ (b.addr ≤ x ∧ x < b.addr + b.size))) ∧
    (∀ x, (∃ b ∈ blocks sample_split_graph, b.addr ≤ x ∧ x < b.addr + b.size) ↔
      (0x1000 ≤ x ∧ x < 0x1000 + (sample_split.map (fun i => i.size)).sum))) :=
  ⟨by decide, by decide, by decide,
    parse_block_ranges sample_split 0x1000 sample_split_graph (by decide) (by decide)
      (by decide)⟩

/-- C3: for a well-formed input, held in records that fit their C types, on which `parse`
succeeds, every block of the final graph has at least one instruction, its instructions lie
in the buffer, its first instruction is at the block's `addr`, and the sizes of its
`insn_count` instructions add up to its `size`. -/
theorem parse_block_runs (buf : List cs_insn) (base : Nat) (g : ControlFlowGraph)
    (hwf : WellFormed buf base) (hfit : fits_types buf = true)
    (h : parse ControlFlowGraph.ctor buf base = Outcome.done g) :
    ∀ b ∈ blocks g, 1 ≤ b.insn_count ∧ b.insn + b.insn_count ≤ buf.length ∧
      (∃ x, buf[b.insn]? = some x ∧ x.address = b.addr) ∧
      (((buf.drop b.insn).take b.insn_count).map (fun x => x.size)).sum = b.size := by
  have ht := parse_tile buf base g hwf hfit h
  obtain ⟨-, -, -, h4, -, -⟩ :=
    Tile_blocks _ _ (Layout_of_WellFormed buf base hwf hfit) g.heap 0 g.m_blocks ht
  intro b hb
  obtain ⟨c1, c2, c3, -, c5⟩ := h4 b hb
  have hlt : b.insn < buf.length := by omega
  refine ⟨c1, c5, ⟨buf[b.insn], List.getElem?_eq_getElem hlt, ?_⟩, ?_⟩
  · rw [c2]
    exact (contiguous_get buf base b.insn _ hwf.2 (List.getElem?_eq_getElem hlt)).1
  · rw [addr_at_add] at c3
    omega

/-- Witness of C3 on `sample_split`. -/
theorem parse_block_runs_witness :
    WellFormed sample_split 0x1000 ∧ fits_types sample_split = true ∧
    parse ControlFlowGraph.ctor sample_split 0x1000 = Outcome.done sample_split_graph ∧
    ∀ b ∈ blocks sample_split_graph, 1 ≤ b.insn_count ∧
      b.insn + b.insn_count ≤ sample_split.length ∧
      (∃ x, sample_split[b.insn]? = some x ∧ x.address = b.addr) ∧
      (((sample_split.drop b.insn).take b.insn_count).map (fun x => x.size)).sum = b.size :=
  ⟨by decide, by decide, by decide,
    parse_block_runs sample_split 0x1000 sample_split_graph (by decide) (by decide)
      (by decide)⟩

/-- C4 as stated fails at two inputs. At `sample_loop` the conditional jump at index 2 goes
to 0x1001, inside its own block: `parse` succeeds, the jump ends up in the block stored under
0x1001, and no block that holds the jump has a taken-branch edge to the block stored under
0x1001; the edge is on the head block, which holds instruction 0. At `sample_entry_jump`
the direct jump at index 1 goes to the address 0, at which its block starts: `parse`
succeeds and the graph has no taken-branch edge for it. -/
theorem branch_taken_missing :
    (WellFormed sample_loop 0x1000 ∧ fits_types sample_loop = true ∧
      parse ControlFlowGraph.ctor sample_loop 0x1000 = Outcome.done sample_loop_graph ∧
      sample_loop[2]? = some (insn_jcc 0x1002 0x1001) ∧
      direct_target (insn_jcc 0x1002 0x1001) = some 0x1001 ∧
      has_branch_taken sample_loop_graph 2 0x1001 = false ∧
      has_branch_taken sample_loop_graph 0 0x1001 = true) ∧
    (WellFormed sample_entry_jump 0 ∧ fits_types sample_entry_jump = true ∧
      parse ControlFlowGraph.ctor sample_entry_jump 0 = Outcome.done sample_entry_jump_graph ∧
      sample_entry_jump[1]? = some (insn_jmp 1 0) ∧
      direct_target (insn_jmp 1 0) = some 0 ∧
      block_starts sample_entry_jump_graph = [0] ∧
      has_branch_taken sample_entry_jump_graph 1 0 = false) :=
  ⟨⟨by decide, by decide, by decide, by decide, by decide, by decide, by decide⟩,
    ⟨by decide, by decide, by decide, by decide, by decide, by decide, by decide⟩⟩

/-- C4, amended: for a well-formed input, held in records that fit their C types, on which
`parse` succeeds, let `J` be a recorded jump with a direct target `t` other than 0, and let
`gJ` be the graph on which `J` is resolved, that is the graph after the jumps recorded
before `J`. Unless in `gJ` the lookup of `t` gives the block that the lookup of `J` gives
and `t` is no block start, the final graph has a taken-branch edge from the block that holds
`J` to the block stored under `t`. -/
theorem branch_taken_edges (buf : List cs_insn) (base : Nat) (g0 g : ControlFlowGraph)
    (jumps : List cs_insn) (hwf : WellFormed buf base) (hfit : fits_types buf = true)
    (hb : build_blocks ControlFlowGraph.ctor buf base = some (g0, jumps))
    (h : parse ControlFlowGraph.ctor buf base = Outcome.done g)
    (pre post : List cs_insn) (J : cs_insn) (gJ : ControlFlowGraph) (idx t : Nat)
    (hjumps : jumps = pre ++ J :: post)
    (hpre : resolve_jumps buf g0 pre = Outcome.done gJ)
    (hidx : buf[idx]? = some J) (ht : direct_target J = some t) (ht0 : t ≠ 0)
    (hns : ¬ (find_basic_block gJ J.address = find_basic_block gJ t ∧
      t ∉ block_starts gJ)) :
    has_branch_taken g idx t = true := by
  obtain ⟨g0', jumps', g1, hb1, hr, e1, e2⟩ := parse_done _ _ _ _ h
  rw [hb] at hb1
  cases hb1
  have hL := Layout_of_WellFormed buf base hwf hfit
  have hK := Linked_of_WellFormed buf base hwf
  obtain ⟨g0', jumps', hb', ht0', hh0, hj⟩ := build_blocks_spec (addr_at buf base) buf base
    hL hK (addr_at_zero buf base) hwf.1
  rw [hb] at hb'
  cases hb'
  have hmem : ∀ K ∈ pre ++ J :: post,
      is_control_flow_insn K = true ∧ ∃ i : Nat, buf[i]? = some K := by
    intro K hK2
    rw [← hjumps, hj] at hK2
    exact filter_jumps_mem buf K hK2
  rw [hjumps] at hr
  obtain ⟨ga, gb, h1, h2, h3⟩ := resolve_jumps_append buf pre post J g0 g1 hr
  rw [hpre] at h1
  cases h1
  have hmpre : ∀ K ∈ pre, is_control_flow_insn K = true ∧ ∃ i : Nat, buf[i]? = some K :=
    fun K hK2 => hmem K (by simp [hK2])
  have hmpost : ∀ K ∈ post, is_control_flow_insn K = true ∧ ∃ i : Nat, buf[i]? = some K :=
    fun K hK2 => hmem K (by simp [hK2])
  have hcfJ := (hmem J (by simp)).1
  have htJ := resolve_jumps_tile _ buf hL hK pre g0 gJ ht0' hpre
  have hhJ := resolve_jumps_heapinv _ buf hL hK pre hmpre g0 gJ ht0' hh0 hpre
  have htb := resolve_jump_tile _ buf hL hK gJ gb J htJ h2
  have hhb := resolve_jump_heapinv _ buf hL hK gJ gb J htJ hhJ idx hidx hcfJ h2
  have hstarts : block_starts gJ = gJ.m_blocks.map Prod.fst :=
    (Tile_blocks _ _ hL gJ.heap 0 gJ.m_blocks htJ).2.2.1
  rw [hstarts] at hns
  have hmade := resolve_jump_edge_made _ buf hL hK gJ gb J htJ h2 idx hidx t
    ((get_jump_target_direct J t ht0).mpr ht) ht0 hns
  have hkept := resolve_jumps_edge_kept _ buf hL hK post hmpost gb g1 htb hhb h3 idx J hidx
    hcfJ t hmade
  rw [has_branch_taken_iff]
  unfold BranchTakenEdge at hkept ⊢
  rw [e1, e2]
  exact hkept

/-- Witness of the amended C4 on `sample_split`: the jump at index 1 goes to 0x1004, inside
another block than its own. -/
theorem branch_taken_edges_witness :
    WellFormed sample_split 0x1000 ∧ fits_types sample_split = true ∧
    build_blocks ControlFlowGraph.ctor sample_split 0x1000 =
      some (sample_split_built, [insn_jcc 0x1001 0x1004, insn_jmp_reg 0x1005]) ∧
    parse ControlFlowGraph.ctor sample_split 0x1000 = Outcome.done sample_split_graph ∧
    resolve_jumps sample_split sample_split_built [] = Outcome.done sample_split_built ∧
    sample_split[1]? = some (insn_jcc 0x1001 0x1004) ∧
    direct_target (insn_jcc 0x1001 0x1004) = some 0x1004 ∧
    ¬ (find_basic_block sample_split_built (insn_jcc 0x1001 0x1004).address =
        find_basic_block sample_split_built 0x1004 ∧
      0x1004 ∉ block_starts sample_split_built) ∧
    has_branch_taken sample_split_graph 1 0x1004 = true :=
  ⟨by decide, by decide, by decide, by decide, by decide, by decide, by decide, by decide,
    branch_taken_edges sample_split 0x1000 sample_split_built sample_split_graph
      [insn_jcc 0x1001 0x1004, insn_jmp_reg 0x1005] (by decide) (by decide) (by decide)
      (by decide) [] [insn_jmp_reg 0x1005] (insn_jcc 0x1001 0x1004) sample_split_built 1 0x1004
      (by decide) (by decide) (by decide) (by decide) (by decide) (by decide)⟩

/-- C5: when an iteration of the second loop of `parse` resolves a jump to `T`, the lookup
of `T` gives a block `B` that covers `T` past its start, and the iteration goes on to the
next one, then the block `B` has become a head that covers `[B.addr, T)`, a new block, stored
under `T`, covers `[T, B.addr + B.size)` and starts at an instruction of address `T` after
the first one of `B`, the new block has the edges `B` had, in order, and the head has
exactly one edge that is no branch, which goes to the new block; the only other edge the
head can have is the taken-branch edge of the jump, when the jump was looked up in `B`
itself. -/
theorem split_step (buf : List cs_insn) (g g1 : ControlFlowGraph) (J : cs_insn)
    (T s t : Nat) (B : cfg_basic_block)
    (hT : get_jump_target J = some T)
    (hs : find_basic_block g J.address = Lookup.block s) (hsl : s < g.heap.length)
    (ht : find_basic_block g T = Lookup.block t) (hB : g.heap[t]? = some B)
    (hlo : B.addr < T) (hhi : T < B.addr + B.size)
    (h64 : B.addr + B.size ≤ 18446744073709551616)
    (h : resolve_jump buf g J = Outcome.done g1) :
    ∃ hd tl : cfg_basic_block,
      g1.heap[t]? = some hd ∧ g1.heap[g.heap.length]? = some tl ∧
      g1.m_blocks = map_assign g.m_blocks T g.heap.length ∧
      hd.addr = B.addr ∧ hd.addr + hd.size = T ∧
      tl.addr = T ∧ tl.addr + tl.size = B.addr + B.size ∧
      hd.insn = B.insn ∧ B.insn < tl.insn ∧
      (∃ x, buf[tl.insn]? = some x ∧ x.address = T) ∧
      tl.edges = B.edges ∧
      hd.edges.filter (fun e => !e.is_branch) =
        [{ is_branch := false, is_taken := false, to_ := g.heap.length }] ∧
      hd.edges =
        (if s = t then [{ is_branch := true, is_taken := true, to_ := g.heap.length }]
         else []) ++ [{ is_branch := false, is_taken := false, to_ := g.heap.length }] := by
  rcases resolve_jump_done buf g g1 J h with ⟨hT0, -⟩ |
    ⟨T1, s1, t1, tb, hT1, -, -, hf, htb, hta, -⟩ |
    ⟨T1, s1, t1, tb, j, lead, ti, hT1, -, hs1, hf, htb, hne, hsc, hti, hta, hsp⟩
  · rw [hT] at hT0
    have := Option.some.inj hT0
    omega
  · rw [hT] at hT1
    have hTT := Option.some.inj hT1
    subst hTT
    rw [ht] at hf
    cases hf
    rw [hB] at htb
    cases htb
    omega
  · rw [hT] at hT1
    have hTT := Option.some.inj hT1
    subst hTT
    rw [ht] at hf
    cases hf
    rw [hs] at hs1
    cases hs1
    rw [hB] at htb
    have hBB := Option.some.inj htb
    subst hBB
    obtain ⟨e1, e2, e3, -⟩ := split_block_heap g g1 s t B T j lead hB hsl hsp
    obtain ⟨n, hn1, -⟩ := scan_target_spec _ _ _ _ _ _ (by omega) hsc
    refine ⟨_, _, e2, e3, e1, rfl, ?_, rfl, ?_, rfl, ?_, ⟨ti, hti, hta⟩, rfl, ?_, rfl⟩
    · simp only [sub64]
      omega
    · simp only [sub64, add64]
      omega
    · simp only
      omega
    · by_cases hst : s = t <;> simp [hst, List.filter]

/-- Witness of C5: the iteration that resolves the jump at 0x1001 of `sample_split` on the
graph the block builder made. -/
theorem split_step_witness :
    get_jump_target (insn_jcc 0x1001 0x1004) = some 0x1004 ∧
    find_basic_block sample_split_built (insn_jcc 0x1001 0x1004).address = Lookup.block 0 ∧
    find_basic_block sample_split_built 0x1004 = Lookup.block 1 ∧
    sample_split_built.heap[1]? = some (plain_block 0x1003 4 2 3 []) ∧
    resolve_jump sample_split sample_split_built (insn_jcc 0x1001 0x1004) =
      Outcome.done sample_split_resolved ∧
    ∃ hd tl : cfg_basic_block,
      sample_split_resolved.heap[1]? = some hd ∧
      sample_split_resolved.heap[sample_split_built.heap.length]? = some tl ∧
      sample_split_resolved.m_blocks =
        map_assign sample_split_built.m_blocks 0x1004 sample_split_built.heap.length ∧
      hd.addr = (plain_block 0x1003 4 2 3 []).addr ∧ hd.addr + hd.size = 0x1004 ∧
      tl.addr = 0x1004 ∧
      tl.addr + tl.size = (plain_block 0x1003 4 2 3 []).addr + (plain_block 0x1003 4 2 3 []).size ∧
      hd.insn = (plain_block 0x1003 4 2 3 []).insn ∧
      (plain_block 0x1003 4 2 3 []).insn < tl.insn ∧
      (∃ x, sample_split[tl.insn]? = some x ∧ x.address = 0x1004) ∧
      tl.edges = (plain_block 0x1003 4 2 3 []).edges ∧
      hd.edges.filter (fun e => !e.is_branch) =
        [{ is_branch := false, is_taken := false, to_ := sample_split_built.heap.length }] ∧
      hd.edges =
        (if 0 = 1 then
          [{ is_branch := true, is_taken := true, to_ := sample_split_built.heap.length }]
         else []) ++
        [{ is_branch := false, is_taken := false, to_ := sample_split_built.heap.length }] :=
  ⟨by decide, by decide, by decide, by decide, by decide,
    split_step sample_split sample_split_built sample_split_resolved
      (insn_jcc 0x1001 0x1004) 0x1004 0 1 (plain_block 0x1003 4 2 3 [])
      (by decide) (by decide) (by decide) (by decide) (by decide) (by decide) (by decide)
      (by decide) (by decide)⟩

/-- C6 as stated fails at `sample_zero`, a direct jump to the address 0 decoded at base
0x10: `parse` succeeds, 0 is a direct jump target, and 0 is a block start neither of the
graph the block builder made nor of the final graph; the final graph has as many blocks as
the builder made, not one more. -/
theorem block_starts_zero_target :
    WellFormed sample_zero 0x10 ∧ fits_types sample_zero = true ∧
    build_blocks ControlFlowGraph.ctor sample_zero 0x10 =
      some (sample_zero_built, sample_zero) ∧
    parse ControlFlowGraph.ctor sample_zero 0x10 = Outcome.done sample_zero_graph ∧
    ¬ (∀ x, x ∈ block_starts sample_zero_graph ↔
        (x ∈ block_starts sample_zero_built ∨ x ∈ direct_targets sample_zero)) ∧
    (blocks sample_zero_graph).length ≠ (blocks sample_zero_built).length +
      ((direct_targets sample_zero).toFinset \ (block_starts sample_zero_built).toFinset).card := by
  refine ⟨by decide, by decide, by decide, by decide, ?_, by decide⟩
  intro hall
  have h0 := (hall 0).mpr (Or.inr (by decide))
  revert h0
  decide

/-- C6, amended: for a well-formed input, held in records that fit their C types, on which
`parse` succeeds, an address is the start
of a block of the final graph exactly when it is the start of a block the block builder made
or a direct jump target other than 0; and the final graph has as many blocks as the builder
made plus the number of distinct direct jump targets other than 0 that are no start of a
block the builder made. -/
theorem block_starts_nonzero_targets (buf : List cs_insn) (base : Nat)
    (g0 g : ControlFlowGraph) (jumps : List cs_insn) (hwf : WellFormed buf base) (hfit : fits_types buf = true)
    (hb : build_blocks ControlFlowGraph.ctor buf base = some (g0, jumps))
    (h : parse ControlFlowGraph.ctor buf base = Outcome.done g) :
    (∀ x, x ∈ block_starts g ↔
      (x ∈ block_starts g0 ∨ (x ∈ direct_targets buf ∧ x ≠ 0))) ∧
    (blocks g).length = (blocks g0).length +
      (((direct_targets buf).filter (fun t => decide (t ≠ 0))).toFinset \
        (block_starts g0).toFinset).card := by
  obtain ⟨g0', jumps', g1, hb1, hr, e1, e2⟩ := parse_done _ _ _ _ h
  rw [hb] at hb1
  cases hb1
  have hL := Layout_of_WellFormed buf base hwf hfit
  have hK := Linked_of_WellFormed buf base hwf
  obtain ⟨g0', jumps', hb', ht0, -, hj⟩ := build_blocks_spec (addr_at buf base) buf base hL hK
    (addr_at_zero buf base) hwf.1
  rw [hb] at hb'
  cases hb'
  have ht := parse_tile buf base g hwf hfit h
  obtain ⟨-, a2, a3, -⟩ := Tile_blocks _ _ hL g.heap 0 g.m_blocks ht
  obtain ⟨-, b2, b3, -⟩ := Tile_blocks _ _ hL g0.heap 0 g0.m_blocks ht0
  have hkeys : ∀ x, x ∈ block_starts g ↔
      (x ∈ block_starts g0 ∨ (x ∈ direct_targets buf ∧ x ≠ 0)) := by
    intro x
    unfold block_starts blocks
    rw [a3, b3, e2, resolve_jumps_keys _ buf hL hK jumps g0 g1 ht0 hr x]
    by_cases hx : x = 0
    · subst hx
      simp
    · rw [hj, ← mem_direct_targets buf x hx]
      simp [List.mem_filter, hx]
  refine ⟨hkeys, ?_⟩
  have hn := Tile_keys_nodup _ _ hL g.heap g.m_blocks ht
  have hn0 := Tile_keys_nodup _ _ hL g0.heap g0.m_blocks ht0
  rw [← a3] at hn
  rw [← b3] at hn0
  have c1 : (blocks g).length = (block_starts g).toFinset.card := by
    unfold block_starts blocks
    rw [List.toFinset_card_of_nodup hn]
    simp
  have c2 : (blocks g0).length = (block_starts g0).toFinset.card := by
    unfold block_starts blocks
    rw [List.toFinset_card_of_nodup hn0]
    simp
  have c3 : (block_starts g).toFinset =
      ((direct_targets buf).filter (fun t => decide (t ≠ 0))).toFinset ∪
        (block_starts g0).toFinset := by
    ext x
    simp only [List.mem_toFinset, Finset.mem_union, List.mem_filter, decide_eq_true_eq]
    rw [hkeys x]
    tauto
  rw [c1, c2, c3, ← Finset.card_sdiff_add_card]
  omega

/-- Witness of the amended C6 on `sample_split`: one direct target, 0x1004, that is no
start of a builder block. -/
theorem block_starts_nonzero_targets_witness :
    WellFormed sample_split 0x1000 ∧ fits_types sample_split = true ∧
    build_blocks ControlFlowGraph.ctor sample_split 0x1000 =
      some (sample_split_built, [insn_jcc 0x1001 0x1004, insn_jmp_reg 0x1005]) ∧
    parse ControlFlowGraph.ctor sample_split 0x1000 = Outcome.done sample_split_graph ∧
    ((∀ x, x ∈ block_starts sample_split_graph ↔
      (x ∈ block_starts sample_split_built ∨ (x ∈ direct_targets sample_split ∧ x ≠ 0))) ∧
    (blocks sample_split_graph).length = (blocks sample_split_built).length +
      (((direct_targets sample_split).filter (fun t => decide (t ≠ 0))).toFinset \
        (block_starts sample_split_built).toFinset).card) :=
  ⟨by decide, by decide, by decide, by decide,
    block_starts_nonzero_targets sample_split 0x1000 sample_split_built sample_split_graph
      [insn_jcc 0x1001 0x1004, insn_jmp_reg 0x1005] (by decide) (by decide) (by decide)
      (by decide)⟩

/-- C7, the code at `sample_inside_last`, a direct jump into the second byte of the last
instruction of the input: `parse` does not return `false`. No key of the map is at or above
the target, so the lookup of the target reads through `end()`; and the scan for the target
in the last block, which starts at the instruction after the block's first one, reads past
the end of the buffer. -/
theorem inside_last_insn_no_return :
    WellFormed sample_inside_last 0x1000 ∧ fits_types sample_inside_last = true ∧
    get_jump_target (insn_jmp 0x1000 0x1001) = some 0x1001 ∧
    parse ControlFlowGraph.ctor sample_inside_last 0x1000 = Outcome.fault ∧
    parse ControlFlowGraph.ctor sample_inside_last 0x1000 ≠ Outcome.failed ∧
    scan_target (sample_inside_last.drop 1) 1 1 0x1001 = none :=
  ⟨by decide, by decide, by decide, by decide, by decide, by decide⟩

/-- C8, the code at `sample_past_end`, a direct jump to the address at which the input
ends: `parse` does not return `false`. No key of the map is at or above the target, so the
lookup of the target reads through `end()`; and the scan for the target in the last block
reads past the end of the buffer. -/
theorem past_end_no_return :
    WellFormed sample_past_end 0x1000 ∧ fits_types sample_past_end = true ∧
    get_jump_target (insn_jmp 0x1000 0x1002) = some 0x1002 ∧
    parse ControlFlowGraph.ctor sample_past_end 0x1000 = Outcome.fault ∧
    parse ControlFlowGraph.ctor sample_past_end 0x1000 ≠ Outcome.failed ∧
    scan_target (sample_past_end.drop 1) 1 1 0x1002 = none :=
  ⟨by decide, by decide, by decide, by decide, by decide, by decide⟩

/-- C9, the code at `sample_before_base`: the second jump goes to 0xfff, before the base
address 0x1000, and `parse` does not return `false`, because the jump recorded before it
goes to 0x1010, beyond the input: its lookup reads through `end()`, and the scan for 0x1010
in the last block, the one at index 1, reads past the end of the buffer. -/
theorem before_base_no_return :
    WellFormed sample_before_base 0x1000 ∧ fits_types sample_before_base = true ∧
    get_jump_target (insn_jmp 0x1002 0xfff) = some 0xfff ∧
    parse ControlFlowGraph.ctor sample_before_base 0x1000 = Outcome.fault ∧
    parse ControlFlowGraph.ctor sample_before_base 0x1000 ≠ Outcome.failed ∧
    scan_target (sample_before_base.drop 2) 2 1 0x1010 = none :=
  ⟨by decide, by decide, by decide, by decide, by decide, by decide⟩

/-- C10: for a well-formed input, held in records that fit their C types, `parse` succeeds
when every control-flow instruction of the input is indirect; and whenever `parse` succeeds,
a block of the final graph whose last instruction is an indirect unconditional jump has no
edge. -/
theorem indirect_transfers (buf : List cs_insn) (base : Nat) (hwf : WellFormed buf base)
    (hfit : fits_types buf = true) :
    ((∀ J ∈ buf, is_control_flow_insn J = true → is_indirect J = true) →
      ∃ g, parse ControlFlowGraph.ctor buf base = Outcome.done g) ∧
    (∀ g, parse ControlFlowGraph.ctor buf base = Outcome.done g →
      ∀ b ∈ blocks g, ∀ j, buf[b.insn + b.insn_count - 1]? = some j →
        is_control_flow_insn j = true → is_unconditional_jump j = true →
        is_indirect j = true → b.edges = []) := by
  have hL := Layout_of_WellFormed buf base hwf hfit
  have hK := Linked_of_WellFormed buf base hwf
  refine ⟨?_, ?_⟩
  · intro hind
    obtain ⟨g0, jumps, hb, ht0, -, hj⟩ := build_blocks_spec (addr_at buf base) buf base hL hK
      (addr_at_zero buf base) hwf.1
    have hr : resolve_jumps buf g0 jumps = Outcome.done g0 := by
      apply resolve_jumps_skip
      intro J hJ
      rw [hj, List.mem_filter] at hJ
      exact is_indirect_target J (hind J hJ.1 hJ.2)
    obtain ⟨p, hp⟩ := find_entry (addr_at buf base) g0 buf.length
      (List.length_pos.mpr hwf.1) ht0
    rw [addr_at_zero] at hp
    exact ⟨_, parse_of_resolved buf base g0 g0 jumps p hb hr hp⟩
  · intro g h b hb j hj hcf hu hi
    have hh := parse_heapinv buf base g hwf hfit h
    simp only [blocks, List.mem_filterMap] at hb
    obtain ⟨e, -, he⟩ := hb
    exact (hh e.2 b he).2 j hj hcf hu (is_indirect_target j hi)

/-- Witness of C10: `sample_indirect`, whose only jump goes through a register, gives a
graph, and `sample_split`, on which jump resolution splits the block that ends in a
register jump, gives a graph in which the block that ends in that jump has no edge. -/
theorem indirect_transfers_witness :
    WellFormed sample_indirect 0x1000 ∧ fits_types sample_indirect = true ∧
    WellFormed sample_split 0x1000 ∧ fits_types sample_split = true ∧
    (∃ g, parse ControlFlowGraph.ctor sample_indirect 0x1000 = Outcome.done g) ∧
    parse ControlFlowGraph.ctor sample_split 0x1000 = Outcome.done sample_split_graph ∧
    plain_block 0x1004 3 3 2 [] ∈ blocks sample_split_graph ∧
    sample_split[3 + 2 - 1]? = some (insn_jmp_reg 0x1005) ∧
    (plain_block 0x1004 3 3 2 []).edges = [] :=
  ⟨by decide, by decide, by decide, by decide,
    (indirect_transfers sample_indirect 0x1000 (by decide) (by decide)).1 (by decide),
    by decide, by decide, by decide,
    (indirect_transfers sample_split 0x1000 (by decide) (by decide)).2 sample_split_graph
      (by decide)
      (plain_block 0x1004 3 3 2 []) (by decide) (insn_jmp_reg 0x1005) (by decide) (by decide)
      (by decide) (by decide)⟩

/-- C11: for a well-formed input, held in records that fit their C types, on which `parse`
succeeds, a block of the final graph whose last instruction is an unconditional jump has
taken-branch edges only; so no edge of it to the block stored under its end address is
classified Fallthrough or BranchNotTaken. -/
theorem unconditional_jump_no_continuation (buf : List cs_insn) (base : Nat)
    (g : ControlFlowGraph) (hwf : WellFormed buf base) (hfit : fits_types buf = true)
    (h : parse ControlFlowGraph.ctor buf base = Outcome.done g)
    (b : cfg_basic_block) (hb : b ∈ blocks g) (j : cs_insn)
    (hj : last_insn buf b = some j) (hcf : is_control_flow_insn j = true)
    (hu : is_unconditional_jump j = true) :
    (∀ e ∈ b.edges, classify e = edge_kind.BranchTaken) ∧
    (∀ e ∈ b.edges, (b.addr + b.size, e.to_) ∈ g.m_blocks →
      classify e ≠ edge_kind.Fallthrough ∧ classify e ≠ edge_kind.BranchNotTaken) := by
  obtain ⟨k, p, -, hp⟩ := mem_blocks g b hb
  obtain ⟨-, -, -, i4⟩ := parse_edgeinv buf base g hwf hfit h p b hp
  have hall : ∀ e ∈ b.edges, classify e = edge_kind.BranchTaken := by
    intro e he
    obtain ⟨h1, h2⟩ := i4 j hj hcf hu e he
    simp [classify, h1, h2]
  refine ⟨hall, ?_⟩
  intro e he _
  rw [hall e he]
  exact ⟨by decide, by decide⟩

/-- Witness of C11 on `sample_jump_next`: the block of the unconditional jump at 0x1000 has
one edge, to the block at its end address 0x1002, and the edge is a taken branch. -/
theorem unconditional_jump_no_continuation_witness :
    WellFormed sample_jump_next 0x1000 ∧ fits_types sample_jump_next = true ∧
    parse ControlFlowGraph.ctor sample_jump_next 0x1000 =
      Outcome.done sample_jump_next_graph ∧
    plain_block 0x1000 2 0 1 [{ is_branch := true, is_taken := true, to_ := 1 }] ∈
      blocks sample_jump_next_graph ∧
    (0x1000 + 2, 1) ∈ sample_jump_next_graph.m_blocks ∧
    ((∀ e ∈ (plain_block 0x1000 2 0 1
        [{ is_branch := true, is_taken := true, to_ := 1 }]).edges,
      classify e = edge_kind.BranchTaken) ∧
    (∀ e ∈ (plain_block 0x1000 2 0 1
        [{ is_branch := true, is_taken := true, to_ := 1 }]).edges,
      ((plain_block 0x1000 2 0 1 [{ is_branch := true, is_taken := true, to_ := 1 }]).addr +
        (plain_block 0x1000 2 0 1 [{ is_branch := true, is_taken := true, to_ := 1 }]).size,
        e.to_) ∈ sample_jump_next_graph.m_blocks →
      classify e ≠ edge_kind.Fallthrough ∧ classify e ≠ edge_kind.BranchNotTaken)) :=
  ⟨by decide, by decide, by decide, by decide, by decide,
    unconditional_jump_no_continuation sample_jump_next 0x1000 sample_jump_next_graph
      (by decide) (by decide) (by decide) _ (by decide) (insn_jmp 0x1000 0x1002) (by decide)
      (by decide) (by decide)⟩

/-- C12 as stated fails in two ways the code is made for. In `sample_cond_zero` the block at
0x10 ends in a conditional jump whose direct target is the address 0: `parse` succeeds and
the block has one edge, the not-taken branch. In `sample_cond_last` the conditional jump is
the last instruction of the input: `parse` succeeds and its block has one edge, the taken
branch, there being no next block. -/
theorem conditional_jump_one_edge :
    (WellFormed sample_cond_zero 0x10 ∧ fits_types sample_cond_zero = true ∧
      parse ControlFlowGraph.ctor sample_cond_zero 0x10 =
        Outcome.done sample_cond_zero_graph ∧
      plain_block 0x10 2 0 1 [{ is_branch := true, is_taken := false, to_ := 1 }] ∈
        blocks sample_cond_zero_graph ∧
      last_insn sample_cond_zero
        (plain_block 0x10 2 0 1 [{ is_branch := true, is_taken := false, to_ := 1 }]) =
        some (insn_jcc 0x10 0) ∧
      is_control_flow_insn (insn_jcc 0x10 0) = true ∧
      is_unconditional_jump (insn_jcc 0x10 0) = false ∧
      direct_target (insn_jcc 0x10 0) = some 0 ∧
      (plain_block 0x10 2 0 1
        [{ is_branch := true, is_taken := false, to_ := 1 }]).edges.length ≠ 2) ∧
    (WellFormed sample_cond_last 0x1000 ∧ fits_types sample_cond_last = true ∧
      parse ControlFlowGraph.ctor sample_cond_last 0x1000 =
        Outcome.done sample_cond_last_graph ∧
      plain_block 0x1000 2 0 1 [{ is_branch := true, is_taken := true, to_ := 0 }] ∈
        blocks sample_cond_last_graph ∧
      last_insn sample_cond_last
        (plain_block 0x1000 2 0 1 [{ is_branch := true, is_taken := true, to_ := 0 }]) =
        some (insn_jcc 0x1000 0x1000) ∧
      is_control_flow_insn (insn_jcc 0x1000 0x1000) = true ∧
      is_unconditional_jump (insn_jcc 0x1000 0x1000) = false ∧
      direct_target (insn_jcc 0x1000 0x1000) = some 0x1000 ∧
      (plain_block 0x1000 2 0 1
        [{ is_branch := true, is_taken := true, to_ := 0 }]).edges.length ≠ 2) := by
  refine ⟨⟨by decide, by decide, by decide, by decide, by decide, by decide, by decide,
    by decide, by decide⟩, ⟨by decide, by decide, by decide, by decide, by decide, by decide,
    by decide, by decide, by decide⟩⟩

/-- C12, amended: for a well-formed input, held in records that fit their C types, on which
`parse` succeeds, let `J` be a recorded conditional jump, at index `idx`, that is not the
last instruction of the input and has a direct target `t` other than 0, and let `gJ` be the
graph on which `J` is resolved. Unless in `gJ` the lookup of `t` gives the block that the
lookup of `J` gives and `t` is no block start, the final graph has a block that ends in `J`,
and every such block has exactly two edges, in this order: a not-taken branch to the block
stored under its end address, and a taken branch to the block stored under `t`. -/
theorem conditional_jump_two_edges (buf : List cs_insn) (base : Nat)
    (g0 g : ControlFlowGraph) (jumps : List cs_insn) (hwf : WellFormed buf base)
    (hfit : fits_types buf = true)
    (hb : build_blocks ControlFlowGraph.ctor buf base = some (g0, jumps))
    (h : parse ControlFlowGraph.ctor buf base = Outcome.done g)
    (pre post : List cs_insn) (J : cs_insn) (gJ : ControlFlowGraph) (idx t : Nat)
    (hjumps : jumps = pre ++ J :: post)
    (hpre : resolve_jumps buf g0 pre = Outcome.done gJ)
    (hidx : buf[idx]? = some J) (hcond : is_unconditional_jump J = false)
    (hnl : idx + 1 < buf.length)
    (ht : direct_target J = some t) (ht0 : t ≠ 0)
    (hns : ¬ (find_basic_block gJ J.address = find_basic_block gJ t ∧
      t ∉ block_starts gJ)) :
    ∃ q r : Nat, (t, r) ∈ g.m_blocks ∧
      (∃ b ∈ blocks g, b.insn + b.insn_count - 1 = idx) ∧
      ∀ b ∈ blocks g, b.insn + b.insn_count - 1 = idx →
        b.edges = [{ is_branch := true, is_taken := false, to_ := q },
                   { is_branch := true, is_taken := true, to_ := r }] ∧
        (b.addr + b.size, q) ∈ g.m_blocks := by
  obtain ⟨g0', jumps', g1, hb1, hr, e1, e2⟩ := parse_done _ _ _ _ h
  rw [hb] at hb1
  cases hb1
  have hL := Layout_of_WellFormed buf base hwf hfit
  have hK := Linked_of_WellFormed buf base hwf
  obtain ⟨g0', jumps', hb', ht0', hh0, hj⟩ := build_blocks_spec (addr_at buf base) buf base
    hL hK (addr_at_zero buf base) hwf.1
  rw [hb] at hb'
  cases hb'
  obtain ⟨hbe, hst, -⟩ := build_blocks_edges (addr_at buf base) buf base hL hK
    (addr_at_zero buf base) hwf.1 g0 _ hb
  have hinv0 := EdgeInv_of_built (addr_at buf base) buf g0 ht0' hbe hst
  have hmem : ∀ K ∈ pre ++ J :: post,
      is_control_flow_insn K = true ∧ ∃ i : Nat, buf[i]? = some K := by
    intro K hK2
    rw [← hjumps, hj] at hK2
    exact filter_jumps_mem buf K hK2
  have hnd : (pre ++ J :: post).Nodup := by
    rw [← hjumps, hj]
    exact (nodup_of_contiguous buf base hwf.2).filter _
  rw [List.nodup_middle, List.nodup_cons] at hnd
  have hJpre : J ∉ pre := fun hx => hnd.1 (by simp [hx])
  have hJpost : J ∉ post := fun hx => hnd.1 (by simp [hx])
  have hfull := hr
  rw [hjumps] at hr
  obtain ⟨ga, gb, h1, h2, h3⟩ := resolve_jumps_append buf pre post J g0 g1 hr
  rw [hpre] at h1
  cases h1
  have hmpre : ∀ K ∈ pre, is_control_flow_insn K = true ∧ ∃ i : Nat, buf[i]? = some K :=
    fun K hK2 => hmem K (by simp [hK2])
  have hmpost : ∀ K ∈ post, is_control_flow_insn K = true ∧ ∃ i : Nat, buf[i]? = some K :=
    fun K hK2 => hmem K (by simp [hK2])
  have hcfJ := (hmem J (by simp)).1
  have htJ := resolve_jumps_tile _ buf hL hK pre g0 gJ ht0' hpre
  have hhJ := resolve_jumps_heapinv _ buf hL hK pre hmpre g0 gJ ht0' hh0 hpre
  have hiJ := resolve_jumps_edgeinv _ buf hL hK pre hmpre g0 gJ ht0' hh0 hinv0 hpre
  have htb := resolve_jump_tile _ buf hL hK gJ gb J htJ h2
  have hhb := resolve_jump_heapinv _ buf hL hK gJ gb J htJ hhJ idx hidx hcfJ h2
  have hib := resolve_jump_edgeinv _ buf hL hK gJ gb J htJ hhJ hiJ h2
  have ht1 := resolve_jumps_tile _ buf hL hK post gb g1 htb h3
  have hi1 := resolve_jumps_edgeinv _ buf hL hK post hmpost gb g1 htb hhb hib h3
  -- the edge the block builder made
  obtain ⟨p, b, hpb, hlast, hcnt⟩ := block_ending_at (addr_at buf base) buf g0 ht0' hh0 idx J
    hidx hcfJ
  obtain ⟨q, d, hq1, hq2, hq3⟩ := (hbe p b J hpb (by rw [hlast]; exact hidx)).1
    ⟨hcfJ, hcond, by omega⟩
  have hqm : (addr_at buf base (idx + 1), q) ∈ g0.m_blocks := by
    have hm := (hst q d hq2).1
    obtain ⟨d1, hd1, -, -, -, -, hd2, -⟩ := Tile_mem _ _ _ 0 _ ht0' _ _ hm
    rw [hq2] at hd1
    have := Option.some.inj hd1
    subst this
    rw [hd2, hq3] at hm
    have hx : b.insn + b.insn_count = idx + 1 := by omega
    rw [hx] at hm
    exact hm
  have he0 : EdgesAt g0 idx [{ is_branch := true, is_taken := false, to_ := q }] := by
    refine ⟨⟨p, b, hpb, hlast⟩, ?_⟩
    intro p2 b2 hp2 hl2
    have := heap_block_unique (addr_at buf base) buf hL g0 ht0' hinv0 p2 p b2 b hp2 hpb
      (by rw [hl2, hlast])
    subst this
    rw [hpb] at hp2
    have := Option.some.inj hp2
    subst this
    exact hq1
  have heJ := resolve_jumps_edges_kept _ buf hL hK pre hmpre g0 gJ ht0' hh0 hinv0 hpre idx J
    hidx hcfJ hJpre _ he0
  have hstarts : block_starts gJ = gJ.m_blocks.map Prod.fst :=
    (Tile_blocks _ _ hL gJ.heap 0 gJ.m_blocks htJ).2.2.1
  rw [hstarts] at hns
  obtain ⟨r, hr1, hr2⟩ := (resolve_jump_edges_at _ buf hL hK gJ gb J htJ hhJ hiJ idx hidx hcfJ
    h2 idx J hidx hcfJ _ heJ).2 rfl t ((get_jump_target_direct J t ht0).mpr ht) ht0 hns
  have he1 := resolve_jumps_edges_kept _ buf hL hK post hmpost gb g1 htb hhb hib h3 idx J
    hidx hcfJ hJpost _ hr2
  have hrm := resolve_jumps_map_kept _ buf hL hK post gb g1 htb h3 t r hr1
  have hqm1 := resolve_jumps_map_kept _ buf hL hK _ g0 g1 ht0' hfull _ q hqm
  refine ⟨q, r, by rw [e2]; exact hrm, ?_, ?_⟩
  · obtain ⟨p1, b1, hb1, hl1⟩ := he1.1
    refine ⟨b1, ?_, hl1⟩
    unfold blocks
    rw [List.mem_filterMap]
    exact ⟨(b1.addr, p1), by rw [e2]; exact (hi1 p1 b1 hb1).1, by rw [e1]; exact hb1⟩
  · intro b1 hb1 hl1
    obtain ⟨k, p1, hm1, hp1⟩ := mem_blocks g b1 hb1
    rw [e1] at hp1
    rw [e2] at hm1
    refine ⟨he1.2 p1 b1 hp1 hl1, ?_⟩
    obtain ⟨c, hc1, -, -, hc2, -, hc3, hc4⟩ := Tile_mem _ _ _ 0 _ ht1 _ _ hm1
    rw [hp1] at hc1
    have := Option.some.inj hc1
    subst this
    rw [e2, hc4]
    have hx : b1.insn + b1.insn_count = idx + 1 := by omega
    rw [hx]
    exact hqm1

/-- Witness of the amended C12 on `sample_split`: the conditional jump at index 1 goes to
0x1004, inside another block than its own; its block has the not-taken branch to the block
at 0x1003 and the taken branch to the block at 0x1004. -/
theorem conditional_jump_two_edges_witness :
    WellFormed sample_split 0x1000 ∧ fits_types sample_split = true ∧
    build_blocks ControlFlowGraph.ctor sample_split 0x1000 =
      some (sample_split_built, [insn_jcc 0x1001 0x1004, insn_jmp_reg 0x1005]) ∧
    parse ControlFlowGraph.ctor sample_split 0x1000 = Outcome.done sample_split_graph ∧
    sample_split[1]? = some (insn_jcc 0x1001 0x1004) ∧
    is_unconditional_jump (insn_jcc 0x1001 0x1004) = false ∧
    direct_target (insn_jcc 0x1001 0x1004) = some 0x1004 ∧
    (∃ q r : Nat, (0x1004, r) ∈ sample_split_graph.m_blocks ∧
      (∃ b ∈ blocks sample_split_graph, b.insn + b.insn_count - 1 = 1) ∧
      ∀ b ∈ blocks sample_split_graph, b.insn + b.insn_count - 1 = 1 →
        b.edges = [{ is_branch := true, is_taken := false, to_ := q },
                   { is_branch := true, is_taken := true, to_ := r }] ∧
        (b.addr + b.size, q) ∈ sample_split_graph.m_blocks) :=
  ⟨by decide, by decide, by decide, by decide, by decide, by decide, by decide,
    conditional_jump_two_edges sample_split 0x1000 sample_split_built sample_split_graph
      [insn_jcc 0x1001 0x1004, insn_jmp_reg 0x1005] (by decide) (by decide) (by decide)
      (by decide) [] [insn_jmp_reg 0x1005] (insn_jcc 0x1001 0x1004) sample_split_built 1 0x1004
      (by decide) (by decide) (by decide) (by decide) (by decide) (by decide) (by decide)
      (by decide)⟩

/-- C13: for a well-formed input, held in records that fit their C types, on which `parse`
succeeds, every edge of every block of the final graph points to an allocated block that
the map of the same graph stores under its own start address; that block is a block of the
graph. -/
theorem edge_targets_stored (buf : List cs_insn) (base : Nat) (g : ControlFlowGraph)
    (hwf : WellFormed buf base) (hfit : fits_types buf = true)
    (h : parse ControlFlowGraph.ctor buf base = Outcome.done g)
    (b : cfg_basic_block) (hb : b ∈ blocks g) (e : cfg_edge) (he : e ∈ b.edges) :
    ∃ d : cfg_basic_block, g.heap[e.to_]? = some d ∧ (d.addr, e.to_) ∈ g.m_blocks ∧
      d ∈ blocks g := by
  obtain ⟨k, p, -, hp⟩ := mem_blocks g b hb
  have hinv := parse_edgeinv buf base g hwf hfit h
  obtain ⟨-, -, i3, -⟩ := hinv p b hp
  have hlt := i3 e he
  have hd : g.heap[e.to_]? = some (g.heap.get ⟨e.to_, hlt⟩) := List.getElem?_eq_getElem hlt
  refine ⟨_, hd, (hinv _ _ hd).1, ?_⟩
  unfold blocks
  rw [List.mem_filterMap]
  exact ⟨(_, e.to_), (hinv _ _ hd).1, hd⟩

/-- Witness of C13 on `sample_split`: the taken-branch edge of the block at 0x1000 points
to the block allocated last, which the map stores under its address 0x1004. -/
theorem edge_targets_stored_witness :
    WellFormed sample_split 0x1000 ∧ fits_types sample_split = true ∧
    parse ControlFlowGraph.ctor sample_split 0x1000 = Outcome.done sample_split_graph ∧
    (∃ d : cfg_basic_block, sample_split_graph.heap[3]? = some d ∧
      (d.addr, 3) ∈ sample_split_graph.m_blocks ∧ d ∈ blocks sample_split_graph) :=
  ⟨by decide, by decide, by decide,
    edge_targets_stored sample_split 0x1000 sample_split_graph (by decide) (by decide)
      (by decide)
      (plain_block 0x1000 3 0 2 [{ is_branch := true, is_taken := false, to_ := 1 },
                                 { is_branch := true, is_taken := true, to_ := 3 }])
      (by decide) { is_branch := true, is_taken := true, to_ := 3 } (by decide)⟩

/-- C17 fails on the graph the block builder makes of the bytes `EB FF` decoded at 0x1000,
whose one block holds the addresses 0x1000 and 0x1001: `parse` looks the jump target 0x1001
up, the address is greater than every key of the map, `lower_bound` gives `end()` and the
first test of `find_basic_block` reads `i->first` through it, so the lookup has no defined
result where the claim asks for the block at 0x1000. So it is for every address greater
than every key (`find_basic_block_past_keys`); for an address at or below some key the
lookup gives the block with the largest start address at or below it, and null exactly
below every key (`floor_lookup_floor`). -/
theorem find_basic_block_above_keys :
    build_blocks ControlFlowGraph.ctor sample_inside_last 0x1000 =
      some (sample_inside_last_built, sample_inside_last) ∧
    get_jump_target (insn_jmp 0x1000 0x1001) = some 0x1001 ∧
    sample_inside_last_built.heap[0]? = some (plain_block 0x1000 2 0 1 []) ∧
    (0x1000, 0) ∈ sample_inside_last_built.m_blocks ∧
    (∀ e ∈ sample_inside_last_built.m_blocks, e.1 < 0x1001) ∧
    find_basic_block sample_inside_last_built 0x1001 = Lookup.fault ∧
    find_basic_block sample_inside_last_built 0x1000 = Lookup.block 0 ∧
    find_basic_block sample_inside_last_built 0xfff = Lookup.null := by
  refine ⟨by decide, by decide, by decide, by decide, by decide, by decide, by decide,
    by decide⟩

/-- C19 as stated fails at `sample_split`: the block builder closes the blocks at 0x1000
and 0x1003 one after the other, the first ends in a conditional jump, and the one edge the
builder adds from the first to the second is a branch edge, classified BranchNotTaken and
not Fallthrough; in the final graph the edge is still there and still so classified. -/
theorem builder_edge_is_branch :
    WellFormed sample_split 0x1000 ∧ fits_types sample_split = true ∧
    build_blocks ControlFlowGraph.ctor sample_split 0x1000 =
      some (sample_split_built, [insn_jcc 0x1001 0x1004, insn_jmp_reg 0x1005]) ∧
    parse ControlFlowGraph.ctor sample_split 0x1000 = Outcome.done sample_split_graph ∧
    sample_split_built.heap[0]? =
      some (plain_block 0x1000 3 0 2 [{ is_branch := true, is_taken := false, to_ := 1 }]) ∧
    sample_split_built.heap[1]? = some (plain_block 0x1003 4 2 3 []) ∧
    last_insn sample_split
      (plain_block 0x1000 3 0 2 [{ is_branch := true, is_taken := false, to_ := 1 }]) =
      some (insn_jcc 0x1001 0x1004) ∧
    is_unconditional_jump (insn_jcc 0x1001 0x1004) = false ∧
    classify { is_branch := true, is_taken := false, to_ := 1 } ≠ edge_kind.Fallthrough ∧
    (∀ b, sample_split_built.heap[0]? = some b →
      ∀ e ∈ b.edges, classify e ≠ edge_kind.Fallthrough) ∧
    (∀ b, sample_split_graph.heap[0]? = some b →
      ∀ e ∈ b.edges, classify e ≠ edge_kind.Fallthrough) := by
  refine ⟨by decide, by decide, by decide, by decide, by decide, by decide, by decide,
    by decide, by decide, ?_, ?_⟩
  · intro b hb
    have := Option.some.inj hb
    subst this
    decide
  · intro b hb
    have := Option.some.inj hb
    subst this
    decide

/-- C19, amended: for a well-formed input, held in records that fit their C types, on which
`parse` succeeds, let `b1` and `b2` be blocks the block builder made, `b2` starting at the
instruction after the last one of `b1`, which is no unconditional jump. Then the builder
gave `b1` exactly one edge, a not-taken branch (classified BranchNotTaken) to `b2`; and in
the final graph the block that ends in the last instruction of `b1` has this edge as its
first one, all its other edges being taken branches, and the map still stores `b2` under
its address. -/
theorem builder_edge_not_taken (buf : List cs_insn) (base : Nat)
    (g0 g : ControlFlowGraph) (jumps : List cs_insn) (hwf : WellFormed buf base)
    (hfit : fits_types buf = true)
    (hb : build_blocks ControlFlowGraph.ctor buf base = some (g0, jumps))
    (h : parse ControlFlowGraph.ctor buf base = Outcome.done g)
    (p1 p2 : Nat) (b1 b2 : cfg_basic_block) (j : cs_insn)
    (h1 : g0.heap[p1]? = some b1) (h2 : g0.heap[p2]? = some b2)
    (hadj : b2.insn = b1.insn + b1.insn_count)
    (hj : last_insn buf b1 = some j) (hu : is_unconditional_jump j = false) :
    b1.edges = [{ is_branch := true, is_taken := false, to_ := p2 }] ∧
    classify { is_branch := true, is_taken := false, to_ := p2 } =
      edge_kind.BranchNotTaken ∧
    (b2.addr, p2) ∈ g.m_blocks ∧
    ∃ E1 : List cfg_edge,
      EdgesAt g (b1.insn + b1.insn_count - 1)
        ({ is_branch := true, is_taken := false, to_ := p2 } :: E1) ∧
      ∀ e ∈ E1, classify e = edge_kind.BranchTaken := by
  obtain ⟨g0', jumps', g1, hb1, hr, e1, e2⟩ := parse_done _ _ _ _ h
  rw [hb] at hb1
  cases hb1
  have hL := Layout_of_WellFormed buf base hwf hfit
  have hK := Linked_of_WellFormed buf base hwf
  obtain ⟨g0', jumps', hb', ht0, hh0, hjs⟩ := build_blocks_spec (addr_at buf base) buf base
    hL hK (addr_at_zero buf base) hwf.1
  rw [hb] at hb'
  cases hb'
  obtain ⟨hbe, hst, hcfN⟩ := build_blocks_edges (addr_at buf base) buf base hL hK
    (addr_at_zero buf base) hwf.1 g0 _ hb
  have hinv0 := EdgeInv_of_built (addr_at buf base) buf g0 ht0 hbe hst
  have hmem : ∀ K ∈ jumps, is_control_flow_insn K = true ∧ ∃ i : Nat, buf[i]? = some K := by
    intro K hK2
    rw [hjs] at hK2
    exact filter_jumps_mem buf K hK2
  have m1 := (hst p1 b1 h1).1
  have m2 := (hst p2 b2 h2).1
  obtain ⟨c1, hc1, -, -, hc1p, -⟩ := Tile_mem _ _ _ 0 _ ht0 _ _ m1
  obtain ⟨c2, hc2, -, -, hc2p, hc2e, -⟩ := Tile_mem _ _ _ 0 _ ht0 _ _ m2
  rw [h1] at hc1
  rw [h2] at hc2
  have := Option.some.inj hc1
  subst this
  have := Option.some.inj hc2
  subst this
  unfold last_insn at hj
  have hcf : is_control_flow_insn j = true := by
    rcases hcfN p1 b1 j h1 hj with hx | hx
    · exact hx
    · omega
  obtain ⟨q, d, hq1, hq2, hq3⟩ := (hbe p1 b1 j h1 hj).1 ⟨hcf, hu, by omega⟩
  have mq := (hst q d hq2).1
  obtain ⟨c3, hc3, -, -, hc3p, -⟩ := Tile_mem _ _ _ 0 _ ht0 _ _ mq
  rw [hq2] at hc3
  have := Option.some.inj hc3
  subst this
  have hqp : q = p2 := Tile_block_unique (addr_at buf base) buf.length hL g0.heap g0.m_blocks
    ht0 _ q _ p2 d b2 mq hq2 m2 h2 b2.insn (by omega) (by omega) (by omega) (by omega)
  subst hqp
  have he0 : ∃ E1 : List cfg_edge,
      EdgesAt g0 (b1.insn + b1.insn_count - 1)
        ([{ is_branch := true, is_taken := false, to_ := q }] ++ E1) ∧
      ∀ e ∈ E1, e.is_branch = true ∧ e.is_taken = true := by
    refine ⟨[], ⟨⟨p1, b1, h1, rfl⟩, ?_⟩, fun e he => by cases he⟩
    intro p3 b3 hp3 hl3
    have := heap_block_unique (addr_at buf base) buf hL g0 ht0 hinv0 p3 p1 b3 b1 hp3 h1 hl3
    subst this
    rw [h1] at hp3
    have := Option.some.inj hp3
    subst this
    simpa using hq1
  obtain ⟨E1, hE1, hE2⟩ := resolve_jumps_edges_grow _ buf hL hK jumps hmem g0 g1 ht0 hh0
    hinv0 hr (b1.insn + b1.insn_count - 1) j hj hcf _ he0
  refine ⟨hq1, rfl, ?_, E1, ?_, ?_⟩
  · rw [e2]
    exact resolve_jumps_map_kept _ buf hL hK jumps g0 g1 ht0 hr _ _ m2
  · unfold EdgesAt at hE1 ⊢
    rw [e1]
    simpa using hE1
  · intro e he
    obtain ⟨x1, x2⟩ := hE2 e he
    simp [classify, x1, x2]

/-- Witness of the amended C19 on `sample_split`: the blocks at 0x1000 and 0x1003. -/
theorem builder_edge_not_taken_witness :
    WellFormed sample_split 0x1000 ∧ fits_types sample_split = true ∧
    build_blocks ControlFlowGraph.ctor sample_split 0x1000 =
      some (sample_split_built, [insn_jcc 0x1001 0x1004, insn_jmp_reg 0x1005]) ∧
    parse ControlFlowGraph.ctor sample_split 0x1000 = Outcome.done sample_split_graph ∧
    ((plain_block 0x1000 3 0 2 [{ is_branch := true, is_taken := false, to_ := 1 }]).edges =
        [{ is_branch := true, is_taken := false, to_ := 1 }] ∧
      classify { is_branch := true, is_taken := false, to_ := 1 } =
        edge_kind.BranchNotTaken ∧
      ((plain_block 0x1003 4 2 3 []).addr, 1) ∈ sample_split_graph.m_blocks ∧
      ∃ E1 : List cfg_edge,
        EdgesAt sample_split_graph
          ((plain_block 0x1000 3 0 2
              [{ is_branch := true, is_taken := false, to_ := 1 }]).insn +
            (plain_block 0x1000 3 0 2
              [{ is_branch := true, is_taken := false, to_ := 1 }]).insn_count - 1)
          ({ is_branch := true, is_taken := false, to_ := 1 } :: E1) ∧
        ∀ e ∈ E1, classify e = edge_kind.BranchTaken) :=
  ⟨by decide, by decide, by decide, by decide,
    builder_edge_not_taken sample_split 0x1000 sample_split_built sample_split_graph
      [insn_jcc 0x1001 0x1004, insn_jmp_reg 0x1005] (by decide) (by decide) (by decide)
      (by decide) 0 1 _ _ (insn_jcc 0x1001 0x1004) (by decide) (by decide) (by decide)
      (by decide) (by decide)⟩

/-- C20: an iteration of the second loop of `parse` at a direct jump whose immediate target
is the address 0 goes on to the next iteration and leaves the graph as it is, whatever the
graph and the input are; it does what an iteration at an indirect transfer does. -/
theorem zero_target_skipped (buf : List cs_insn) (g : ControlFlowGraph) (J : cs_insn)
    (h : direct_target J = some 0) :
    resolve_jump buf g J = Outcome.done g ∧
    ∀ K : cs_insn, is_indirect K = true → resolve_jump buf g K = resolve_jump buf g J := by
  have hJ := resolve_jump_zero buf g J (zero_direct_target J h)
  refine ⟨hJ, ?_⟩
  intro K hK
  rw [hJ]
  exact resolve_jump_zero buf g K (is_indirect_target K hK)

/-- Witness of C20 on `sample_entry_jump`, decoded at base 0: the block of the jump starts
at the address 0, the jump has the immediate target 0, and `parse` succeeds with a graph
without edges. -/
theorem zero_target_skipped_witness :
    WellFormed sample_entry_jump 0 ∧ fits_types sample_entry_jump = true ∧
    parse ControlFlowGraph.ctor sample_entry_jump 0 = Outcome.done sample_entry_jump_graph ∧
    block_starts sample_entry_jump_graph = [0] ∧
    edge_count sample_entry_jump_graph = 0 ∧
    direct_target (insn_jmp 1 0) = some 0 ∧
    (resolve_jump sample_entry_jump sample_entry_jump_graph (insn_jmp 1 0) =
        Outcome.done sample_entry_jump_graph ∧
      ∀ K : cs_insn, is_indirect K = true →
        resolve_jump sample_entry_jump sample_entry_jump_graph K =
          resolve_jump sample_entry_jump sample_entry_jump_graph (insn_jmp 1 0)) :=
  ⟨by decide, by decide, by decide, by decide, by decide, by decide,
    zero_target_skipped sample_entry_jump sample_entry_jump_graph (insn_jmp 1 0)
      (by decide)⟩

/-- C14: for a well-formed input, held in records that fit their C types, on which `parse`
succeeds, `visit` on the graph returns whenever the depth of recursion it is given is at
least the number of allocated blocks (no chain of nested calls is longer); it invokes the
callback exactly once on every block reachable from the entry block by edges, and never on
a block that is not reachable. -/
theorem visit_reachable_once (buf : List cs_insn) (base : Nat) (g : ControlFlowGraph)
    (hwf : WellFormed buf base) (hfit : fits_types buf = true)
    (h : parse ControlFlowGraph.ctor buf base = Outcome.done g)
    (fuel : Nat) (hfuel : g.heap.length ≤ fuel) :
    ∃ (e : Nat) (g1 : ControlFlowGraph) (calls : List Nat), g.m_entry = some e ∧
      visit_calls fuel g = Visit.returned g1 calls ∧
      (∀ p, Reachable g e p → calls.count p = 1) ∧
      (∀ p, ¬ Reachable g e p → calls.count p = 0) := by
  obtain ⟨e, V, g1, h1, -, h3, h4, h5, -, -⟩ := visit_calls_spec g
    (parse_fresh buf base g hwf hfit h) fuel hfuel
  refine ⟨e, g1, V, h1, h5, ?_, ?_⟩
  · intro p hp
    exact List.count_eq_one_of_mem h3 ((h4 p).mpr hp)
  · intro p hp
    exact List.count_eq_zero_of_not_mem (fun hx => hp ((h4 p).mp hx))

/-- Witness of C14 on `sample_split`, whose graph has a block with two predecessors
(allocated fourth) and a block that no edge reaches (allocated third): the callback is
invoked on the blocks 0, 1 and 3. -/
theorem visit_reachable_once_witness :
    WellFormed sample_split 0x1000 ∧ fits_types sample_split = true ∧
    parse ControlFlowGraph.ctor sample_split 0x1000 = Outcome.done sample_split_graph ∧
    (∃ g1, visit_calls 4 sample_split_graph = Visit.returned g1 [0, 1, 3]) ∧
    (∃ (e : Nat) (g1 : ControlFlowGraph) (calls : List Nat),
      sample_split_graph.m_entry = some e ∧
      visit_calls 4 sample_split_graph = Visit.returned g1 calls ∧
      (∀ p, Reachable sample_split_graph e p → calls.count p = 1) ∧
      (∀ p, ¬ Reachable sample_split_graph e p → calls.count p = 0)) :=
  ⟨by decide, by decide, by decide, ⟨_, rfl⟩,
    visit_reachable_once sample_split 0x1000 sample_split_graph (by decide) (by decide)
      (by decide) 4 (by decide)⟩

/-- C15: for a well-formed input, held in records that fit their C types, on which `parse`
succeeds, the sequence of blocks on which `visit` invokes the callback is the depth-first
pre-order of the graph from its entry block, the successors of a block explored in the
order of its edge list. -/
theorem visit_preorder (buf : List cs_insn) (base : Nat) (g : ControlFlowGraph)
    (hwf : WellFormed buf base) (hfit : fits_types buf = true)
    (h : parse ControlFlowGraph.ctor buf base = Outcome.done g)
    (fuel : Nat) (hfuel : g.heap.length ≤ fuel) :
    ∃ (g1 : ControlFlowGraph) (calls : List Nat),
      visit_calls fuel g = Visit.returned g1 calls ∧ dfs_preorder g = some calls := by
  obtain ⟨e, V, g1, -, h2, -, -, h5, -, -⟩ := visit_calls_spec g
    (parse_fresh buf base g hwf hfit h) fuel hfuel
  exact ⟨g1, V, h5, h2⟩

/-- Witness of C15 on `sample_loop`: the block allocated third, which the first edge of the
entry block points to, is reported before the block allocated second. -/
theorem visit_preorder_witness :
    WellFormed sample_loop 0x1000 ∧ fits_types sample_loop = true ∧
    parse ControlFlowGraph.ctor sample_loop 0x1000 = Outcome.done sample_loop_graph ∧
    dfs_preorder sample_loop_graph = some [0, 2, 1] ∧
    (∃ (g1 : ControlFlowGraph) (calls : List Nat),
      visit_calls 3 sample_loop_graph = Visit.returned g1 calls ∧
      dfs_preorder sample_loop_graph = some calls) :=
  ⟨by decide, by decide, by decide, by decide,
    visit_preorder sample_loop 0x1000 sample_loop_graph (by decide) (by decide) (by decide)
      3 (by decide)⟩

/-- C18: for a well-formed input, held in records that fit their C types, on which `parse`
succeeds, every later call of `visit` on the graph, made after the calls before it
returned and with no mark reset, invokes the callback on the sequence of blocks of the
first call; and on the graph `gs` on which a call starts, the mark of no block reachable
from the entry block is the mark of the entry block plus one in `uint32_t` arithmetic,
the epoch of the call. `visit_again fuel g k` is the call number `k + 1`. -/
theorem visit_again_same (buf : List cs_insn) (base : Nat) (g : ControlFlowGraph)
    (hwf : WellFormed buf base) (hfit : fits_types buf = true)
    (h : parse ControlFlowGraph.ctor buf base = Outcome.done g)
    (fuel : Nat) (hfuel : g.heap.length ≤ fuel) (k : Nat) :
    (∃ (g1 gk : ControlFlowGraph) (calls : List Nat),
      visit_again fuel g 0 = Visit.returned g1 calls ∧
      visit_again fuel g k = Visit.returned gk calls) ∧
    ∀ gs : ControlFlowGraph,
      ((k = 0 ∧ gs = g) ∨
        ∃ (j : Nat) (calls : List Nat), k = j + 1 ∧
          visit_again fuel g j = Visit.returned gs calls) →
      ∀ (e x : Nat) (be b : cfg_basic_block), gs.m_entry = some e →
        gs.heap[e]? = some be → Reachable gs e x → gs.heap[x]? = some b →
        b.visitor_seq ≠ add32 be.visitor_seq 1 := by
  have hF := parse_fresh buf base g hwf hfit h
  obtain ⟨e, V, g1, -, h2, -, -, -, -, -⟩ := visit_calls_spec g hF fuel hfuel
  obtain ⟨g0, h0, -, -⟩ := visit_again_spec g hF fuel hfuel V h2 0
  obtain ⟨gk, hk, -, -⟩ := visit_again_spec g hF fuel hfuel V h2 k
  refine ⟨⟨g0, gk, V, h0, hk⟩, ?_⟩
  intro gs hgs
  have hFs : Fresh gs := by
    rcases hgs with ⟨-, rfl⟩ | ⟨j, calls, -, hj⟩
    · exact hF
    · obtain ⟨gj, hj2, -, hFj⟩ := visit_again_spec g hF fuel hfuel V h2 j
      rw [hj] at hj2
      simp only [Visit.returned.injEq] at hj2
      rw [hj2.1]
      exact hFj
  obtain ⟨e1, be1, he1, hbe1, hlt, -, hsame⟩ := hFs
  intro e2 x be b he2 hbe hx hb
  rw [he1] at he2
  have := Option.some.inj he2
  subst this
  rw [hbe1] at hbe
  have := Option.some.inj hbe
  subst this
  rw [hsame x b hx hb]
  simp only [add32]
  omega

/-- Witness of C18 on `sample_self_loop`, whose entry block has an edge to itself: the
third call of `visit` reports the blocks 0 and 1 as the first call does. -/
theorem visit_again_same_witness :
    WellFormed sample_self_loop 0x1000 ∧ fits_types sample_self_loop = true ∧
    parse ControlFlowGraph.ctor sample_self_loop 0x1000 =
      Outcome.done sample_self_loop_graph ∧
    (∃ g1, visit_again 2 sample_self_loop_graph 0 = Visit.returned g1 [0, 1]) ∧
    ((∃ (g1 gk : ControlFlowGraph) (calls : List Nat),
      visit_again 2 sample_self_loop_graph 0 = Visit.returned g1 calls ∧
      visit_again 2 sample_self_loop_graph 2 = Visit.returned gk calls) ∧
    ∀ gs : ControlFlowGraph,
      ((2 = 0 ∧ gs = sample_self_loop_graph) ∨
        ∃ (j : Nat) (calls : List Nat), 2 = j + 1 ∧
          visit_again 2 sample_self_loop_graph j = Visit.returned gs calls) →
      ∀ (e x : Nat) (be b : cfg_basic_block), gs.m_entry = some e →
        gs.heap[e]? = some be → Reachable gs e x → gs.heap[x]? = some b →
        b.visitor_seq ≠ add32 be.visitor_seq 1) :=
  ⟨by decide, by decide, by decide, ⟨_, rfl⟩,
    visit_again_same sample_self_loop 0x1000 sample_self_loop_graph (by decide) (by decide)
      (by decide) 2 (by decide) 2⟩

/-- C16 as stated fails at `sample_indirect`, where the block at 0x1003 follows a jump
through a register and no edge reaches it: `parse` succeeds, the graph stores two blocks,
and the text `generate_dot` writes has one node declaration, that of the block at 0x1000;
the block at 0x1003 is named in the layout chain only. -/
theorem dot_unreachable_block_undeclared :
    WellFormed sample_indirect 0x1000 ∧ fits_types sample_indirect = true ∧
    parse ControlFlowGraph.ctor sample_indirect 0x1000 = Outcome.done sample_indirect_graph ∧
    block_starts sample_indirect_graph = [0x1000, 0x1003] ∧
    ∃ (g1 : ControlFlowGraph) (text : List dot_stmt),
      generate_dot 2 sample_indirect_graph = Visit.returned g1 text ∧
      text = [dot_stmt.header, dot_stmt.chain [0x1000, 0x1003],
              dot_stmt.node 0x1000 [insn_nop 0x1000, insn_jmp_reg 0x1001],
              dot_stmt.close] ∧
      node_decls text = [0x1000] ∧
      (node_decls text).length ≠ (blocks sample_indirect_graph).length :=
  ⟨by decide, by decide, by decide, by decide, _, _, rfl, by decide, by decide, by decide⟩

/-- C16, amended: for a well-formed input, held in records that fit their C types, on which
`parse` succeeds, `generate_dot` returns whenever the depth of recursion it is given is at
least the number of allocated blocks, and the text it writes has exactly one node
declaration for each block reachable from the entry block by edges and exactly one edge
declaration for each edge of each such block, coloured by the classification of the edge:
with `V` the reachable blocks in the order `visit` reports them, each once, the node
declarations name the blocks of `V` in order and no name twice, and the edge declarations
are those of the edges of the blocks of `V`, block by block in edge-list order. -/
theorem dot_reachable_decls (buf : List cs_insn) (base : Nat) (g : ControlFlowGraph)
    (hwf : WellFormed buf base) (hfit : fits_types buf = true)
    (h : parse ControlFlowGraph.ctor buf base = Outcome.done g)
    (fuel : Nat) (hfuel : g.heap.length ≤ fuel) :
    ∃ (e : Nat) (V : List Nat) (g1 : ControlFlowGraph) (text : List dot_stmt),
      g.m_entry = some e ∧ V.Nodup ∧ (∀ p, p ∈ V ↔ Reachable g e p) ∧
      generate_dot fuel g = Visit.returned g1 text ∧
      node_decls text = V.map (block_addr g) ∧ (node_decls text).Nodup ∧
      edge_decls text = emitted (block_edge_decls g) V := by
  have hF := parse_fresh buf base g hwf hfit h
  have hinv := parse_edgeinv buf base g hwf hfit h
  have ht := parse_tile buf base g hwf hfit h
  have hL := Layout_of_WellFormed buf base hwf hfit
  obtain ⟨e0, be0, he0, hbe0, hbuf⟩ := parse_entry buf base g hwf hfit h
  have hclosed : ∀ (p : Nat) (b : cfg_basic_block), g.heap[p]? = some b →
      ∀ ed ∈ b.edges, ed.to_ < g.heap.length := fun p b hp => (hinv p b hp).2.2.1
  have hrange : ∀ (p : Nat) (b : cfg_basic_block), g.heap[p]? = some b →
      b.insn + b.insn_count ≤ g.m_insn_buffer.length := by
    intro p b hp
    obtain ⟨b1, hb1, -, -, -, hle, -⟩ := Tile_mem _ _ _ 0 _ ht _ _ (hinv p b hp).1
    rw [hp] at hb1
    have := Option.some.inj hb1
    subst this
    rw [hbuf]
    exact hle
  obtain ⟨e, V, g1, h1, -, h3, h4, h5, -, -⟩ := visit_spec dot_visitor (block_decls g) g hF
    (fun g1 n hu hn => dot_visitor_spec g hclosed hrange g1 n hu hn) fuel hfuel
  have hchain := dot_chain_keys g g.m_blocks (fun k p hm => by
    obtain ⟨b, hb, hk, -⟩ := Tile_mem _ _ _ 0 _ ht k p hm
    exact ⟨b, hb, hk⟩)
  have hVlt : ∀ p ∈ V, p < g.heap.length := by
    intro p hp
    have hre := (h4 p).mp hp
    rw [he0] at h1
    have := Option.some.inj h1
    subst this
    refine reach_bounded (successors g) g.heap.length ?_ e0 p
      (getElem?_lt_length _ _ _ hbe0) hre
    intro x hx y hy
    have hb : g.heap[x]? = some (g.heap.get ⟨x, hx⟩) := List.getElem?_eq_getElem hx
    simp only [successors, hb, List.mem_map] at hy
    obtain ⟨ed, hed, rfl⟩ := hy
    exact hclosed x _ hb ed hed
  have hnodes : node_decls ([dot_stmt.header, dot_stmt.chain (g.m_blocks.map Prod.fst)] ++
      emitted (block_decls g) V ++ [dot_stmt.close]) = V.map (block_addr g) := by
    rw [node_decls_text, node_decls_emitted g V hVlt]
  refine ⟨e, V, g1, _, h1, h3, h4, by simp only [generate_dot, hchain, h5], hnodes, ?_, ?_⟩
  · rw [hnodes]
    apply List.Nodup.map_on _ h3
    intro x hx y hy hxy
    have hxb : g.heap[x]? = some (g.heap.get ⟨x, hVlt x hx⟩) :=
      List.getElem?_eq_getElem (hVlt x hx)
    have hyb : g.heap[y]? = some (g.heap.get ⟨y, hVlt y hy⟩) :=
      List.getElem?_eq_getElem (hVlt y hy)
    have m1 := (hinv x _ hxb).1
    have m2 := (hinv y _ hyb).1
    simp only [block_addr, hxb, hyb] at hxy
    rw [hxy] at m1
    exact nodup_keys_unique g.m_blocks (Tile_keys_nodup _ _ hL g.heap g.m_blocks ht) _ x y
      m1 m2
  · rw [edge_decls_text, edge_decls_emitted]

/-- Witness of the amended C16 on `sample_split`: the text declares the three reachable
blocks, at 0x1000, 0x1003 and 0x1004, and their three edges, one red, one blue, one
gray. -/
theorem dot_reachable_decls_witness :
    WellFormed sample_split 0x1000 ∧ fits_types sample_split = true ∧
    parse ControlFlowGraph.ctor sample_split 0x1000 = Outcome.done sample_split_graph ∧
    (∃ (g1 : ControlFlowGraph) (text : List dot_stmt),
      generate_dot 4 sample_split_graph = Visit.returned g1 text ∧
      node_decls text = [0x1000, 0x1003, 0x1004] ∧
      edge_decls text = [(0x1000, 0x1003, dot_color.red), (0x1000, 0x1004, dot_color.blue),
                         (0x1003, 0x1004, dot_color.gray)]) ∧
    (∃ (e : Nat) (V : List Nat) (g1 : ControlFlowGraph) (text : List dot_stmt),
      sample_split_graph.m_entry = some e ∧ V.Nodup ∧
      (∀ p, p ∈ V ↔ Reachable sample_split_graph e p) ∧
      generate_dot 4 sample_split_graph = Visit.returned g1 text ∧
      node_decls text = V.map (block_addr sample_split_graph) ∧ (node_decls text).Nodup ∧
      edge_decls text = emitted (block_edge_decls sample_split_graph) V) :=
  ⟨by decide, by decide, by decide, ⟨_, _, rfl, by decide, by decide⟩,
    dot_reachable_decls sample_split 0x1000 sample_split_graph (by decide) (by decide)
      (by decide) 4 (by decide)⟩

end Cfgtool
